import Mathlib

/-! # Review-bundle pipeline of `bitbucketwebhook.go`

A shallow embedding of the pure parts of the webhook pipeline: the chunk
assembler (`writeDiffToFile` and the chunk generators), the comment codec
(`parseGPT4Response`) and the definition locator (`findDefinitionInFile`,
`findReferencedDefinitions`).

Go strings are modelled as `List Char` (texts of Unicode scalar values).
Results of external collaborators (git, the file system, the spreadsheet
service, the clock) are inputs of the embedded functions.
-/

deriving instance DecidableEq for Except

namespace BitbucketWebhook

/-! ## The `strings` helpers used by the source -/

/-- Go `strings.HasPrefix`. -/
def stringsHasPrefix (s pre : List Char) : Bool := pre.isPrefixOf s

/-- Go `strings.HasSuffix`. -/
def stringsHasSuffix (s suf : List Char) : Bool := suf.reverse.isPrefixOf s.reverse

/-- Go `strings.Contains`: `sub` occurs in `s` at some position. -/
def stringsContains : List Char → List Char → Bool
  | [], sub => sub.isPrefixOf []
  | c :: t, sub => sub.isPrefixOf (c :: t) || stringsContains t sub

/-- Scan of `strings.Count` for a non-empty pattern: `skip` characters of the
last counted occurrence are still to be passed over (occurrences do not overlap). -/
def countFrom (sub : List Char) : Nat → List Char → Nat
  | _, [] => 0
  | skip + 1, _ :: t => countFrom sub skip t
  | 0, c :: t =>
    if sub.isPrefixOf (c :: t) then 1 + countFrom sub (sub.length - 1) t
    else countFrom sub 0 t

/-- Go `strings.Count`: the number of non-overlapping occurrences of `sub` in `s`
(one more than the number of characters when `sub` is empty). -/
def stringsCount (s sub : List Char) : Nat :=
  if sub.isEmpty then s.length + 1 else countFrom sub 0 s

/-- Scan of `strings.Split` for a non-empty separator; `cur` holds the current
piece reversed. -/
def splitFrom (sep : List Char) : Nat → List Char → List Char → List (List Char)
  | _, cur, [] => [cur.reverse]
  | skip + 1, cur, _ :: t => splitFrom sep skip cur t
  | 0, cur, c :: t =>
    if sep.isPrefixOf (c :: t) then cur.reverse :: splitFrom sep (sep.length - 1) [] t
    else splitFrom sep 0 (c :: cur) t

/-- Go `strings.Split`: all pieces of `s` between occurrences of `sep`
(one piece per character when `sep` is empty). -/
def stringsSplit (s sep : List Char) : List (List Char) :=
  if sep.isEmpty then s.map (fun c => [c]) else splitFrom sep 0 [] s

/-- Go `strings.Join`. -/
def stringsJoin : List (List Char) → List Char → List Char
  | [], _ => []
  | [a], _ => a
  | a :: b :: rest, sep => a ++ sep ++ stringsJoin (b :: rest) sep

/-- Decimal digit character of a number below ten. -/
def digitChar (d : Nat) : Char := Char.ofNat (48 + d)

/-- Decimal digits of `n`, most significant first, in front of `acc`. -/
def natDigits : Nat → Nat → List Char → List Char
  | 0, _, acc => acc
  | fuel + 1, n, acc =>
    if n < 10 then digitChar n :: acc
    else natDigits fuel (n / 10) (digitChar (n % 10) :: acc)

/-- Rendering of a natural number by the verb `%d`. -/
def formatNat (n : Nat) : List Char := natDigits (n + 1) n []

/-- Rendering of an integer by the verb `%d` (and by `strconv.Itoa`). -/
def formatInt : Int → List Char
  | Int.ofNat n => formatNat n
  | Int.negSucc n => '-' :: formatNat (n + 1)

/-! ## Data model -/

/-- One entry of `PullRequest.Reviewers`. -/
structure Reviewer where
  DisplayName : List Char
  UUID : List Char
  deriving DecidableEq, Repr

/-- The fields of `PullRequestCreatedPayload` (nested structs flattened). -/
structure PullRequestCreatedPayload where
  ID : Int
  Title : List Char
  SourceBranchName : List Char
  DestinationBranchName : List Char
  Reviewers : List Reviewer
  Description : List Char
  RepositoryFullName : List Char
  deriving DecidableEq, Repr

/-- Source type `FileContext` (the dependency map is never filled by the source). -/
structure FileContext where
  Path : List Char
  Content : List Char
  PreviousContent : List Char
  TestContent : List Char
  Language : List Char
  deriving DecidableEq, Repr

/-- Source type `PRDescription`. -/
structure PRDescription where
  Summary : List Char
  FileChanges : List (List Char)
  Impact : List Char
  deriving DecidableEq, Repr

/-- Source type `CodeDefinition`; the field `Type` of the source is `Kind` here. -/
structure CodeDefinition where
  Kind : List Char
  Name : List Char
  Content : List Char
  FilePath : List Char
  References : List (List Char)
  deriving DecidableEq, Repr

/-- Source type `CommitInfo`. -/
structure CommitInfo where
  Hash : List Char
  Author : List Char
  Date : List Char
  Message : List Char
  FilesChanged : List (List Char)
  deriving DecidableEq, Repr

/-- Source type `ArchitecturalContext`; the import graph is kept as the list of
its entries. -/
structure ArchitecturalContext where
  PackageDependencies : List (List Char)
  ImportGraph : List (List Char × List (List Char))
  DatabaseSchemas : List (List Char)
  APIEndpoints : List (List Char)
  ConfigFiles : List (List Char)
  deriving DecidableEq, Repr

/-- Source type `TestCase`. -/
structure TestCase where
  ID : List Char
  Description : List Char
  Steps : List (List Char)
  Expected : List Char
  Actual : List Char
  Status : List Char
  deriving DecidableEq, Repr

/-- Source type `TestCaseContext`. -/
structure TestCaseContext where
  SheetURL : List Char
  SheetID : List Char
  TestCases : List TestCase
  TotalTests : Int
  PassedTests : Int
  FailedTests : Int
  PendingTests : Int
  deriving DecidableEq, Repr

/-- Source type `LanguageStats`. -/
structure LanguageStats where
  Language : List Char
  Count : Int
  deriving DecidableEq, Repr

/-- Source type `Inline` of a comment. -/
structure Inline where
  Path : List Char
  To : Int
  From : Int
  deriving DecidableEq, Repr

/-- Source type `Content` of a comment. -/
structure Content where
  Raw : List Char
  deriving DecidableEq, Repr

/-- Source type `CommentPayload`; the pointer `*Inline` is an option. -/
structure CommentPayload where
  Content : Content
  Inline : Option Inline
  deriving DecidableEq, Repr

/-- Source constant `chunkSeparator`. -/
def chunkSeparator : List Char := "\n<<<<<<<<<<<< CHUNK SEPARATOR >>>>>>>>>>>\n".toList

/-- The marker that opens every chunk. -/
def chunkMarker : List Char := "### CHUNK:".toList

/-- The ten chunk names in the order of the table of contents. -/
def chunkNames : List (List Char) :=
  [" PR METADATA".toList, " PR DESCRIPTION".toList, " ARCHITECTURAL CONTEXT".toList,
   " COMMIT HISTORY".toList, " TEST CASES".toList, " CODE CONTEXT".toList,
   " GIT DIFF".toList, " COMPLETE FILES".toList, " REVIEW INSTRUCTIONS".toList,
   " REVIEW OUTPUT FORMAT".toList]

/-! ## Chunk generators -/

/-- Numbered reviewer lines of `formatReviewers`, the first numbered `i + 1`. -/
def reviewerLines : Nat → List Reviewer → List Char
  | _, [] => []
  | i, r :: rest =>
    formatNat (i + 1) ++ ". ".toList ++ r.DisplayName ++ "\n".toList ++ reviewerLines (i + 1) rest

/-- Source function `formatReviewers`. -/
def formatReviewers (reviewers : List Reviewer) : List Char :=
  if reviewers.length = 0 then "No reviewers assigned".toList
  else reviewerLines 0 reviewers

/-- The language line of `generateMetadataChunk`; `languages` is the result of
`detectRepoLanguages` (`none` when the walk fails). -/
def languageInfo (languages : Option (List LanguageStats)) : List Char :=
  match languages with
  | some (l :: ls) =>
    stringsJoin ((l :: ls).map fun lang =>
      lang.Language ++ " (".toList ++ formatInt lang.Count ++ " files)".toList) ", ".toList
  | _ => "Unable to detect repository languages".toList

/-- Source function `generateMetadataChunk`; `now` is the formatted clock reading. -/
def generateMetadataChunk (payload : PullRequestCreatedPayload)
    (fullRepo sourceBranch destBranch : List Char) (changedFiles : List (List Char))
    (languages : Option (List LanguageStats)) (now : List Char) : List Char :=
  "### CHUNK: PR METADATA\n# Pull Request Overview\n- PR ID: ".toList ++ formatInt payload.ID ++
  "\n- Title: ".toList ++ payload.Title ++
  "\n- Repository: ".toList ++ fullRepo ++
  "\n- Repository URL: https://bitbucket.org/".toList ++ fullRepo ++
  "\n- Source Branch: ".toList ++ sourceBranch ++
  "\n- Target Branch: ".toList ++ destBranch ++
  "\n- Created/Updated At: ".toList ++ now ++
  "\n- Repository Languages: ".toList ++ languageInfo languages ++
  "\n\n## Reviewers\n".toList ++ formatReviewers payload.Reviewers ++
  "\n\n## Files Changed\nTotal files changed: ".toList ++ formatNat changedFiles.length ++
  "\n".toList

/-- Source function `formatPRDescription`. -/
def formatPRDescription (desc : PRDescription) : List Char :=
  "## Description\n".toList ++ desc.Summary ++ "\n\n".toList ++
  "### Changed Files\n".toList ++
  (desc.FileChanges.map fun change => change ++ "\n".toList).flatten ++
  "\n".toList ++ desc.Impact ++ "\n".toList

/-- Source function `generateDescriptionChunk`. -/
def generateDescriptionChunk (prDesc : PRDescription) : List Char :=
  "### CHUNK: PR DESCRIPTION\n# Change Description\n".toList ++ formatPRDescription prDesc

/-- One rendered definition of `formatDefinitions`. -/
def formatDefinitionEntry (d : CodeDefinition) : List Char :=
  "\nFrom ".toList ++ [Char.ofNat 96] ++ d.FilePath ++ [Char.ofNat 96] ++ ":\n".toList ++
  [Char.ofNat 96, Char.ofNat 96, Char.ofNat 96] ++ "go\n".toList ++ d.Content ++
  "\n".toList ++ [Char.ofNat 96, Char.ofNat 96, Char.ofNat 96] ++ "\n".toList

/-- Source function `formatDefinitions`. -/
def formatDefinitions (definitions : List CodeDefinition) : List Char :=
  if definitions.length = 0 then "No additional definitions found".toList
  else
    let structDefs := definitions.filter fun d => d.Kind = "struct".toList
    let funcDefs := definitions.filter fun d => d.Kind = "function".toList
    let otherDefs := definitions.filter fun d =>
      ¬ (d.Kind = "struct".toList) ∧ ¬ (d.Kind = "function".toList)
    "### Related Code Definitions\n\n".toList ++
    (if structDefs.length > 0 then
      "#### Type Definitions\n".toList ++ (structDefs.map formatDefinitionEntry).flatten
     else []) ++
    (if funcDefs.length > 0 then
      "\n#### Function Definitions\n".toList ++ (funcDefs.map formatDefinitionEntry).flatten
     else []) ++
    (if otherDefs.length > 0 then
      "\n#### Other Definitions\n".toList ++ (otherDefs.map formatDefinitionEntry).flatten
     else [])

/-- Source function `generateContextChunk`. -/
def generateContextChunk (definitions : List CodeDefinition) : List Char :=
  "### CHUNK: CODE CONTEXT\n# Related Code Definitions\n".toList ++ formatDefinitions definitions

/-- Source function `generateDiffChunk`. -/
def generateDiffChunk (diffOutput : List Char) : List Char :=
  "### CHUNK: GIT DIFF\n# Changes Made\n".toList ++
  [Char.ofNat 96, Char.ofNat 96, Char.ofNat 96] ++ "diff\n".toList ++ diffOutput ++
  "\n".toList ++ [Char.ofNat 96, Char.ofNat 96, Char.ofNat 96]

/-- A fenced listing of `formatCompleteFileContents`: the fence with the language
tag, the text, and a final newline when the text does not end in one. -/
def fencedListing (language text : List Char) : List Char :=
  [Char.ofNat 96, Char.ofNat 96, Char.ofNat 96] ++
  (if language ≠ [] then language else []) ++ "\n".toList ++ text ++
  (if stringsHasSuffix text "\n".toList then [] else "\n".toList) ++
  [Char.ofNat 96, Char.ofNat 96, Char.ofNat 96] ++ "\n".toList

/-- One map entry rendered by `formatCompleteFileContents`. -/
def formatFileEntry (entry : List Char × FileContext) : List Char :=
  "\n### ".toList ++ entry.1 ++ "\n".toList ++
  fencedListing entry.2.Language entry.2.Content ++
  (if entry.2.TestContent ≠ [] then
    "\n### Test File: ".toList ++ (entry.1 ++ "_test.".toList ++ entry.2.Language) ++
    "\n".toList ++ fencedListing entry.2.Language entry.2.TestContent
   else [])

/-- Source function `formatCompleteFileContents`; `contexts` lists the map entries
in the order in which the map is ranged over. -/
def formatCompleteFileContents (contexts : List (List Char × FileContext)) : List Char :=
  if contexts.length = 0 then "No file contents available".toList
  else (contexts.map formatFileEntry).flatten

/-- Source function `generateFileContentsChunk`. -/
def generateFileContentsChunk (contexts : List (List Char × FileContext)) : List Char :=
  "### CHUNK: COMPLETE FILES\n# Complete File Contents\n".toList ++
  formatCompleteFileContents contexts

/-- The lines of one commit in `generateCommitHistoryChunk`. -/
def formatCommit (commit : CommitInfo) : List Char :=
  "* ".toList ++ commit.Message ++ " (".toList ++ commit.Date ++ ") by ".toList ++
  commit.Author ++ "\n".toList ++ "  Changed files:\n".toList ++
  (commit.FilesChanged.map fun f => "  - ".toList ++ f ++ "\n".toList).flatten ++
  "\n".toList

/-- Source function `generateCommitHistoryChunk`; `recentCommits file` is the result
of `getRecentCommits` for a changed file (`none` when git fails, and the file is
skipped). -/
def generateCommitHistoryChunk (recentCommits : List Char → Option (List CommitInfo))
    (changedFiles : List (List Char)) : List Char :=
  "### CHUNK: COMMIT HISTORY\n".toList ++ "# Recent Changes History\n\n".toList ++
  (changedFiles.map fun file =>
    match recentCommits file with
    | none => []
    | some commits =>
      "## File: ".toList ++ file ++ "\n".toList ++ "Recent commits:\n".toList ++
      (commits.map formatCommit).flatten ++ "\n".toList).flatten

/-- The bullet list written for each section of `generateArchitecturalChunk`. -/
def bulletLines (items : List (List Char)) : List Char :=
  (items.map fun item => "- ".toList ++ item ++ "\n".toList).flatten

/-- Source function `generateArchitecturalChunk`; `arch` is the result of
`getArchitecturalContext` (`none` when the tree walk fails). -/
def generateArchitecturalChunk (arch : Option ArchitecturalContext) : List Char :=
  match arch with
  | none => "Error gathering architectural context".toList
  | some context =>
    "### CHUNK: ARCHITECTURAL CONTEXT\n".toList ++ "# System Architecture Overview\n\n".toList ++
    "## Package Dependencies\n".toList ++ bulletLines context.PackageDependencies ++ "\n".toList ++
    "## API Endpoints\n".toList ++ bulletLines context.APIEndpoints ++ "\n".toList ++
    "## Configuration Files\n".toList ++ bulletLines context.ConfigFiles ++ "\n".toList ++
    (if context.DatabaseSchemas.length > 0 then
      "## Database Schema Files\n".toList ++ bulletLines context.DatabaseSchemas
     else [])

/-- Numbered step lines of a test case, the first numbered `i + 1`. -/
def stepLines : Nat → List (List Char) → List Char
  | _, [] => []
  | i, step :: rest =>
    formatNat (i + 1) ++ ". ".toList ++ step ++ "\n".toList ++ stepLines (i + 1) rest

/-- The block of one test case in `generateTestCaseChunk`. -/
def formatTestCase (test : TestCase) : List Char :=
  "\n### Test Case ".toList ++ test.ID ++ "\n".toList ++
  "**Description:** ".toList ++ test.Description ++ "\n\n".toList ++
  "**Steps:**\n".toList ++ stepLines 0 test.Steps ++
  "\n**Expected Result:** ".toList ++ test.Expected ++ "\n".toList ++
  "**Actual Result:** ".toList ++ test.Actual ++ "\n".toList ++
  "**Status:** ".toList ++ test.Status ++ "\n".toList

/-- Source function `generateTestCaseChunk`; `percent part total` stands for the
verb `%.1f` applied to `float64(part)/float64(total)*100`, whose floating-point
rendering is left to the caller. -/
def generateTestCaseChunk (percent : Int → Int → List Char) (testContext : TestCaseContext) :
    List Char :=
  if testContext.TotalTests = 0 then "### CHUNK: TEST CASES\n# No test cases found\n".toList
  else
    "### CHUNK: TEST CASES\n".toList ++ "# Test Case Summary\n\n".toList ++
    "## Test Statistics\n".toList ++
    "- Total Test Cases: ".toList ++ formatInt testContext.TotalTests ++ "\n".toList ++
    "- Passed: ".toList ++ formatInt testContext.PassedTests ++ " (".toList ++
      percent testContext.PassedTests testContext.TotalTests ++ "%)\n".toList ++
    "- Failed: ".toList ++ formatInt testContext.FailedTests ++ " (".toList ++
      percent testContext.FailedTests testContext.TotalTests ++ "%)\n".toList ++
    "- Pending: ".toList ++ formatInt testContext.PendingTests ++ " (".toList ++
      percent testContext.PendingTests testContext.TotalTests ++ "%)\n\n".toList ++
    "## Test Cases\n".toList ++ (testContext.TestCases.map formatTestCase).flatten ++
    "\nTest Cases Sheet: ".toList ++ testContext.SheetURL ++ "\n".toList

/-- The test-case chunk chosen in `writeDiffToFile`; `sheet` is `none` when
`extractGoogleSheetURL` finds no sheet link in the title and description, and
otherwise the result of `getTestCasesFromSheet` (an error carries its message). -/
def testCaseChunk (percent : Int → Int → List Char)
    (sheet : Option (Except (List Char) TestCaseContext)) : List Char :=
  match sheet with
  | some (Except.ok testContext) => generateTestCaseChunk percent testContext
  | some (Except.error err) =>
    "### CHUNK: TEST CASES\n# Error fetching test cases\n".toList ++ err
  | none => "### CHUNK: TEST CASES\n# No test cases sheet found in PR description\n".toList

/-- The constant review-instructions chunk (generateReviewInstructionsChunk). -/
def generateReviewInstructionsChunk : List Char := String.toList (
  "### CHUNK: REVIEW INSTRUCTIONS\n" ++
  "# Code Review Guidelines\n" ++
  "\n" ++
  "You are a highly experienced software engineer and professional code reviewer. Your role is to carefully analyze submitted code changes as if you are reviewing them for a critical production system. You take your responsibility seriously \u201a\u00c4\u00ee providing detailed, thoughtful, and actionable feedback to ensure the code is correct, maintainable, secure, and high quality. You strive to communicate clearly and constructively, helping the author improve their work effectively.\n" ++
  "\n" ++
  "## Primary Focus\n" ++
  "1. Code Correctness\n" ++
  "   - Logic errors\n" ++
  "   - Edge cases\n" ++
  "   - Error handling\n" ++
  "   - Race conditions\n" ++
  "\n" ++
  "2. Code Quality\n" ++
  "   - Best practices\n" ++
  "   - Design patterns\n" ++
  "   - Code organization\n" ++
  "   - Naming conventions\n" ++
  "\n" ++
  "3. Performance\n" ++
  "   - Time complexity\n" ++
  "   - Space complexity\n" ++
  "   - Resource usage\n" ++
  "   - Bottlenecks\n" ++
  "\n" ++
  "4. Security\n" ++
  "   - Input validation\n" ++
  "   - Authentication/Authorization\n" ++
  "   - Data protection\n" ++
  "   - Security best practices\n" ++
  "\n" ++
  "## Secondary Focus\n" ++
  "\n" ++
  "1.Maintainability\n" ++
  "   - Code duplication\n" ++
  "   - Modularity\n" ++
  "   - Extensibility\n" ++
  "\n" ++
  "2. Breaking Changes\n" ++
  "   - API compatibility\n" ++
  "   - Database schema changes\n" ++
  "   - Configuration changes\n" ++
  "\n" ++
  "Please provide specific, actionable feedback for each issue found, including:\n" ++
  "- Issue description\n" ++
  "- Impact assessment\n" ++
  "- Suggested improvements\n" ++
  "- Code examples where applicable")

/-- The constant output-format chunk (generateReviewOutputFormatChunk). -/
def generateReviewOutputFormatChunk : List Char := String.toList (
  "### CHUNK: REVIEW OUTPUT FORMAT\n" ++
  "# Review Output Format\n" ++
  "\n" ++
  "The code review comments must be provided in the following JSON format:\n" ++
  "\n" ++
  "[\n" ++
  "  \x7b\n" ++
  "    \"inline\": \x7b\n" ++
  "      \"path\": \"path/to/file\",\n" ++
  "      \"to\": lineNumber\n" ++
  "    \x7d,\n" ++
  "    \"content\": \x7b\n" ++
  "      \"raw\": \"The review comment text\"\n" ++
  "    \x7d\n" ++
  "  \x7d\n" ++
  "]\n" ++
  "\n" ++
  "## Format Rules:\n" ++
  "1. Each comment must be an object in the array\n" ++
  "2. For inline comments:\n" ++
  "   - Include the \"inline\" object with file path and line number\n" ++
  "   - The \"to\" field specifies the line number the comment refers to\n" ++
  "3. For general comments:\n" ++
  "   - Omit the \"inline\" object\n" ++
  "   - Only include the \"content\" object\n" ++
  "4. The \"raw\" field contains the actual review comment text")

/-- The raw-string part of the table of contents that opens every bundle. -/
def guideText : List Char := String.toList (
  "# Code Review Chunks Guide\n" ++
  "This file is organized into separate chunks for staged review:\n" ++
  "\n" ++
  "1. PR METADATA - Basic information about the pull request and repository languages\n" ++
  "2. PR DESCRIPTION - Detailed description of changes\n" ++
  "3. ARCHITECTURAL CONTEXT - System architecture and dependencies\n" ++
  "4. COMMIT HISTORY - Recent changes to affected files\n" ++
  "5. TEST CASES - Test cases and execution status\n" ++
  "6. CODE CONTEXT - Related code definitions and dependencies\n" ++
  "7. GIT DIFF - Actual changes made\n" ++
  "8. COMPLETE FILES - Full content of changed files\n" ++
  "9. REVIEW INSTRUCTIONS - Guidelines for code review\n" ++
  "10. REVIEW OUTPUT FORMAT - Expected format for review comments\n" ++
  "\n" ++
  "Each chunk is separated by: ")

/-- Source constant `guide` of `writeDiffToFile`. -/
def guide : List Char := guideText ++ chunkSeparator ++ "\n\n".toList

/-- What `writeDiffToFile` has gathered when it assembles the bundle: its
arguments, the values computed before the chunk list is built, and the results
of the external gatherers used by the chunk generators. -/
structure BundleInputs where
  payload : PullRequestCreatedPayload
  fullRepo : List Char
  sourceBranch : List Char
  destBranch : List Char
  exactDiff : List Char
  changedFiles : List (List Char)
  prDesc : PRDescription
  definitions : List CodeDefinition
  fileContexts : List (List Char × FileContext)
  languages : Option (List LanguageStats)
  now : List Char
  arch : Option ArchitecturalContext
  recentCommits : List Char → Option (List CommitInfo)
  sheet : Option (Except (List Char) TestCaseContext)
  percent : Int → Int → List Char

/-- The list `chunks` built by `writeDiffToFile`. -/
def bundleChunks (inp : BundleInputs) : List (List Char) :=
  [ generateMetadataChunk inp.payload inp.fullRepo inp.sourceBranch inp.destBranch
      inp.changedFiles inp.languages inp.now,
    generateDescriptionChunk inp.prDesc,
    generateArchitecturalChunk inp.arch,
    generateCommitHistoryChunk inp.recentCommits inp.changedFiles,
    testCaseChunk inp.percent inp.sheet,
    generateContextChunk inp.definitions,
    generateDiffChunk inp.exactDiff,
    generateFileContentsChunk inp.fileContexts,
    generateReviewInstructionsChunk,
    generateReviewOutputFormatChunk ]

/-- The text `content` that `writeDiffToFile` writes to the bundle file. -/
def writeDiffToFile (inp : BundleInputs) : List Char :=
  guide ++ stringsJoin (bundleChunks inp) chunkSeparator

/-- A bundle input of a run in which the listing of changed paths failed and no
sheet is linked: no changed file, hence the fallback description, and the
gatherers that can fail succeed. -/
def quietInputs : BundleInputs where
  payload :=
    { ID := 7, Title := "Fix".toList, SourceBranchName := "dev".toList,
      DestinationBranchName := "main".toList,
      Reviewers := [{ DisplayName := "ExoReview".toList, UUID := "u1".toList }],
      Description := [], RepositoryFullName := "acme/app".toList }
  fullRepo := "acme/app".toList
  sourceBranch := "dev".toList
  destBranch := "main".toList
  exactDiff := "+x".toList
  changedFiles := []
  prDesc :=
    { Summary := "This PR includes changes to configuration or documentation.".toList,
      FileChanges := [], Impact := "### Impact Assessment\n".toList }
  definitions := []
  fileContexts := []
  languages := none
  now := "2025-01-01 00:00:00".toList
  arch := some { PackageDependencies := [], ImportGraph := [], DatabaseSchemas := [],
                 APIEndpoints := [], ConfigFiles := [] }
  recentCommits := fun _ => none
  sheet := none
  percent := fun _ _ => []

/-- The same run for a pull request whose title quotes a marker. -/
def markerInTitleInputs : BundleInputs :=
  { quietInputs with
    payload := { quietInputs.payload with Title := "Fix ### CHUNK: parsing".toList } }

/-- The same run when the walk of `getArchitecturalContext` fails. -/
def archFailureInputs : BundleInputs := { quietInputs with arch := none }

/-! ## A model of `encoding/json` for `[]CommentPayload`

`json.Unmarshal` and `json.Marshal` are library code.  The model follows the
behaviour of the library on the types of the comments: the whole text is first
checked to be one JSON value (RFC 8259) surrounded by optional white space, and
only then decoded; object keys are matched to the struct tags without regard to
case; unknown keys are skipped; a repeated key is decoded again into the same
field; `null` leaves a non-pointer field unchanged and resets a pointer or
slice; a value of the wrong kind is recorded as a type error while decoding
goes on; an element of a JSON array is decoded into the slice element already
at its index, if there is one.  The nesting limit of the library is not
modelled. -/

/-- A parsed JSON value; a number keeps its literal text. -/
inductive JsonValue where
  | null : JsonValue
  | bool (b : Bool) : JsonValue
  | number (literal : List Char) : JsonValue
  | string (s : List Char) : JsonValue
  | array (items : List JsonValue) : JsonValue
  | object (members : List (List Char × JsonValue)) : JsonValue

/-- JSON white space: space, tab, carriage return and line feed. -/
def isJsonSpace (c : Char) : Bool := c = ' ' || c = '\t' || c = '\r' || c = '\n'

/-- Skip leading JSON white space. -/
def skipWs (s : List Char) : List Char := s.dropWhile isJsonSpace

/-- Value of a hexadecimal digit in a `\u` escape. -/
def hexValue (c : Char) : Option Nat :=
  if '0'.toNat ≤ c.toNat ∧ c.toNat ≤ '9'.toNat then some (c.toNat - 48)
  else if 'a'.toNat ≤ c.toNat ∧ c.toNat ≤ 'f'.toNat then some (c.toNat - 87)
  else if 'A'.toNat ≤ c.toNat ∧ c.toNat ≤ 'F'.toNat then some (c.toNat - 55)
  else none

/-- The code unit written by four hexadecimal digits. -/
def hex4 (a b c d : Char) : Option Nat :=
  match hexValue a, hexValue b, hexValue c, hexValue d with
  | some x, some y, some z, some w => some (((x * 16 + y) * 16 + z) * 16 + w)
  | _, _, _, _ => none

/-- The replacement character U+FFFD. -/
def replacementChar : Char := Char.ofNat 0xFFFD

/-- The character of a `\u` escape whose code unit is `code`, when the text that
follows the escape is `next`: a high surrogate followed by a low-surrogate
escape is combined with it (the flag says that the second escape is used up),
any other surrogate becomes U+FFFD. -/
def unescapeUnit (code : Nat) (next : Option Nat) : Char × Bool :=
  if 0xD800 ≤ code ∧ code < 0xE000 then
    match next with
    | some low =>
      if code < 0xDC00 ∧ 0xDC00 ≤ low ∧ low < 0xE000 then
        (Char.ofNat (0x10000 + (code - 0xD800) * 0x400 + (low - 0xDC00)), true)
      else (replacementChar, false)
    | none => (replacementChar, false)
  else (Char.ofNat code, false)

/-- The code unit of an escape `\uXXXX` at the head of a text (`getu4` of the
library). -/
def getu4 : List Char → Option Nat
  | bs :: u :: a :: b :: c :: d :: _ => if bs = '\\' ∧ u = 'u' then hex4 a b c d else none
  | _ => none

/-- The character written by an escape, given the text after the backslash, and
the text that follows the escape. -/
def unescape : List Char → Option (Char × List Char)
  | [] => none
  | e :: rest =>
    if e = 'u' then
      match rest with
      | a :: b :: c :: d :: rest1 =>
        match hex4 a b c d with
        | none => none
        | some code =>
          let r := unescapeUnit code (getu4 rest1)
          some (r.1, if r.2 then rest1.drop 6 else rest1)
      | _ => none
    else if e = '"' then some ('"', rest)
    else if e = '\\' then some ('\\', rest)
    else if e = '/' then some ('/', rest)
    else if e = 'b' then some (Char.ofNat 8, rest)
    else if e = 'f' then some (Char.ofNat 12, rest)
    else if e = 'n' then some ('\n', rest)
    else if e = 'r' then some ('\r', rest)
    else if e = 't' then some ('\t', rest)
    else none

/-- The body of a JSON string after its opening quote: the decoded text and what
follows the closing quote.  Control characters and malformed escapes are errors. -/
def parseStringBody : Nat → List Char → Option (List Char × List Char)
  | 0, _ => none
  | _ + 1, [] => none
  | fuel + 1, c :: rest =>
    if c = '"' then some ([], rest)
    else if c = '\\' then
      match unescape rest with
      | none => none
      | some (ch, rest1) => (parseStringBody fuel rest1).map fun r => (ch :: r.1, r.2)
    else if c.toNat < 0x20 then none
    else (parseStringBody fuel rest).map fun r => (c :: r.1, r.2)

/-- Decimal digit test. -/
def isDigit (c : Char) : Bool := decide ('0'.toNat ≤ c.toNat ∧ c.toNat ≤ '9'.toNat)

/-- One or more digits at the head of a text, and the rest. -/
def scanDigits (s : List Char) : Option (List Char × List Char) :=
  if (s.takeWhile isDigit).isEmpty then none else some (s.takeWhile isDigit, s.dropWhile isDigit)

/-- The integer part of a number: `0`, or a non-zero digit followed by digits. -/
def scanIntPart : List Char → Option (List Char × List Char)
  | [] => none
  | c :: rest =>
    if c = '0' then some ([c], rest)
    else if isDigit c then some (c :: rest.takeWhile isDigit, rest.dropWhile isDigit)
    else none

/-- The optional fraction of a number. -/
def scanFraction : List Char → Option (List Char × List Char)
  | [] => some ([], [])
  | c :: rest =>
    if c = '.' then (scanDigits rest).map fun r => (c :: r.1, r.2)
    else some ([], c :: rest)

/-- The optional exponent of a number. -/
def scanExponent : List Char → Option (List Char × List Char)
  | [] => some ([], [])
  | c :: rest =>
    if c = 'e' ∨ c = 'E' then
      match rest with
      | sign :: rest1 =>
        if sign = '+' ∨ sign = '-' then (scanDigits rest1).map fun r => (c :: sign :: r.1, r.2)
        else (scanDigits rest).map fun r => (c :: r.1, r.2)
      | [] => none
    else some ([], c :: rest)

/-- A JSON number at the head of a text: its literal and the rest. -/
def parseNumber (s : List Char) : Option (List Char × List Char) :=
  let signed : List Char × List Char :=
    match s with
    | c :: rest => if c = '-' then ([c], rest) else ([], s)
    | [] => ([], s)
  match scanIntPart signed.2 with
  | none => none
  | some (intPart, r1) =>
    match scanFraction r1 with
    | none => none
    | some (frac, r2) =>
      match scanExponent r2 with
      | none => none
      | some (exp, r3) => some (signed.1 ++ intPart ++ frac ++ exp, r3)

mutual
/-- A JSON value at the head of a text (no leading white space): the value and
the rest.  The fuel bounds the number of nested calls; more than the length of
the text is always enough. -/
def parseValue : Nat → List Char → Option (JsonValue × List Char)
  | 0, _ => none
  | _ + 1, [] => none
  | fuel + 1, c :: rest =>
    if c = '"' then (parseStringBody fuel rest).map fun r => (JsonValue.string r.1, r.2)
    else if c = '[' then
      match skipWs rest with
      | [] => none
      | d :: rest1 =>
        if d = ']' then some (JsonValue.array [], rest1)
        else
          match parseValue fuel (d :: rest1) with
          | none => none
          | some (v, rest2) =>
            (parseElements fuel rest2).map fun r => (JsonValue.array (v :: r.1), r.2)
    else if c = '{' then
      match skipWs rest with
      | [] => none
      | d :: rest1 =>
        if d = '}' then some (JsonValue.object [], rest1)
        else if d = '"' then
          (parseMembers fuel rest1).map fun r => (JsonValue.object r.1, r.2)
        else none
    else if "true".toList.isPrefixOf (c :: rest) then
      some (JsonValue.bool true, (c :: rest).drop 4)
    else if "false".toList.isPrefixOf (c :: rest) then
      some (JsonValue.bool false, (c :: rest).drop 5)
    else if "null".toList.isPrefixOf (c :: rest) then
      some (JsonValue.null, (c :: rest).drop 4)
    else (parseNumber (c :: rest)).map fun r => (JsonValue.number r.1, r.2)
/-- The elements of an array after the first one, up to the closing bracket. -/
def parseElements : Nat → List Char → Option (List JsonValue × List Char)
  | 0, _ => none
  | fuel + 1, s =>
    match skipWs s with
    | [] => none
    | d :: rest =>
      if d = ']' then some ([], rest)
      else if d = ',' then
        match parseValue fuel (skipWs rest) with
        | none => none
        | some (v, rest1) => (parseElements fuel rest1).map fun r => (v :: r.1, r.2)
      else none
/-- The members of an object from just after the opening quote of a key, up to
the closing brace. -/
def parseMembers : Nat → List Char → Option (List (List Char × JsonValue) × List Char)
  | 0, _ => none
  | fuel + 1, s =>
    match parseStringBody fuel s with
    | none => none
    | some (key, rest) =>
      match skipWs rest with
      | [] => none
      | colon :: rest1 =>
        if colon = ':' then
          match parseValue fuel (skipWs rest1) with
          | none => none
          | some (v, rest2) =>
            match skipWs rest2 with
            | [] => none
            | d :: rest3 =>
              if d = '}' then some ([(key, v)], rest3)
              else if d = ',' then
                match skipWs rest3 with
                | [] => none
                | q :: rest4 =>
                  if q = '"' then
                    (parseMembers fuel rest4).map fun r => ((key, v) :: r.1, r.2)
                  else none
              else none
        else none
end

/-- The JSON value that a whole text spells, if it is valid JSON (`checkValid`
followed by the scan of the decoder). -/
def parseJson (data : List Char) : Option JsonValue :=
  match parseValue ((skipWs data).length + 1) (skipWs data) with
  | none => none
  | some (v, rest) => if (skipWs rest).isEmpty then some v else none

/-- Whether a text is valid JSON (`json.Valid`). -/
def jsonValid (data : List Char) : Bool := (parseJson data).isSome

/-- ASCII lower case of a key, used to match it with a struct tag whatever its
case (the tags of the comment types contain no letter with a non-ASCII case
variant). -/
def asciiLower (s : List Char) : List Char :=
  s.map fun c => if 'A'.toNat ≤ c.toNat ∧ c.toNat ≤ 'Z'.toNat then Char.ofNat (c.toNat + 32) else c

/-- Value of a run of decimal digits, after the value `acc` of the digits before. -/
def digitsValue : Nat → List Char → Option Nat
  | acc, [] => some acc
  | acc, c :: rest =>
    if isDigit c then digitsValue (acc * 10 + (c.toNat - 48)) rest else none

/-- Result of `strconv.ParseInt(literal, 10, 64)` on the literal of a JSON number:
the literal must be an optional minus sign and digits, within 64 bits. -/
def parseIntLiteral (literal : List Char) : Option Int :=
  match literal with
  | [] => none
  | c :: rest =>
    if c = '-' then
      match rest with
      | [] => none
      | _ :: _ =>
        match digitsValue 0 rest with
        | some n => if n ≤ 2 ^ 63 then some (- (n : Int)) else none
        | none => none
    else
      match digitsValue 0 (c :: rest) with
      | some n => if n < 2 ^ 63 then some (n : Int) else none
      | none => none

/-- Apply a field decoder to every member of an object in turn; the flag is false
when some member raised a type error. -/
def decodeMembers {α : Type} (field : α → List Char → JsonValue → α × Bool) :
    α → List (List Char × JsonValue) → α × Bool
  | cur, [] => (cur, true)
  | cur, (key, v) :: rest =>
    let r1 := field cur key v
    let r2 := decodeMembers field r1.1 rest
    (r2.1, r1.2 && r2.2)

/-- Decode a value into a `string` field holding `cur`. -/
def decodeString (cur : List Char) : JsonValue → List Char × Bool
  | JsonValue.string s => (s, true)
  | JsonValue.null => (cur, true)
  | _ => (cur, false)

/-- Decode a value into an `int` field holding `cur`. -/
def decodeInt (cur : Int) : JsonValue → Int × Bool
  | JsonValue.number literal =>
    match parseIntLiteral literal with
    | some n => (n, true)
    | none => (cur, false)
  | JsonValue.null => (cur, true)
  | _ => (cur, false)

/-- Decode one member of an object into the `Inline` struct `cur`. -/
def decodeInlineField (cur : Inline) (key : List Char) (v : JsonValue) : Inline × Bool :=
  if asciiLower key = "path".toList then
    ({ cur with Path := (decodeString cur.Path v).1 }, (decodeString cur.Path v).2)
  else if asciiLower key = "to".toList then
    ({ cur with To := (decodeInt cur.To v).1 }, (decodeInt cur.To v).2)
  else if asciiLower key = "from".toList then
    ({ cur with From := (decodeInt cur.From v).1 }, (decodeInt cur.From v).2)
  else (cur, true)

/-- Decode a value into the field `Inline *Inline` holding `cur`: `null` resets the
pointer; any other value allocates the struct if the pointer is nil, and only an
object fits it. -/
def decodeInlinePtr (cur : Option Inline) : JsonValue → Option Inline × Bool
  | JsonValue.null => (none, true)
  | JsonValue.object members =>
    let r := decodeMembers decodeInlineField (cur.getD { Path := [], To := 0, From := 0 }) members
    (some r.1, r.2)
  | _ => (some (cur.getD { Path := [], To := 0, From := 0 }), false)

/-- Decode one member of an object into the `Content` struct `cur`. -/
def decodeContentField (cur : Content) (key : List Char) (v : JsonValue) : Content × Bool :=
  if asciiLower key = "raw".toList then
    ({ Raw := (decodeString cur.Raw v).1 }, (decodeString cur.Raw v).2)
  else (cur, true)

/-- Decode a value into the field `Content Content` holding `cur`. -/
def decodeContent (cur : Content) : JsonValue → Content × Bool
  | JsonValue.object members => decodeMembers decodeContentField cur members
  | JsonValue.null => (cur, true)
  | _ => (cur, false)

/-- Decode one member of an object into the `CommentPayload` struct `cur`. -/
def decodeCommentField (cur : CommentPayload) (key : List Char) (v : JsonValue) :
    CommentPayload × Bool :=
  if asciiLower key = "content".toList then
    ({ cur with Content := (decodeContent cur.Content v).1 }, (decodeContent cur.Content v).2)
  else if asciiLower key = "inline".toList then
    ({ cur with Inline := (decodeInlinePtr cur.Inline v).1 }, (decodeInlinePtr cur.Inline v).2)
  else (cur, true)

/-- Decode a value into a slice element holding `cur`. -/
def decodeComment (cur : CommentPayload) : JsonValue → CommentPayload × Bool
  | JsonValue.object members => decodeMembers decodeCommentField cur members
  | JsonValue.null => (cur, true)
  | _ => (cur, false)

/-- The zero value of `CommentPayload`. -/
def zeroComment : CommentPayload := { Content := { Raw := [] }, Inline := none }

/-- Decode the elements of a JSON array into a slice holding `old`: the element at
an index that the slice already has is decoded into the value found there, the
other elements start from the zero value. -/
def decodeElements : List CommentPayload → List JsonValue → List CommentPayload × Bool
  | _, [] => ([], true)
  | old, v :: rest =>
    let r1 := decodeComment (old.headD zeroComment) v
    let r2 := decodeElements old.tail rest
    (r1.1 :: r2.1, r1.2 && r2.2)

/-- Decode a value into the slice `[]CommentPayload` holding `old`. -/
def decodeComments (old : List CommentPayload) : JsonValue → List CommentPayload × Bool
  | JsonValue.array items => decodeElements old items
  | JsonValue.null => ([], true)
  | _ => (old, false)

/-- The two ways in which `json.Unmarshal` fails. -/
inductive JsonError where
  | syntaxError : JsonError
  | unmarshalTypeError : JsonError
  deriving DecidableEq, Repr

/-- Model of `json.Unmarshal(data, &comments)` for a slice that holds `old`: the
error, if any, and the slice afterwards.  A text that is not valid JSON leaves the
slice untouched. -/
def jsonUnmarshal (old : List CommentPayload) (data : List Char) :
    Option JsonError × List CommentPayload :=
  match parseJson data with
  | none => (some JsonError.syntaxError, old)
  | some v =>
    ((if (decodeComments old v).2 then none else some JsonError.unmarshalTypeError),
      (decodeComments old v).1)

/-! ### `json.Marshal` of a comment list -/

/-- Lower-case hexadecimal digit of a number below sixteen. -/
def hexChar (d : Nat) : Char := if d < 10 then Char.ofNat (48 + d) else Char.ofNat (87 + d)

/-- How `json.Marshal` writes one character of a string: quote, backslash and the
short control escapes, `\u00XX` for the other control characters and for `<`, `>`
and `&`, the escapes of U+2028 and U+2029, and every other character as it is. -/
def escapeChar (c : Char) : List Char :=
  if c = '"' then ['\\', '"']
  else if c = '\\' then ['\\', '\\']
  else if c = Char.ofNat 8 then ['\\', 'b']
  else if c = Char.ofNat 12 then ['\\', 'f']
  else if c = '\n' then ['\\', 'n']
  else if c = '\r' then ['\\', 'r']
  else if c = '\t' then ['\\', 't']
  else if c.toNat < 0x20 ∨ c = '<' ∨ c = '>' ∨ c = '&' then
    ['\\', 'u', '0', '0', hexChar (c.toNat / 16), hexChar (c.toNat % 16)]
  else if c = Char.ofNat 0x2028 then ['\\', 'u', '2', '0', '2', '8']
  else if c = Char.ofNat 0x2029 then ['\\', 'u', '2', '0', '2', '9']
  else [c]

/-- A string as written by `json.Marshal`. -/
def encodeString (s : List Char) : List Char :=
  '"' :: ((s.map escapeChar).flatten ++ ['"'])

/-- An object with the given keys and rendered values, in order, without white space. -/
def encodeObject (members : List (List Char × List Char)) : List Char :=
  '{' :: (stringsJoin (members.map fun m => encodeString m.1 ++ ':' :: m.2) [','] ++ ['}'])

/-- The struct `Inline` as written by `json.Marshal`: `to` and `from` carry
`omitempty`. -/
def encodeInline (i : Inline) : List Char :=
  encodeObject
    (("path".toList, encodeString i.Path) ::
      ((if i.To = 0 then [] else [("to".toList, formatInt i.To)]) ++
       (if i.From = 0 then [] else [("from".toList, formatInt i.From)])))

/-- The struct `Content` as written by `json.Marshal`. -/
def encodeContent (c : Content) : List Char :=
  encodeObject [("raw".toList, encodeString c.Raw)]

/-- The struct `CommentPayload` as written by `json.Marshal`: a nil `Inline` is
omitted. -/
def encodeComment (c : CommentPayload) : List Char :=
  encodeObject
    (("content".toList, encodeContent c.Content) ::
      (match c.Inline with
       | some i => [("inline".toList, encodeInline i)]
       | none => []))

/-- Model of `json.Marshal(comments)` for a non-nil slice: a JSON array (a nil slice
is written as `null`). -/
def jsonMarshal (comments : List CommentPayload) : List Char :=
  '[' :: (stringsJoin (comments.map encodeComment) [','] ++ [']'])

/-! ## The comment codec -/

/-- White space of the regular-expression class `\s`. -/
def isRegexSpace (c : Char) : Bool :=
  c = '\t' || c = '\n' || c = Char.ofNat 12 || c = '\r' || c = ' '

/-- The text after the first occurrence of `pat`. -/
def findAfter (pat : List Char) : List Char → Option (List Char)
  | [] => if pat.isPrefixOf [] then some [] else none
  | c :: t => if pat.isPrefixOf (c :: t) then some ((c :: t).drop pat.length) else findAfter pat t

/-- The text before the first occurrence of `pat`. -/
def takeUntil (pat : List Char) : List Char → Option (List Char)
  | [] => if pat.isPrefixOf [] then some [] else none
  | c :: t => if pat.isPrefixOf (c :: t) then some [] else (takeUntil pat t).map (c :: ·)

/-- The opening fence of a JSON block. -/
def jsonFence : List Char := [Char.ofNat 96, Char.ofNat 96, Char.ofNat 96, 'j', 's', 'o', 'n']

/-- The closing fence of a block. -/
def closingFence : List Char := [Char.ofNat 96, Char.ofNat 96, Char.ofNat 96]

/-- Submatch 1 of the leftmost match of `jsonPattern` (the opening fence, white
space, a shortest text, the closing fence), if the pattern matches at
all: the text between the first opening fence, after the white space that
follows it, and the next closing fence. -/
def findJsonBlock (response : List Char) : Option (List Char) :=
  match findAfter jsonFence response with
  | none => none
  | some rest => takeUntil closingFence (rest.dropWhile isRegexSpace)

/-- The error of `parseGPT4Response`: the extracted block did not decode. -/
inductive ParseError where
  | failedToParseExtractedJSON (cause : JsonError) : ParseError
  deriving DecidableEq, Repr

/-- Source function `parseGPT4Response`.  The variable `comments` is shared by the
two calls of `json.Unmarshal`: the second call decodes into what the first one left. -/
def parseGPT4Response (response : List Char) : Except ParseError (List CommentPayload) :=
  let direct := jsonUnmarshal [] response
  match direct.1 with
  | none => Except.ok direct.2
  | some _ =>
    match findJsonBlock response with
    | some jsonContent =>
      let extracted := jsonUnmarshal direct.2 jsonContent
      match extracted.1 with
      | none => Except.ok extracted.2
      | some err => Except.error (ParseError.failedToParseExtractedJSON err)
    | none => Except.ok [{ Content := { Raw := response }, Inline := none }]

/-! ## The definition locator -/

/-- The two errors of `findDefinitionInFile`: the error of `os.ReadFile`, and
`fmt.Errorf("definition not found")`. -/
inductive LookupError where
  | readFailed : LookupError
  | definitionNotFound : LookupError
  deriving DecidableEq, Repr

/-- Net brace count of a line: `strings.Count(line, "{") - strings.Count(line, "}")`. -/
def netBraces (line : List Char) : Int :=
  (stringsCount line ['{'] : Int) - (stringsCount line ['}'] : Int)

/-- The capture loop of `findDefinitionInFile`: the lines after the matching one
that are appended while the running brace count is positive. -/
def captureLines : Int → List (List Char) → List (List Char)
  | _, [] => []
  | braceCount, line :: rest =>
    if braceCount > 0 then line :: captureLines (braceCount + netBraces line) rest
    else []

/-- The definition built at a matching line: the line and the captured lines,
joined by newlines. -/
def captureDefinition (kind filePath identifier line : List Char) (rest : List (List Char)) :
    CodeDefinition :=
  { Kind := kind, Name := identifier,
    Content := stringsJoin (line :: captureLines (netBraces line) rest) ['\n'],
    FilePath := filePath, References := [] }

/-- The scan of `findDefinitionInFile` over the lines from some index on. -/
def scanLines (filePath identifier : List Char) :
    List (List Char) → Except LookupError CodeDefinition
  | [] => Except.error LookupError.definitionNotFound
  | line :: rest =>
    if stringsContains line identifier then
      if stringsContains line ("type ".toList ++ identifier ++ " struct".toList) then
        Except.ok (captureDefinition "struct".toList filePath identifier line rest)
      else if stringsContains line "func".toList &&
          (stringsContains line (" ".toList ++ identifier ++ "(".toList) ||
            stringsContains line (" (*".toList ++ identifier ++ ")".toList)) then
        if !stringsContains line ['{'] then scanLines filePath identifier rest
        else Except.ok (captureDefinition "function".toList filePath identifier line rest)
      else scanLines filePath identifier rest
    else scanLines filePath identifier rest

/-- Source function `findDefinitionInFile`; `readFile` is the file system
(`none` when `os.ReadFile` fails). -/
def findDefinitionInFile (readFile : List Char → Option (List Char))
    (filePath identifier : List Char) : Except LookupError CodeDefinition :=
  match readFile filePath with
  | none => Except.error LookupError.readFailed
  | some content => scanLines filePath identifier (stringsSplit content ['\n'])

/-- The inner loop of `findReferencedDefinitions`: the definition of the first file,
in enumeration order, in which the lookup succeeds. -/
def lookupDefinition (readFile : List Char → Option (List Char)) (identifier : List Char) :
    List (List Char) → Option CodeDefinition
  | [] => none
  | file :: rest =>
    match findDefinitionInFile readFile file identifier with
    | Except.ok d => some d
    | Except.error _ => lookupDefinition readFile identifier rest

/-- The outer loop of `findReferencedDefinitions` over the identifiers that remain
to be visited, with the identifiers already found in `seen`. -/
def collectDefinitions (readFile : List Char → Option (List Char)) (goFiles : List (List Char)) :
    List (List Char) → List (List Char) → List CodeDefinition
  | _, [] => []
  | seen, identifier :: rest =>
    if identifier ∈ seen then collectDefinitions readFile goFiles seen rest
    else
      match lookupDefinition readFile identifier goFiles with
      | some d => d :: collectDefinitions readFile goFiles (identifier :: seen) rest
      | none => collectDefinitions readFile goFiles seen rest

/-- The lookup part of `findReferencedDefinitions`: `goFiles` are the files found by
the walk, in its order, and `identifiers` the keys of the map `matches` extracted
from the diff, in the order in which the map is ranged over. -/
def findReferencedDefinitions (readFile : List Char → Option (List Char))
    (goFiles identifiers : List (List Char)) : List CodeDefinition :=
  collectDefinitions readFile goFiles [] identifiers

/-- A line that holds the struct header of the identifier. -/
def isStructHeader (line identifier : List Char) : Bool :=
  stringsContains line ("type ".toList ++ identifier ++ " struct".toList)

/-- A line that holds `func`, the identifier as a function name or as an unnamed
pointer receiver, and an opening brace. -/
def isFunctionLine (line identifier : List Char) : Bool :=
  stringsContains line "func".toList &&
    (stringsContains line (" ".toList ++ identifier ++ "(".toList) ||
      stringsContains line (" (*".toList ++ identifier ++ ")".toList)) &&
    stringsContains line ['{']

/-- A line at which a definition of the identifier may start. -/
def qualifies (line identifier : List Char) : Bool :=
  isStructHeader line identifier || isFunctionLine line identifier

/-- A file system with the single file `main.go`. -/
def singleFile (content : List Char) : List Char → Option (List Char) :=
  fun path => if path = "main.go".toList then some content else none

/-- A function whose body returns an opening brace as a string. -/
def braceInStringSource : List Char :=
  "package main\n\nfunc Open() string \x7b\n\treturn \"\x7b\"\n\x7d\n".toList

/-- A method with a named pointer receiver. -/
def methodSource : List Char :=
  "package main\n\nfunc (s *Server) Start() \x7b\n\x7d\n".toList

/-- A method with a named value receiver. -/
def valueMethodSource : List Char :=
  "package main\n\nfunc (s Server) Start() \x7b\n\x7d\n".toList

/-- A function declared with its opening brace on the next line. -/
def braceOnNextLineSource : List Char := "func Run()\n\x7b\n\x7d\n".toList

/-- A file system with two files that both declare the struct `Job`. -/
def twoFiles : List Char → Option (List Char) :=
  fun path =>
    if path = "a.go".toList then some "// Job\ntype Job struct \x7b\n\x7d\ntype Job struct \x7b\n\tN int\n\x7d".toList
    else if path = "b.go".toList then some "type Job struct \x7b\n\tM int\n\x7d".toList
    else none

/-- The value of the last member of an object whose key matches `tag` whatever
its case. -/
def lastMember (tag : List Char) : List (List Char × JsonValue) → Option JsonValue
  | [] => none
  | (key, v) :: rest =>
    match lastMember tag rest with
    | some w => some w
    | none => if asciiLower key = tag then some v else none

/-- Whether a JSON value is an object that ends up with a non-null `inline` member. -/
def carriesInline : JsonValue → Bool
  | JsonValue.object members =>
    match lastMember "inline".toList members with
    | some JsonValue.null => false
    | some _ => true
    | none => false
  | _ => false

/-! ## Concrete inputs used by the statements below -/

/-- A response whose fenced block holds no JSON. -/
def brokenBlockResponse : List Char := "Review:\n```json\nnot json\n```".toList

/-- A comment list as JSON text whose comment quotes a fenced snippet. -/
def snippetJson : List Char :=
  "\n[\x7b\"content\":\x7b\"raw\":\"run ```make``` first\"\x7d\x7d]\n".toList

/-- A comment list as JSON text with one inline and one general comment. -/
def plainJson : List Char :=
  "\n[\x7b\"content\":\x7b\"raw\":\"rename x\"\x7d,\"inline\":\x7b\"path\":\"a.go\",\"to\":3\x7d\x7d,\x7b\"content\":\x7b\"raw\":\"ok\"\x7d\x7d]\n".toList

/-- A response whose only comment has an `inline` object without a path. -/
def emptyInlineResponse : List Char := "[\x7b\"content\":\x7b\"raw\":\"x\"\x7d,\"inline\":\x7b\x7d\x7d]".toList

/-! ## Vocabulary of the round-trip statements -/

/-- What may follow a value inside a text written by `json.Marshal`: nothing, a comma
or a closing bracket. -/
def followsValue : List Char → Bool
  | [] => true
  | c :: _ => c = ',' || c = '}' || c = ']'

/-- The text `text` spells the value `v`: it does not begin with white space, and the
parser reads `v` off the front of any text that continues it with a delimiter,
as soon as the fuel exceeds the length of the text. -/
def Renders (text : List Char) (v : JsonValue) : Prop :=
  (∃ c r, text = c :: r ∧ isJsonSpace c = false) ∧
    ∀ (fuel : Nat) (rest : List Char), (text ++ rest).length < fuel →
      followsValue rest = true → parseValue fuel (text ++ rest) = some (v, rest)

/-- Whether an integer fits the 64-bit type `int`. -/
def fitsInt64 (n : Int) : Bool := decide (-(2 : Int) ^ 63 ≤ n ∧ n < (2 : Int) ^ 63)

/-- Whether the integers of a comment list fit the type `int` of the source. -/
def wellTyped (comments : List CommentPayload) : Bool :=
  comments.all fun c =>
    match c.Inline with
    | some i => fitsInt64 i.To && fitsInt64 i.From
    | none => true

/-- The JSON value that `json.Marshal` writes for an `Inline` struct. -/
def inlineValue (i : Inline) : JsonValue :=
  JsonValue.object
    (("path".toList, JsonValue.string i.Path) ::
      ((if i.To = 0 then [] else [("to".toList, JsonValue.number (formatInt i.To))]) ++
       (if i.From = 0 then [] else [("from".toList, JsonValue.number (formatInt i.From))])))

/-- The JSON value that `json.Marshal` writes for a comment. -/
def commentValue (c : CommentPayload) : JsonValue :=
  JsonValue.object
    (("content".toList, JsonValue.object [("raw".toList, JsonValue.string c.Content.Raw)]) ::
      (match c.Inline with
       | some i => [("inline".toList, inlineValue i)]
       | none => []))

/-- An inline comment whose text needs escaping, and a general comment. -/
def roundTripComments : List CommentPayload :=
  [{ Content := { Raw := "if a < b && \"x\" \\ then\n\tok".toList },
     Inline := some { Path := "src/main.go".toList, To := 42, From := -7 } },
   { Content := { Raw := "Looks good".toList }, Inline := none }]

/-- The text `s` is `rest` preceded by a non-empty run of characters whose last one
is no backtick. -/
def ConsumedBefore (s rest : List Char) : Prop :=
  ∃ u c, s = u ++ c :: rest ∧ c ≠ Char.ofNat 96

/-! ## Pull-request description (`generatePRDescription`) -/

/-- Scan of `filepath.Ext` from the end of the path: `acc` holds the characters
already passed, in path order. -/
def extScan : List Char → List Char → List Char
  | [], _ => []
  | c :: t, acc =>
    if c = '/' then [] else if c = '.' then '.' :: acc else extScan t (c :: acc)

/-- Go `filepath.Ext`: the suffix of the last path element that starts at its last
dot, empty when that element has no dot. -/
def filepathExt (path : List Char) : List Char := extScan path.reverse []

/-- Go `strings.TrimPrefix`. -/
def stringsTrimPrefix (s pre : List Char) : List Char :=
  if stringsHasPrefix s pre then s.drop pre.length else s

/-- Statement `m[key]++` on a map kept as the list of its entries. -/
def countKey (key : List Char) : List (List Char × Nat) → List (List Char × Nat)
  | [] => [(key, 1)]
  | (k, n) :: rest => if k = key then (k, n + 1) :: rest else (k, n) :: countKey key rest

/-- The map `fileTypes` after the first loop of `generatePRDescription`. -/
def fileTypes (changedFiles : List (List Char)) : List (List Char × Nat) :=
  changedFiles.foldl
    (fun m file =>
      let ext := filepathExt file
      countKey (if ext = [] then "other".toList else ext) m)
    []

/-- The loop that writes the summary: `i` is the loop counter, `n` the size of the
map. -/
def summaryItems (n : Nat) : Nat → List (List Char × Nat) → List Char
  | _, [] => []
  | i, (ext, count) :: rest =>
    (if 0 < i then (if i = n - 1 then " and ".toList else ", ".toList) else []) ++
    (let fileType := stringsTrimPrefix ext ".".toList
     formatNat count ++ " ".toList ++
       (if fileType = [] then "other".toList else fileType) ++ " files".toList) ++
    summaryItems n (i + 1) rest

/-- The impact flags in the order `hasTests`, `hasConfig`, `hasDocs`, `hasCore`. -/
structure ImpactFlags where
  hasTests : Bool
  hasConfig : Bool
  hasDocs : Bool
  hasCore : Bool
  deriving DecidableEq, Repr

/-- Condition of the first case of the `switch` in `generatePRDescription`. -/
def testsCase (file : List Char) : Bool := stringsContains file "_test.".toList

/-- Condition of the second case of the `switch`. -/
def configCase (file : List Char) : Bool := stringsContains file "config".toList

/-- Condition of the third case of the `switch`. -/
def docsCase (file : List Char) : Bool :=
  stringsContains file "docs".toList || stringsHasSuffix file ".md".toList

/-- Condition of the fourth case of the `switch`. -/
def coreCase (file : List Char) : Bool :=
  stringsHasSuffix file ".go".toList || stringsHasSuffix file ".js".toList ||
    stringsHasSuffix file ".py".toList

/-- One pass of the `switch` over a changed file: the first case that holds sets its
flag and the later cases are not looked at. -/
def impactStep (flags : ImpactFlags) (file : List Char) : ImpactFlags :=
  if testsCase file then { flags with hasTests := true }
  else if configCase file then { flags with hasConfig := true }
  else if docsCase file then { flags with hasDocs := true }
  else if coreCase file then { flags with hasCore := true }
  else flags

/-- The flags after the second loop of `generatePRDescription`. -/
def impactFlags (changedFiles : List (List Char)) : ImpactFlags :=
  changedFiles.foldl impactStep
    { hasTests := false, hasConfig := false, hasDocs := false, hasCore := false }

/-- Header line of the impact text. -/
def impactHeader : List Char := "### Impact Assessment\n".toList

/-- Bullet written when `hasCore` is set. -/
def coreBullet : List Char := "- \uf8ff\u00fc\u00ee\u00d1 Core functionality changes\n".toList

/-- Bullet written when `hasConfig` is set. -/
def configBullet : List Char :=
  "- \u201a\u00f6\u00f4\u00d4\u220f\u00e8 Configuration changes\n".toList

/-- Bullet written when `hasTests` is set. -/
def testsBullet : List Char := "- \u201a\u00fa\u00d6 Test coverage changes\n".toList

/-- Bullet written when `hasDocs` is set. -/
def docsBullet : List Char := "- \uf8ff\u00fc\u00ec\u00f6 Documentation updates\n".toList

/-- The impact text written from the flags. -/
def impactText (flags : ImpactFlags) : List Char :=
  impactHeader ++
  (if flags.hasCore then coreBullet else []) ++
  (if flags.hasConfig then configBullet else []) ++
  (if flags.hasTests then testsBullet else []) ++
  (if flags.hasDocs then docsBullet else [])

/-- Source function `generatePRDescription`. Go ranges over the map `fileTypes` in
an order of its own choosing; `rangeOrder` stands for that choice and is expected to
return a rearrangement of the entries it is given. The parameters `repoPath` and
`diffOutput` are not read by the source either. -/
def generatePRDescription (rangeOrder : List (List Char × Nat) → List (List Char × Nat))
    (_repoPath : List Char) (changedFiles : List (List Char)) (_diffOutput : List Char) :
    PRDescription :=
  let types := fileTypes changedFiles
  { FileChanges := changedFiles.map (fun file => "- ".toList ++ file)
    Summary :=
      "This PR includes changes to ".toList ++
      (if types.length = 0 then "configuration or documentation".toList
       else summaryItems types.length 0 (rangeOrder types)) ++
      ".".toList
    Impact := impactText (impactFlags changedFiles) }

/-- The changed files of the worked example of the impact assessment. -/
def exampleChangedFiles : List (List Char) :=
  ["a_test.go".toList, "config/x.yaml".toList, "README.md".toList]

/-! ## The webhook handler (`webhookHandler`) -/

/-- Go `unicode.IsSpace`. -/
def isUnicodeSpace (c : Char) : Bool :=
  c = '\t' || c = '\n' || c = Char.ofNat 0x0B || c = Char.ofNat 0x0C || c = '\r' || c = ' ' ||
  c = Char.ofNat 0x85 || c = Char.ofNat 0xA0 || c = Char.ofNat 0x1680 ||
  decide (0x2000 ≤ c.toNat ∧ c.toNat ≤ 0x200A) ||
  c = Char.ofNat 0x2028 || c = Char.ofNat 0x2029 || c = Char.ofNat 0x202F ||
  c = Char.ofNat 0x205F || c = Char.ofNat 0x3000

/-- Go `strings.TrimSpace`. -/
def stringsTrimSpace (s : List Char) : List Char :=
  ((s.dropWhile isUnicodeSpace).reverse.dropWhile isUnicodeSpace).reverse

/-- Source function `isExoReviewerPresent`. -/
def isExoReviewerPresent : List Reviewer → Bool
  | [] => false
  | reviewer :: rest =>
    if reviewer.DisplayName = "ExoReview".toList ∨ reviewer.UUID = "ExoReview".toList then true
    else isExoReviewerPresent rest

/-- What the handler reads from the request: the method, the value of the header
`X-Event-Key` and the body (`none` when reading it fails). -/
structure Request where
  Method : List Char
  EventKey : List Char
  Body : Option (List Char)

/-- The calls the handler makes to the outside. `unmarshalPayload` is the decoding
of the body into the payload, `readDiffFile` the reading of the bundle once
`fetchAndDiff` has returned, `analyzeWithGPT4` the model call, and `postComment i c`
tells whether the posting call number `i`, for the comment `c`, returns without
error. A failing call is `none`, respectively `false`. -/
structure HandlerEnv where
  unmarshalPayload : List Char → Option PullRequestCreatedPayload
  readDiffFile : PullRequestCreatedPayload → Option (List Char)
  analyzeWithGPT4 : List Char → Option (List Char)
  postComment : Nat → CommentPayload → Bool

/-- What a run of the handler leaves behind: the status of the response, whether
`fetchAndDiff` was called, the comments handed to `postComment` in the order of the
calls, and the two counters of the posting loop. -/
structure HandlerRun where
  status : Nat
  fetched : Bool
  attempts : List CommentPayload
  successCount : Nat
  failedCount : Nat
  deriving DecidableEq, Repr

/-- A run that answers with `status` before the posting loop. -/
def respond (status : Nat) (fetched : Bool) : HandlerRun :=
  { status := status, fetched := fetched, attempts := [], successCount := 0, failedCount := 0 }

/-- The posting loop of `webhookHandler` from its iteration number `i` on. -/
def postingLoop (postComment : Nat → CommentPayload → Bool) :
    Nat → List CommentPayload → HandlerRun → HandlerRun
  | _, [], run => run
  | i, comment :: rest, run =>
    if postComment i comment then
      postingLoop postComment (i + 1) rest
        { run with attempts := run.attempts ++ [comment], successCount := run.successCount + 1 }
    else
      postingLoop postComment (i + 1) rest
        { run with attempts := run.attempts ++ [comment], failedCount := run.failedCount + 1 }

/-- Source function `webhookHandler`. -/
def webhookHandler (env : HandlerEnv) (r : Request) : HandlerRun :=
  if r.Method ≠ "POST".toList then respond 405 false
  else
    let eventKey := stringsTrimSpace r.EventKey
    if eventKey ≠ "pullrequest:created".toList ∧ eventKey ≠ "pullrequest:updated".toList then
      respond 200 false
    else
      match r.Body with
      | none => respond 400 false
      | some body =>
        match env.unmarshalPayload body with
        | none => respond 400 false
        | some payload =>
          if payload.Reviewers.length = 0 then respond 200 false
          else if !isExoReviewerPresent payload.Reviewers then respond 200 false
          else
            match env.readDiffFile payload with
            | none => respond 500 true
            | some diffContent =>
              match env.analyzeWithGPT4 diffContent with
              | none => respond 500 true
              | some analysis =>
                match parseGPT4Response analysis with
                | Except.error _ => respond 500 true
                | Except.ok comments =>
                  { postingLoop env.postComment 0 comments (respond 0 true) with status := 200 }

/-- A payload whose only reviewer is somebody else. -/
def otherReviewerPayload : PullRequestCreatedPayload :=
  { ID := 3, Title := "Tidy".toList, SourceBranchName := "dev".toList,
    DestinationBranchName := "main".toList,
    Reviewers := [{ DisplayName := "Ada".toList, UUID := "u7".toList }],
    Description := [], RepositoryFullName := "acme/app".toList }

/-- A payload that names the reviewer `ExoReview`. -/
def exoReviewPayload : PullRequestCreatedPayload :=
  { otherReviewerPayload with
    Reviewers := [{ DisplayName := "Ada".toList, UUID := "u7".toList },
                  { DisplayName := "ExoReview".toList, UUID := "u1".toList }] }

/-- An outside world in which every body decodes to `payload`, the bundle reads as
`+x`, the model answers with the JSON text of `roundTripComments`, and the first
posting call fails while the later ones succeed. -/
def sampleEnv (payload : PullRequestCreatedPayload) : HandlerEnv :=
  { unmarshalPayload := fun _ => some payload
    readDiffFile := fun _ => some "+x".toList
    analyzeWithGPT4 := fun _ => some (jsonMarshal roundTripComments)
    postComment := fun i _ => decide (0 < i) }

/-- A request for a created pull request. -/
def createdRequest : Request :=
  { Method := "POST".toList, EventKey := "pullrequest:created".toList, Body := some [] }

/-! ## Architecture snapshot (`getArchitecturalContext`) -/

/-- Source function `contains`. -/
def contains : List (List Char) → List Char → Bool
  | [], _ => false
  | s :: rest, item => if s = item then true else contains rest item

/-- Go `strings.Trim`: the text without its leading and trailing characters that
occur in `cutset`. -/
def stringsTrim (s cutset : List Char) : List Char :=
  ((s.dropWhile (fun c => cutset.contains c)).reverse.dropWhile
    (fun c => cutset.contains c)).reverse

/-- Go `filepath.Base` for slash-separated paths. -/
def filepathBase (path : List Char) : List Char :=
  if path = [] then ['.']
  else
    let trimmed := path.reverse.dropWhile (fun c => c = '/')
    if trimmed = [] then ['/'] else (trimmed.takeWhile (fun c => c ≠ '/')).reverse

/-- One call that `filepath.Walk` makes to its callback: the path, whether it is a
directory, and whether the walk reports an error for it. -/
structure WalkEntry where
  path : List Char
  isDir : Bool
  err : Bool
  deriving DecidableEq, Repr

/-- What the analysis loop of `getArchitecturalContext` reads from a parsed Go file:
the literal of each import path in the order of `f.Imports`, and the literal first
argument of each call of a selector named `HandleFunc` or `Handle`, in the order of
`ast.Inspect`. -/
structure ParsedFile where
  imports : List (List Char)
  handlerLiterals : List (List Char)
  deriving DecidableEq, Repr

/-- The lists filled by the walk of `getArchitecturalContext`. -/
structure WalkLists where
  goFiles : List (List Char)
  DatabaseSchemas : List (List Char)
  ConfigFiles : List (List Char)
  deriving DecidableEq, Repr

/-- The callback of the walk of `getArchitecturalContext` on one entry that carries
no error. -/
def classifyEntry (lists : WalkLists) (e : WalkEntry) : WalkLists :=
  if !e.isDir then
    if stringsHasSuffix e.path ".go".toList then
      { lists with goFiles := lists.goFiles ++ [e.path] }
    else if stringsHasSuffix e.path ".sql".toList then
      { lists with DatabaseSchemas := lists.DatabaseSchemas ++ [e.path] }
    else if stringsContains e.path "config".toList || stringsHasSuffix e.path ".yaml".toList ||
        stringsHasSuffix e.path ".json".toList then
      { lists with ConfigFiles := lists.ConfigFiles ++ [e.path] }
    else lists
  else lists

/-- The walk of `getArchitecturalContext` over the calls `filepath.Walk` makes when
its callback never asks to skip: the callback returns the error of an entry, which
ends the walk, and nothing else. -/
def walkTree : List WalkEntry → WalkLists → Option WalkLists
  | [], lists => some lists
  | e :: rest, lists => if e.err then none else walkTree rest (classifyEntry lists e)

/-- The inner loop over the imports of one file: the dependency list after the
paths `imports` have been added. -/
def addDependencies (deps : List (List Char)) : List (List Char) → List (List Char)
  | [] => deps
  | importPath :: rest =>
    if !contains deps importPath then addDependencies (deps ++ [importPath]) rest
    else addDependencies deps rest

/-- Assignment `m[key] = value` on a map kept as the list of its entries. -/
def mapSet (key : List Char) (value : List (List Char)) :
    List (List Char × List (List Char)) → List (List Char × List (List Char))
  | [] => [(key, value)]
  | (k, v) :: rest => if k = key then (k, value) :: rest else (k, v) :: mapSet key value rest

/-- One pass of the analysis loop of `getArchitecturalContext`; `parseFile` is
`none` for a file that cannot be read or parsed. -/
def analyzeFile (parseFile : List Char → Option ParsedFile) (context : ArchitecturalContext)
    (file : List Char) : ArchitecturalContext :=
  match parseFile file with
  | none => context
  | some f =>
    let imports := f.imports.map (fun value => stringsTrim value ['"'])
    { context with
      PackageDependencies := addDependencies context.PackageDependencies imports
      ImportGraph := mapSet file imports context.ImportGraph
      APIEndpoints :=
        context.APIEndpoints ++ f.handlerLiterals.map (fun value => stringsTrim value ['"']) }

/-- Source function `getArchitecturalContext`, `none` when it returns an error (its
only caller drops the context in that case). -/
def getArchitecturalContext (visits : List WalkEntry)
    (parseFile : List Char → Option ParsedFile) : Option ArchitecturalContext :=
  match walkTree visits { goFiles := [], DatabaseSchemas := [], ConfigFiles := [] } with
  | none => none
  | some lists =>
    some (lists.goFiles.foldl (analyzeFile parseFile)
      { PackageDependencies := [], ImportGraph := [], DatabaseSchemas := lists.DatabaseSchemas,
        APIEndpoints := [], ConfigFiles := lists.ConfigFiles })

/-- The files that the callback of the walk of `detectRepoLanguages` classifies by
extension. A directory named `node_modules`, `vendor` or `.git` makes the callback
return `filepath.SkipDir`, after which the walk passes over the entries below that
directory; `skipped` is the directory being passed over. -/
def detectRepoLanguagesFiles : Option (List Char) → List WalkEntry → Option (List (List Char))
  | _, [] => some []
  | skipped, e :: rest =>
    if (match skipped with
        | some dir => stringsHasPrefix e.path (dir ++ ['/'])
        | none => false) then
      detectRepoLanguagesFiles skipped rest
    else if e.err then none
    else if e.isDir then
      let base := filepathBase e.path
      if base = "node_modules".toList ∨ base = "vendor".toList ∨ base = ".git".toList then
        detectRepoLanguagesFiles (some e.path) rest
      else detectRepoLanguagesFiles none rest
    else (detectRepoLanguagesFiles none rest).map (fun files => e.path :: files)

/-- Whether a path lies below a directory named `node_modules`, `vendor` or `.git`. -/
def underSkippedDir (path : List Char) : Bool :=
  (stringsSplit path ['/']).dropLast.any
    (fun d => d = "node_modules".toList || d = "vendor".toList || d = ".git".toList)

/-- A file entry of a walk. -/
def fileEntry (path : String) : WalkEntry := { path := path.toList, isDir := false, err := false }

/-- A directory entry of a walk. -/
def dirEntry (path : String) : WalkEntry := { path := path.toList, isDir := true, err := false }

/-- The walk of a small repository with a vendored package, an installed node
module and its git directory. -/
def vendoredTree : List WalkEntry :=
  [dirEntry "repo", dirEntry "repo/.git", fileEntry "repo/.git/config",
   fileEntry "repo/main.go", dirEntry "repo/node_modules", dirEntry "repo/node_modules/pkg",
   fileEntry "repo/node_modules/pkg/package.json", dirEntry "repo/vendor",
   dirEntry "repo/vendor/lib", fileEntry "repo/vendor/lib/lib.go",
   fileEntry "repo/vendor/lib/schema.sql"]

/-- A reading of Go files in which `repo/main.go` imports `fmt`, `net/http` and
the vendored package, and the vendored file imports `fmt` and `os`. -/
def vendoredParse (file : List Char) : Option ParsedFile :=
  if file = "repo/main.go".toList then
    some { imports := ["\"fmt\"".toList, "\"net/http\"".toList, "\"lib\"".toList],
           handlerLiterals := ["\"/webhook\"".toList] }
  else if file = "repo/vendor/lib/lib.go".toList then
    some { imports := ["\"fmt\"".toList, "\"os\"".toList], handlerLiterals := [] }
  else none

/-! ## Splitting the bundle on the separator -/

/-- Class `\w` of Go regular expressions. -/
def isWordChar (c : Char) : Bool :=
  decide ('0'.toNat ≤ c.toNat ∧ c.toNat ≤ '9'.toNat) ||
  decide ('A'.toNat ≤ c.toNat ∧ c.toNat ≤ 'Z'.toNat) || c = '_' ||
  decide ('a'.toNat ≤ c.toNat ∧ c.toNat ≤ 'z'.toNat)

/-- A literal of a pattern: the text behind it. -/
def literal (lit s : List Char) : Option (List Char) :=
  if lit.isPrefixOf s then some (s.drop lit.length) else none

/-- The run `\s+`: the text behind it. -/
def spaces1 : List Char → Option (List Char)
  | [] => none
  | c :: t => if isRegexSpace c then some (t.dropWhile isRegexSpace) else none

/-- The run `\w+`: the run and the text behind it. -/
def word1 : List Char → Option (List Char × List Char)
  | [] => none
  | c :: t =>
    if isWordChar c then some (c :: t.takeWhile isWordChar, t.dropWhile isWordChar) else none

/-- A pattern that begins with a literal followed by `\s+`; `k` reads the rest. -/
def headed (lit : List Char) (k : List Char → Option (List Char × List Char))
    (s : List Char) : Option (List Char × List Char) :=
  (literal lit s).bind (fun s1 => (spaces1 s1).bind k)

/-- The part of `typeRegex` behind `type\s+`, that is `(\w+)\s+struct`. -/
def typeTail (s : List Char) : Option (List Char × List Char) :=
  (word1 s).bind (fun m =>
    (spaces1 m.2).bind (fun s1 => (literal "struct".toList s1).bind (fun s2 => some (m.1, s2))))

/-- Source pattern `typeRegex`, `type\s+(\w+)\s+struct`. -/
def typeRegex : List Char → Option (List Char × List Char) := headed "type".toList typeTail

/-- The part of `funcRegex` behind `func\s+`, that is `(\w+)\s*\(`. -/
def funcTail (s : List Char) : Option (List Char × List Char) :=
  (word1 s).bind (fun m =>
    (literal "(".toList (m.2.dropWhile isRegexSpace)).bind (fun s1 => some (m.1, s1)))

/-- Source pattern `funcRegex`, `func\s+(\w+)\s*\(`. -/
def funcRegex : List Char → Option (List Char × List Char) := headed "func".toList funcTail

/-- The part of `methodRegex` behind `func\s+`, that is
`\(\w+\s+\*?(\w+)\)\s+\w+\(`. -/
def methodTail (s : List Char) : Option (List Char × List Char) :=
  (literal "(".toList s).bind (fun s1 =>
    (word1 s1).bind (fun receiver =>
      (spaces1 receiver.2).bind (fun s2 =>
        (word1 ((literal "*".toList s2).getD s2)).bind (fun m =>
          (literal ")".toList m.2).bind (fun s3 =>
            (spaces1 s3).bind (fun s4 =>
              (word1 s4).bind (fun method =>
                (literal "(".toList method.2).bind (fun s5 => some (m.1, s5)))))))))

/-- Source pattern `methodRegex`, `func\s+\(\w+\s+\*?(\w+)\)\s+\w+\(`. -/
def methodRegex : List Char → Option (List Char × List Char) :=
  headed "func".toList methodTail

/-- The part of `varRegex` behind `var\s+`, that is `(\w+)\s+\w+`. -/
def varTail (s : List Char) : Option (List Char × List Char) :=
  (word1 s).bind (fun m =>
    (spaces1 m.2).bind (fun s1 => (word1 s1).bind (fun type => some (m.1, type.2))))

/-- Source pattern `varRegex`, `var\s+(\w+)\s+\w+`. -/
def varRegex : List Char → Option (List Char × List Char) := headed "var".toList varTail

/-- Go `FindAllStringSubmatch(s, -1)`, kept to the first submatch of each match:
the matches are looked for from left to right and do not overlap; `skip` characters
of the last match are still to be passed over. -/
def findAllSubmatch (re : List Char → Option (List Char × List Char)) :
    Nat → List Char → List (List Char)
  | _, [] => []
  | skip + 1, _ :: t => findAllSubmatch re skip t
  | 0, c :: t =>
    match re (c :: t) with
    | some m => m.1 :: findAllSubmatch re ((c :: t).length - m.2.length - 1) t
    | none => findAllSubmatch re 0 t

/-- The identifiers that `findReferencedDefinitions` puts into its map `matches`, in
the order in which the four loops add them (an identifier found twice is listed
twice; the map keeps it once). -/
def extractIdentifiers (diffOutput : List Char) : List (List Char) :=
  findAllSubmatch typeRegex 0 diffOutput ++ findAllSubmatch funcRegex 0 diffOutput ++
    findAllSubmatch methodRegex 0 diffOutput ++ findAllSubmatch varRegex 0 diffOutput

/-- A word identifier: a non-empty run of characters of the class `\w`. -/
def isIdentifier (w : List Char) : Bool := !w.isEmpty && w.all isWordChar

/-- The text of a method declaration up to its parameter list, `func (r *T) M(` when
`pointer` is set and `func (r T) M(` otherwise. -/
def methodDeclaration (pointer : Bool) (r T M : List Char) : List Char :=
  "func (".toList ++ r ++ " ".toList ++ (if pointer then "*".toList else []) ++ T ++
    ") ".toList ++ M ++ "(".toList

/-- A diff in which the text `type Foo struct` follows the word `structype`. -/
def overlapDiff : List Char :=
  "+type Gen structype Foo struct \x7b\n+func Bar() \x7b\n".toList

/-- A diff in which the text `type struct struct` follows the word `type`. -/
def structNameDiff : List Char := "+type type struct struct\n+func Bar() \x7b\n".toList

/-- A diff with an added struct, a removed function, a method in a context line and
a variable. -/
def sampleDiff : List Char :=
  ("+type Foo struct \x7b\n-func Bar(x int) \x7b\n func (s *Server) Run() \x7b\n" ++
   "+var limit int\n").toList

/-- Whether a text is empty or ends with a character outside the class `\w`. -/
def endsOutsideWord (s : List Char) : Bool :=
  match s.getLast? with
  | some c => !isWordChar c
  | none => true

/-- Whether a text ends with a character of the class `\s`. -/
def endsWithSpace (s : List Char) : Bool :=
  match s.getLast? with
  | some c => isRegexSpace c
  | none => false

/-! ## The path of the bundle and the list of changed files -/

/-- Source function `sanitizeFilename`: the replacer maps each of the ten listed
characters to an underscore and leaves every other character alone. -/
def sanitizeFilename (name : List Char) : List Char :=
  name.map (fun c =>
    if c = '/' ∨ c = '\\' ∨ c = ':' ∨ c = '*' ∨ c = '?' ∨ c = '"' ∨ c = '<' ∨ c = '>' ∨
        c = '|' ∨ c = ' ' then '_'
    else c)

/-- Go `strings.ReplaceAll`: every occurrence of `old`, found from left to right
without overlap, becomes `new`; an empty `old` matches before each character and at
the end. -/
def stringsReplaceAll (s old new : List Char) : List Char :=
  if old.isEmpty then new ++ (s.map (fun c => c :: new)).flatten
  else stringsJoin (stringsSplit s old) new

/-- The elements kept by `filepath.Clean`, with the elements kept so far in `stack`
(last one first): empty elements and `.` are dropped, `..` removes the element before
it, or stays when there is none to remove and the path is not rooted. -/
def cleanElements (rooted : Bool) : List (List Char) → List (List Char) → List (List Char)
  | stack, [] => stack.reverse
  | stack, e :: rest =>
    if e = [] ∨ e = ['.'] then cleanElements rooted stack rest
    else if e = ['.', '.'] then
      match stack with
      | top :: below =>
        if top = ['.', '.'] then cleanElements rooted (e :: stack) rest
        else cleanElements rooted below rest
      | [] => if rooted then cleanElements rooted [] rest else cleanElements rooted [e] rest
    else cleanElements rooted (e :: stack) rest

/-- Go `filepath.Clean` for slash-separated paths. -/
def filepathClean (path : List Char) : List Char :=
  if path = [] then ['.']
  else
    let rooted := stringsHasPrefix path ['/']
    let body := stringsJoin (cleanElements rooted [] (stringsSplit path ['/'])) ['/']
    if rooted then '/' :: body else if body = [] then ['.'] else body

/-- Go `filepath.Join`: the elements from the first non-empty one on, joined by
slashes and cleaned. -/
def filepathJoin (elem : List (List Char)) : List Char :=
  match elem.dropWhile (fun e => e.isEmpty) with
  | [] => []
  | rest => filepathClean (stringsJoin rest ['/'])

/-- The text written by the format `%s_%s_to_%s_%s.txt`. -/
def bundleFileName (repo sourceBranch destBranch timestamp : List Char) : List Char :=
  repo ++ "_".toList ++ sourceBranch ++ "_to_".toList ++ destBranch ++ "_".toList ++
    timestamp ++ ".txt".toList

/-- The path `filename` to which `writeDiffToFile` writes the bundle; `timestamp`
is the formatted time of the writer. -/
def filename (fullRepo sourceBranch destBranch timestamp : List Char) : List Char :=
  filepathJoin ["./diffs".toList,
    bundleFileName (sanitizeFilename fullRepo) (sanitizeFilename sourceBranch)
      (sanitizeFilename destBranch) timestamp]

/-- The path `diffFile` from which `webhookHandler` reads the bundle; `timestamp`
is the formatted time of the handler. -/
def diffFile (fullRepo sourceBranch destBranch timestamp : List Char) : List Char :=
  filepathJoin ["./diffs".toList,
    bundleFileName
      (stringsReplaceAll (stringsReplaceAll fullRepo "/".toList "_".toList) ".".toList
        "_".toList)
      (stringsReplaceAll sourceBranch "/".toList "_".toList)
      (stringsReplaceAll destBranch "/".toList "_".toList) timestamp]

/-- Source function `getChangedFiles`; `gitOutput` is what the `git diff
--name-only` command prints, `none` when the command fails. -/
def getChangedFiles (gitOutput : Option (List Char)) : Option (List (List Char)) :=
  match gitOutput with
  | none => none
  | some output => some (stringsSplit (stringsTrimSpace output) ['\n'])

/-- Characters that `sanitizeFilename` replaces and the reading side of the bundle
path leaves alone. -/
def onlySanitized (c : Char) : Bool :=
  c = '\\' || c = ':' || c = '*' || c = '?' || c = '"' || c = '<' || c = '>' || c = '|' ||
    c = ' '

/-! ## Facts about the `strings` helpers -/

theorem isPrefixOf_append_right (p a b : List Char) (h : p.isPrefixOf a = true) :
    p.isPrefixOf (a ++ b) = true := by
  induction p generalizing a with
  | nil => simp
  | cons x xs ih =>
    cases a with
    | nil => simp at h
    | cons y ys =>
      simp only [List.cons_append, List.isPrefixOf, Bool.and_eq_true] at h ⊢
      exact ⟨h.1, ih ys h.2⟩

theorem isPrefixOf_of_append (p q a : List Char) (h : (p ++ q).isPrefixOf a = true) :
    p.isPrefixOf a = true := by
  induction p generalizing a with
  | nil => simp
  | cons x xs ih =>
    cases a with
    | nil => simp at h
    | cons y ys =>
      simp only [List.cons_append, List.isPrefixOf, Bool.and_eq_true] at h ⊢
      exact ⟨h.1, ih ys h.2⟩

theorem isPrefixOf_length_le (p a : List Char) (h : p.isPrefixOf a = true) :
    p.length ≤ a.length := by
  induction p generalizing a with
  | nil => simp
  | cons x xs ih =>
    cases a with
    | nil => simp at h
    | cons y ys =>
      simp only [List.isPrefixOf, Bool.and_eq_true] at h
      simpa using ih ys h.2

/-- A pattern without the character `d` cannot reach across a `d`. -/
theorem isPrefixOf_append_cons_of_not_mem (d : Char) (p a b : List Char) (hd : d ∉ p) :
    p.isPrefixOf (a ++ d :: b) = p.isPrefixOf a := by
  induction p generalizing a with
  | nil => simp
  | cons x xs ih =>
    have hx : x ≠ d := fun e => hd (by simp [e])
    have hxs : d ∉ xs := fun e => hd (by simp [e])
    cases a with
    | nil => simp [List.isPrefixOf, hx]
    | cons y ys =>
      rw [List.cons_append]
      simp only [List.isPrefixOf, ih ys hxs]

theorem countFrom_append_cons (d : Char) (p b : List Char) (hd : d ∉ p) (hp : p ≠ []) :
    ∀ (a : List Char) (k : Nat), k ≤ a.length →
      countFrom p k (a ++ d :: b) = countFrom p k a + countFrom p 0 b := by
  have hnil : p.isPrefixOf (d :: b) = false := by
    cases p with
    | nil => exact absurd rfl hp
    | cons x xs =>
      have hx : x ≠ d := fun e => hd (by simp [e])
      simp [List.isPrefixOf, hx]
  intro a
  induction a with
  | nil =>
    intro k hk
    have hk0 : k = 0 := by simpa using hk
    subst hk0
    simp [countFrom, hnil]
  | cons c t ih =>
    intro k hk
    cases k with
    | succ k =>
      rw [List.cons_append]
      simp only [countFrom]
      exact ih k (by simpa using hk)
    | zero =>
      have hpre := isPrefixOf_append_cons_of_not_mem d p (c :: t) b hd
      rw [List.cons_append] at hpre ⊢
      by_cases hm : p.isPrefixOf (c :: t) = true
      · have hlen := isPrefixOf_length_le p (c :: t) hm
        simp only [List.length_cons] at hlen
        have e1 : countFrom p 0 (c :: (t ++ d :: b)) =
            1 + countFrom p (p.length - 1) (t ++ d :: b) := by
          simp only [countFrom, hpre, hm, if_true]
        have e2 : countFrom p 0 (c :: t) = 1 + countFrom p (p.length - 1) t := by
          simp only [countFrom, hm, if_true]
        rw [e1, e2, ih (p.length - 1) (by omega)]
        omega
      · have e1 : countFrom p 0 (c :: (t ++ d :: b)) = countFrom p 0 (t ++ d :: b) := by
          simp only [countFrom, hpre, hm]; rfl
        have e2 : countFrom p 0 (c :: t) = countFrom p 0 t := by
          simp only [countFrom, hm]; rfl
        rw [e1, e2]
        exact ih 0 (Nat.zero_le _)

/-- Occurrences of a newline-free pattern on the two sides of a newline add up. -/
theorem stringsCount_append_cons (d : Char) (p a b : List Char) (hd : d ∉ p) (hp : p ≠ []) :
    stringsCount (a ++ d :: b) p = stringsCount a p + stringsCount b p := by
  have hne : p.isEmpty = false := by cases p <;> simp_all
  simp only [stringsCount, hne]
  exact countFrom_append_cons d p b hd hp a 0 (Nat.zero_le _)

theorem stringsCount_pos_of_prefix (p a : List Char) (hp : p ≠ [])
    (h : p.isPrefixOf a = true) : 1 ≤ stringsCount a p := by
  have hne : p.isEmpty = false := by cases p <;> simp_all
  cases a with
  | nil => cases p <;> simp_all
  | cons c t => simp only [stringsCount, hne, countFrom, h]; simp

/-! ## The chunk markers of the bundle -/

theorem chunkSeparator_shape :
    chunkSeparator = '\n' :: ("<<<<<<<<<<<< CHUNK SEPARATOR >>>>>>>>>>>".toList ++ '\n' :: []) := by
  decide

theorem chunkMarker_no_newline : '\n' ∉ chunkMarker := by decide

theorem chunkMarker_ne_nil : chunkMarker ≠ [] := by decide

/-- The separator adds no marker and no marker reaches across it. -/
theorem stringsCount_marker_separator (a b : List Char) :
    stringsCount (a ++ chunkSeparator ++ b) chunkMarker =
      stringsCount a chunkMarker + stringsCount b chunkMarker := by
  rw [chunkSeparator_shape, List.append_assoc, List.cons_append,
    stringsCount_append_cons '\n' chunkMarker a _ chunkMarker_no_newline chunkMarker_ne_nil,
    List.append_assoc, List.cons_append, List.nil_append,
    stringsCount_append_cons '\n' chunkMarker _ b chunkMarker_no_newline chunkMarker_ne_nil]
  have h0 : stringsCount "<<<<<<<<<<<< CHUNK SEPARATOR >>>>>>>>>>>".toList chunkMarker = 0 := by
    decide
  omega

theorem stringsCount_marker_join (chunks : List (List Char)) :
    stringsCount (stringsJoin chunks chunkSeparator) chunkMarker =
      (chunks.map fun c => stringsCount c chunkMarker).sum := by
  induction chunks with
  | nil => decide
  | cons a rest ih =>
    cases rest with
    | nil => simp [stringsJoin]
    | cons b rest =>
      rw [stringsJoin, stringsCount_marker_separator, ih]
      simp

theorem stringsCount_marker_guide (rest : List Char) :
    stringsCount (guide ++ rest) chunkMarker = stringsCount rest chunkMarker := by
  have h0 : stringsCount guideText chunkMarker = 0 := by decide!
  have hnil : stringsCount [] chunkMarker = 0 := by decide
  have h1 : ∀ x : List Char, stringsCount ('\n' :: x) chunkMarker = stringsCount x chunkMarker := by
    intro x
    have := stringsCount_append_cons '\n' chunkMarker [] x chunkMarker_no_newline chunkMarker_ne_nil
    simpa [hnil] using this
  have hg : guide ++ rest = guideText ++ chunkSeparator ++ ('\n' :: '\n' :: rest) := by
    simp [guide]
  rw [hg, stringsCount_marker_separator, h0, h1, h1]
  omega

theorem hasPrefix_append (s rest pre : List Char) (h : stringsHasPrefix s pre = true) :
    stringsHasPrefix (s ++ rest) pre = true :=
  isPrefixOf_append_right pre s rest h

/-- Each generator other than the architectural one opens with its marker line. -/
theorem chunk_heads (inp : BundleInputs) (context : ArchitecturalContext) :
    List.Forall₂ (fun name chunk => stringsHasPrefix chunk (chunkMarker ++ name) = true)
      chunkNames (bundleChunks { inp with arch := some context }) := by
  have hmeta : ∀ r : List Char, stringsHasPrefix
      ("### CHUNK: PR METADATA\n# Pull Request Overview\n- PR ID: ".toList ++ r)
      (chunkMarker ++ " PR METADATA".toList) = true :=
    fun r => hasPrefix_append _ r _ (by decide)
  have hdesc : ∀ r : List Char, stringsHasPrefix
      ("### CHUNK: PR DESCRIPTION\n# Change Description\n".toList ++ r)
      (chunkMarker ++ " PR DESCRIPTION".toList) = true :=
    fun r => hasPrefix_append _ r _ (by decide)
  have harch : ∀ r : List Char, stringsHasPrefix
      ("### CHUNK: ARCHITECTURAL CONTEXT\n".toList ++ r)
      (chunkMarker ++ " ARCHITECTURAL CONTEXT".toList) = true :=
    fun r => hasPrefix_append _ r _ (by decide)
  have hhist : ∀ r : List Char, stringsHasPrefix
      ("### CHUNK: COMMIT HISTORY\n".toList ++ r)
      (chunkMarker ++ " COMMIT HISTORY".toList) = true :=
    fun r => hasPrefix_append _ r _ (by decide)
  have htest : ∀ r : List Char, stringsHasPrefix
      ("### CHUNK: TEST CASES\n".toList ++ r)
      (chunkMarker ++ " TEST CASES".toList) = true :=
    fun r => hasPrefix_append _ r _ (by decide)
  have hctx : ∀ r : List Char, stringsHasPrefix
      ("### CHUNK: CODE CONTEXT\n# Related Code Definitions\n".toList ++ r)
      (chunkMarker ++ " CODE CONTEXT".toList) = true :=
    fun r => hasPrefix_append _ r _ (by decide)
  have hdiff : ∀ r : List Char, stringsHasPrefix
      ("### CHUNK: GIT DIFF\n# Changes Made\n".toList ++ r)
      (chunkMarker ++ " GIT DIFF".toList) = true :=
    fun r => hasPrefix_append _ r _ (by decide)
  have hfiles : ∀ r : List Char, stringsHasPrefix
      ("### CHUNK: COMPLETE FILES\n# Complete File Contents\n".toList ++ r)
      (chunkMarker ++ " COMPLETE FILES".toList) = true :=
    fun r => hasPrefix_append _ r _ (by decide)
  refine List.Forall₂.cons ?_ (List.Forall₂.cons ?_ (List.Forall₂.cons ?_ (List.Forall₂.cons ?_
    (List.Forall₂.cons ?_ (List.Forall₂.cons ?_ (List.Forall₂.cons ?_ (List.Forall₂.cons ?_
    (List.Forall₂.cons ?_ (List.Forall₂.cons ?_ List.Forall₂.nil)))))))))
  · simp only [generateMetadataChunk, List.append_assoc]; exact hmeta _
  · exact hdesc _
  · simp only [generateArchitecturalChunk, List.append_assoc]; exact harch _
  · simp only [generateCommitHistoryChunk, List.append_assoc]; exact hhist _
  · show stringsHasPrefix (testCaseChunk inp.percent inp.sheet) _ = true
    unfold testCaseChunk
    split
    · unfold generateTestCaseChunk
      split
      · decide
      · simp only [List.append_assoc]; exact htest _
    · exact hasPrefix_append _ _ _ (by decide)
    · decide
  · exact hctx _
  · simp only [generateDiffChunk, List.append_assoc]; exact hdiff _
  · exact hfiles _
  · decide!
  · decide!

theorem forall2_marker_count (names chunks : List (List Char))
    (h : List.Forall₂ (fun name chunk => stringsHasPrefix chunk (chunkMarker ++ name) = true)
      names chunks) :
    names.length ≤ (chunks.map fun c => stringsCount c chunkMarker).sum := by
  induction h with
  | nil => simp
  | cons hhead _ ih =>
    have h1 := stringsCount_pos_of_prefix chunkMarker _ chunkMarker_ne_nil
      (isPrefixOf_of_append chunkMarker _ _ hhead)
    simp only [List.length_cons, List.map_cons, List.sum_cons]
    omega

/-- C1 (amended): when the architecture gatherer succeeds, the ten chunks of the
bundle open, in the order of the table of contents, with the marker lines
`### CHUNK: PR METADATA` … `### CHUNK: REVIEW OUTPUT FORMAT`; the guide and the
separators contribute no marker, so the bundle holds exactly the markers of its
chunks, at least ten, and more when an interpolated text contains the marker. -/
theorem writeDiffToFile_markers (inp : BundleInputs) (harch : inp.arch.isSome = true) :
    List.Forall₂ (fun name chunk => stringsHasPrefix chunk (chunkMarker ++ name) = true)
        chunkNames (bundleChunks inp) ∧
      stringsCount (writeDiffToFile inp) chunkMarker =
        ((bundleChunks inp).map fun c => stringsCount c chunkMarker).sum ∧
      10 ≤ stringsCount (writeDiffToFile inp) chunkMarker := by
  have hheads : List.Forall₂
      (fun name chunk => stringsHasPrefix chunk (chunkMarker ++ name) = true)
      chunkNames (bundleChunks inp) := by
    cases harchv : inp.arch with
    | none => rw [harchv] at harch; simp at harch
    | some context =>
      have hinp : inp = { inp with arch := some context } := by
        cases inp; simp_all
      rw [hinp]
      exact chunk_heads inp context
  have hcount : stringsCount (writeDiffToFile inp) chunkMarker =
      ((bundleChunks inp).map fun c => stringsCount c chunkMarker).sum := by
    rw [writeDiffToFile, stringsCount_marker_guide, stringsCount_marker_join]
  refine ⟨hheads, hcount, ?_⟩
  rw [hcount]
  exact forall2_marker_count chunkNames _ hheads

/-- C1 (amended), at an input whose gatherers all succeed. -/
theorem writeDiffToFile_markers_witness :
    quietInputs.arch.isSome = true ∧
      List.Forall₂ (fun name chunk => stringsHasPrefix chunk (chunkMarker ++ name) = true)
        chunkNames (bundleChunks quietInputs) ∧
      stringsCount (writeDiffToFile quietInputs) chunkMarker =
        ((bundleChunks quietInputs).map fun c => stringsCount c chunkMarker).sum ∧
      10 ≤ stringsCount (writeDiffToFile quietInputs) chunkMarker :=
  ⟨rfl, writeDiffToFile_markers quietInputs rfl⟩

/-- C1 (as stated) fails: with the architecture gatherer succeeding, a pull request
whose title quotes a marker gives a bundle with eleven occurrences of `### CHUNK:`. -/
theorem writeDiffToFile_marker_in_title :
    markerInTitleInputs.arch.isSome = true ∧
      stringsCount (writeDiffToFile markerInTitleInputs) chunkMarker = 11 := by
  decide!

/-- When `getArchitecturalContext` fails, the third chunk is the bare text
`Error gathering architectural context`: it carries no marker, and the bundle of
an otherwise quiet input holds nine markers. -/
theorem writeDiffToFile_arch_failure :
    stringsHasPrefix (generateArchitecturalChunk none) chunkMarker = false ∧
      stringsCount (writeDiffToFile archFailureInputs) chunkMarker = 9 := by
  decide!

/-! ## The comment codec: tiers of `parseGPT4Response` -/

theorem parseGPT4Response_direct (response : List Char)
    (h : (jsonUnmarshal [] response).1 = none) :
    parseGPT4Response response = Except.ok (jsonUnmarshal [] response).2 := by
  simp only [parseGPT4Response, h]

theorem parseGPT4Response_fallback (response : List Char)
    (h : (jsonUnmarshal [] response).1 ≠ none) (hblock : findJsonBlock response = none) :
    parseGPT4Response response =
      Except.ok [{ Content := { Raw := response }, Inline := none }] := by
  cases hd : (jsonUnmarshal [] response).1 with
  | none => exact absurd hd h
  | some e => simp only [parseGPT4Response, hd, hblock]

theorem parseGPT4Response_extracted (response jsonContent : List Char)
    (h : (jsonUnmarshal [] response).1 ≠ none)
    (hblock : findJsonBlock response = some jsonContent) :
    parseGPT4Response response =
      match (jsonUnmarshal (jsonUnmarshal [] response).2 jsonContent).1 with
      | none => Except.ok (jsonUnmarshal (jsonUnmarshal [] response).2 jsonContent).2
      | some err => Except.error (ParseError.failedToParseExtractedJSON err) := by
  cases hd : (jsonUnmarshal [] response).1 with
  | none => exact absurd hd h
  | some e => simp only [parseGPT4Response, hd, hblock]

theorem findAfter_none_of_not_contains (pat s : List Char)
    (h : stringsContains s pat = false) : findAfter pat s = none := by
  induction s with
  | nil =>
    simp only [stringsContains] at h
    simp [findAfter, h]
  | cons c t ih =>
    simp only [stringsContains, Bool.or_eq_false_iff] at h
    simp [findAfter, h.1, ih h.2]

theorem findJsonBlock_none_of_not_contains (response : List Char)
    (h : stringsContains response jsonFence = false) : findJsonBlock response = none := by
  simp [findJsonBlock, findAfter_none_of_not_contains jsonFence response h]

/-- C2 (amended): `parseGPT4Response` returns an error exactly when the whole text
does not decode as a comment list and a fenced JSON block is found whose content
does not decode either; when the whole text does not decode and no fenced block is
found, it returns the single general comment that wraps the raw text. -/
theorem parseGPT4Response_error_iff (response : List Char) :
    ((∃ e, parseGPT4Response response = Except.error e) ↔
      ((jsonUnmarshal [] response).1 ≠ none ∧
        ∃ jsonContent, findJsonBlock response = some jsonContent ∧
          (jsonUnmarshal (jsonUnmarshal [] response).2 jsonContent).1 ≠ none)) ∧
    ((jsonUnmarshal [] response).1 ≠ none ∧ findJsonBlock response = none →
      parseGPT4Response response =
        Except.ok [{ Content := { Raw := response }, Inline := none }]) := by
  refine ⟨?_, fun h => parseGPT4Response_fallback response h.1 h.2⟩
  constructor
  · rintro ⟨e, he⟩
    cases hd : (jsonUnmarshal [] response).1 with
    | none => rw [parseGPT4Response_direct response hd] at he; cases he
    | some e1 =>
      have hne : (jsonUnmarshal [] response).1 ≠ none := by rw [hd]; simp
      refine ⟨by simp, ?_⟩
      cases hb : findJsonBlock response with
      | none => rw [parseGPT4Response_fallback response hne hb] at he; cases he
      | some jsonContent =>
        refine ⟨jsonContent, rfl, ?_⟩
        intro hnone
        rw [parseGPT4Response_extracted response jsonContent hne hb, hnone] at he
        cases he
  · rintro ⟨hne, jsonContent, hb, hfail⟩
    rw [parseGPT4Response_extracted response jsonContent hne hb]
    cases hx : (jsonUnmarshal (jsonUnmarshal [] response).2 jsonContent).1 with
    | none => exact absurd hx hfail
    | some err => exact ⟨_, rfl⟩

/-- C2 (as stated) fails: a fenced block that does not decode makes
`parseGPT4Response` return an error instead of the general comment. -/
theorem parseGPT4Response_returns_error :
    parseGPT4Response brokenBlockResponse =
      Except.error (ParseError.failedToParseExtractedJSON JsonError.syntaxError) := by
  decide!

theorem findAfter_some_split (pat s rest : List Char) (h : findAfter pat s = some rest) :
    ∃ a, s = a ++ pat ++ rest := by
  induction s with
  | nil =>
    simp only [findAfter] at h
    split at h
    · next hp =>
      cases pat with
      | nil => cases h; exact ⟨[], rfl⟩
      | cons p ps => simp [List.isPrefixOf] at hp
    · cases h
  | cons c t ih =>
    simp only [findAfter] at h
    split at h
    · next hp =>
      obtain ⟨u, hu⟩ := List.isPrefixOf_iff_prefix.1 hp
      simp only [Option.some.injEq] at h
      refine ⟨[], ?_⟩
      rw [← h, ← hu, List.drop_left]
      rfl
    · obtain ⟨a, ha⟩ := ih h
      exact ⟨c :: a, by rw [ha]; simp⟩

theorem takeUntil_some_split (pat s body : List Char) (h : takeUntil pat s = some body) :
    ∃ c, s = body ++ pat ++ c := by
  induction s generalizing body with
  | nil =>
    simp only [takeUntil] at h
    split at h
    · next hp =>
      cases pat with
      | nil => cases h; exact ⟨[], rfl⟩
      | cons p ps => simp [List.isPrefixOf] at hp
    · cases h
  | cons x t ih =>
    simp only [takeUntil] at h
    split at h
    · next hp =>
      obtain ⟨u, hu⟩ := List.isPrefixOf_iff_prefix.1 hp
      simp only [Option.some.injEq] at h
      exact ⟨u, by rw [← h, ← hu]; rfl⟩
    · cases hrec : takeUntil pat t with
      | none => simp [hrec] at h
      | some b =>
        simp only [hrec, Option.map_some', Option.some.injEq] at h
        obtain ⟨c, hc⟩ := ih b hrec
        exact ⟨c, by rw [← h, hc]; simp⟩

/-- The pattern matches only a text that holds an opening fence and, later, a
closing fence. -/
theorem findJsonBlock_some_split (response jsonContent : List Char)
    (h : findJsonBlock response = some jsonContent) :
    ∃ a b c, response = a ++ jsonFence ++ b ++ closingFence ++ c := by
  unfold findJsonBlock at h
  cases hf : findAfter jsonFence response with
  | none => simp [hf] at h
  | some rest =>
    simp only [hf] at h
    obtain ⟨a, ha⟩ := findAfter_some_split jsonFence response rest hf
    obtain ⟨c, hc⟩ := takeUntil_some_split closingFence _ jsonContent h
    refine ⟨a, rest.takeWhile isRegexSpace ++ jsonContent, c, ?_⟩
    have hrest : rest = rest.takeWhile isRegexSpace ++ rest.dropWhile isRegexSpace :=
      (List.takeWhile_append_dropWhile isRegexSpace rest).symm
    rw [ha]
    conv_lhs => rw [hrest, hc]
    simp [List.append_assoc]

/-- C5: a response that does not decode as a comment list and holds no fenced block
(no opening fence of a JSON block followed, later, by a closing fence) yields
exactly one comment, general, whose text is the whole response. -/
theorem parseGPT4Response_no_json (response : List Char)
    (hdirect : (jsonUnmarshal [] response).1 ≠ none)
    (hblock : ¬ ∃ a b c, response = a ++ jsonFence ++ b ++ closingFence ++ c) :
    parseGPT4Response response =
      Except.ok [{ Content := { Raw := response }, Inline := none }] := by
  apply parseGPT4Response_fallback response hdirect
  cases hb : findJsonBlock response with
  | none => rfl
  | some jsonContent => exact absurd (findJsonBlock_some_split response jsonContent hb) hblock

/-! ## The fenced block (tier 2) -/

theorem stringsContains_append_left (pat a b : List Char)
    (h : stringsContains (a ++ b) pat = false) : stringsContains b pat = false := by
  induction a with
  | nil => simpa using h
  | cons c t ih =>
    rw [List.cons_append] at h
    simp only [stringsContains, Bool.or_eq_false_iff] at h
    exact ih h.2

theorem isPrefixOf_true_iff (p l : List Char) : p.isPrefixOf l = true ↔ p <+: l :=
  List.isPrefixOf_iff_prefix

theorem stringsContains_of_prefix (pat s : List Char) (h : pat <+: s) :
    stringsContains s pat = true := by
  cases s with
  | nil => simp [stringsContains, (isPrefixOf_true_iff pat []).2 h]
  | cons c t => simp [stringsContains, (isPrefixOf_true_iff pat (c :: t)).2 h]

/-- The first occurrence of a pattern that is no proper suffix-prefix overlap of
itself, after a text without the pattern, is the one that was appended. -/
theorem findAfter_append (pat pre rest : List Char) (hne : pat ≠ [])
    (hborder : ∀ k, 0 < k → k < pat.length → (pat.drop k).isPrefixOf pat = false)
    (hpre : stringsContains pre pat = false) :
    findAfter pat (pre ++ pat ++ rest) = some rest := by
  induction pre with
  | nil =>
    cases pat with
    | nil => exact absurd rfl hne
    | cons p ps =>
      have hp : (p :: ps).isPrefixOf (p :: ps ++ rest) = true :=
        (isPrefixOf_true_iff _ _).2 (List.prefix_append _ _)
      have hp' : (p :: ps).isPrefixOf (p :: (ps ++ rest)) = true := by simp
      have e : [] ++ (p :: ps) ++ rest = p :: (ps ++ rest) := by simp
      rw [e, findAfter, hp']
      simp
  | cons c t ih =>
    have hpre' := hpre
    simp only [stringsContains, Bool.or_eq_false_iff] at hpre'
    have hno : pat.isPrefixOf (c :: t ++ pat ++ rest) = false := by
      cases hx : pat.isPrefixOf (c :: t ++ pat ++ rest) with
      | false => rfl
      | true =>
        exfalso
        have h1 : pat <+: (c :: t) ++ (pat ++ rest) := by
          have := (isPrefixOf_true_iff _ _).1 hx
          simpa [List.append_assoc] using this
        have h2 : (c :: t) <+: (c :: t) ++ (pat ++ rest) := List.prefix_append _ _
        rcases List.prefix_or_prefix_of_prefix h1 h2 with h3 | h3
        · have := (isPrefixOf_true_iff _ _).2 h3
          rw [this] at hpre'
          exact Bool.noConfusion hpre'.1
        · obtain ⟨u, hu⟩ := h3
          have hlen : pat.length = (c :: t).length + u.length := by
            rw [← hu, List.length_append]
          have hdrop : pat.drop (c :: t).length = u := by
            rw [← hu, List.drop_left]
          have h4 : u <+: pat ++ rest := by
            have h5 : (c :: t) ++ u <+: (c :: t) ++ (pat ++ rest) := by rw [hu]; exact h1
            exact (List.prefix_append_right_inj _).1 h5
          have h6 : u <+: pat :=
            List.prefix_of_prefix_length_le h4 (List.prefix_append _ _) (by omega)
          by_cases hu0 : u = []
          · subst hu0
            rw [List.append_nil] at hu
            have h7 : pat <+: c :: t := by rw [hu]
            have := (isPrefixOf_true_iff _ _).2 h7
            rw [this] at hpre'
            exact Bool.noConfusion hpre'.1
          · have hupos : 0 < u.length := List.length_pos.2 hu0
            have hb := hborder (c :: t).length (by simp) (by omega)
            rw [hdrop, (isPrefixOf_true_iff _ _).2 h6] at hb
            exact Bool.noConfusion hb
    have hno' : pat.isPrefixOf (c :: (t ++ pat ++ rest)) = false := by
      simpa [List.append_assoc] using hno
    have e : c :: t ++ pat ++ rest = c :: (t ++ pat ++ rest) := by simp
    rw [e, findAfter, hno']
    simpa using ih hpre'.2

/-- The text before a closing pattern is returned whole when the pattern does not
begin earlier, inside the text or across its end. -/
theorem takeUntil_append (pat body post : List Char) (hne : pat ≠ [])
    (hbody : stringsContains (body ++ pat.dropLast) pat = false) :
    takeUntil pat (body ++ pat ++ post) = some body := by
  induction body with
  | nil =>
    cases pat with
    | nil => exact absurd rfl hne
    | cons p ps =>
      have hp : (p :: ps).isPrefixOf (p :: ps ++ post) = true :=
        (isPrefixOf_true_iff _ _).2 (List.prefix_append _ _)
      have hp' : (p :: ps).isPrefixOf (p :: (ps ++ post)) = true := by simp
      have e : [] ++ (p :: ps) ++ post = p :: (ps ++ post) := by simp
      rw [e, takeUntil, hp']
      rfl
  | cons c t ih =>
    rw [List.cons_append] at hbody
    have hbody' := hbody
    simp only [stringsContains, Bool.or_eq_false_iff] at hbody'
    have hno : pat.isPrefixOf (c :: (t ++ pat ++ post)) = false := by
      cases hx : pat.isPrefixOf (c :: (t ++ pat ++ post)) with
      | false => rfl
      | true =>
        exfalso
        have h1 : pat <+: (c :: t) ++ pat ++ post := by
          have := (isPrefixOf_true_iff _ _).1 hx
          simpa [List.append_assoc] using this
        have h2 : (c :: t) ++ pat.dropLast <+: (c :: t) ++ pat ++ post := by
          have h3 : pat.dropLast <+: pat := List.dropLast_prefix pat
          obtain ⟨w, hw⟩ := h3
          refine ⟨w ++ post, ?_⟩
          calc (c :: t) ++ pat.dropLast ++ (w ++ post)
              = (c :: t) ++ (pat.dropLast ++ w) ++ post := by simp [List.append_assoc]
            _ = (c :: t) ++ pat ++ post := by rw [hw]
        have hl : pat.length ≤ ((c :: t) ++ pat.dropLast).length := by
          have hpl : 0 < pat.length := List.length_pos.2 hne
          simp only [List.length_append, List.length_cons, List.length_dropLast]
          omega
        have h3 := List.prefix_of_prefix_length_le h1 h2 hl
        have h4 := (isPrefixOf_true_iff _ _).2 h3
        rw [List.cons_append] at h4
        rw [h4] at hbody'
        exact Bool.noConfusion hbody'.1
    have e : c :: t ++ pat ++ post = c :: (t ++ pat ++ post) := by simp
    rw [e, takeUntil, hno]
    simp only [Bool.false_eq_true, if_false, ih hbody'.2, Option.map_some']

theorem dropWhile_append_of_all (p : Char → Bool) (w y : List Char)
    (h : ∀ a ∈ w, p a = true) : (w ++ y).dropWhile p = y.dropWhile p := by
  induction w with
  | nil => rfl
  | cons c t ih =>
    have hc : p c = true := h c (by simp)
    rw [List.cons_append, List.dropWhile_cons, hc]
    simpa using ih (fun a ha => h a (by simp [ha]))

theorem isRegexSpace_of_isJsonSpace (c : Char) (h : isJsonSpace c = true) :
    isRegexSpace c = true := by
  simp only [isJsonSpace, Bool.or_eq_true, decide_eq_true_eq] at h
  simp only [isRegexSpace, Bool.or_eq_true, decide_eq_true_eq]
  tauto

theorem skipWs_idem (s : List Char) : skipWs (skipWs s) = skipWs s := by
  induction s with
  | nil => rfl
  | cons c t ih =>
    by_cases hc : isJsonSpace c = true
    · simpa [skipWs, List.dropWhile_cons, hc] using ih
    · simp [skipWs, List.dropWhile_cons, hc]

theorem parseJson_skipWs (s : List Char) : parseJson (skipWs s) = parseJson s := by
  simp only [parseJson, skipWs_idem]

theorem jsonUnmarshal_skipWs (old : List CommentPayload) (s : List Char) :
    jsonUnmarshal old (skipWs s) = jsonUnmarshal old s := by
  simp only [jsonUnmarshal, parseJson_skipWs]

/-- A JSON value does not begin with white space of the class `\s`. -/
theorem parseValue_head_not_space (fuel : Nat) (c : Char) (r : List Char)
    (hc : isRegexSpace c = true) : parseValue fuel (c :: r) = none := by
  cases fuel with
  | zero => simp [parseValue]
  | succ f =>
    simp only [isRegexSpace, Bool.or_eq_true, decide_eq_true_eq] at hc
    rcases hc with (((h | h) | h) | h) | h <;> subst h <;>
      simp [parseValue, parseNumber, scanIntPart, isDigit]

/-! ## What the parser consumes -/

theorem unescape_suffix (x y : List Char) (ch : Char) (h : unescape x = some (ch, y)) :
    ∃ u, x = u ++ y := by
  cases x with
  | nil => simp [unescape] at h
  | cons e rest =>
    by_cases he : e = 'u'
    · subst he
      match rest, h with
      | a :: b :: c :: d :: rest1, h =>
        simp only [unescape, if_true] at h
        cases hh : hex4 a b c d with
        | none => simp [hh] at h
        | some code =>
          simp only [hh, Option.some.injEq, Prod.mk.injEq] at h
          by_cases hused : (unescapeUnit code (getu4 rest1)).2 = true
          · rw [if_pos hused] at h
            refine ⟨'u' :: a :: b :: c :: d :: rest1.take 6, ?_⟩
            rw [← h.2]
            simp [List.take_append_drop]
          · rw [if_neg hused] at h
            exact ⟨['u', a, b, c, d], by rw [← h.2]; rfl⟩
      | [], h => simp [unescape] at h
      | [_], h => simp [unescape] at h
      | [_, _], h => simp [unescape] at h
      | [_, _, _], h => simp [unescape] at h
    · simp only [unescape, he, if_false] at h
      refine ⟨[e], ?_⟩
      repeat' split at h
      all_goals first
        | (cases h; done)
        | (cases h; rfl)

/-- A string body that is read ends with its closing quote. -/
theorem parseStringBody_consumes (fuel : Nat) : ∀ (s str rest : List Char),
    parseStringBody fuel s = some (str, rest) → ∃ u, s = u ++ '"' :: rest := by
  induction fuel with
  | zero => intro s str rest h; simp [parseStringBody] at h
  | succ f ih =>
    intro s str rest h
    cases s with
    | nil => simp [parseStringBody] at h
    | cons c t =>
      by_cases hq : c = '"'
      · subst hq
        simp only [parseStringBody, if_true, Option.some.injEq, Prod.mk.injEq] at h
        exact ⟨[], by rw [h.2]; rfl⟩
      · by_cases hb : c = '\\'
        · subst hb
          simp only [parseStringBody, hq, if_false, if_true] at h
          cases hu : unescape t with
          | none => simp [hu] at h
          | some r =>
            obtain ⟨ch, rest1⟩ := r
            simp only [hu] at h
            cases hp : parseStringBody f rest1 with
            | none => simp [hp] at h
            | some r2 =>
              obtain ⟨str2, rest2⟩ := r2
              simp only [hp, Option.map_some', Option.some.injEq, Prod.mk.injEq] at h
              obtain ⟨u1, hu1⟩ := unescape_suffix t rest1 ch hu
              obtain ⟨u2, hu2⟩ := ih rest1 str2 rest2 hp
              refine ⟨'\\' :: u1 ++ u2, ?_⟩
              rw [hu1, hu2, ← h.2]
              simp
        · by_cases hctl : c.toNat < 0x20
          · simp [parseStringBody, hq, hb, hctl] at h
          · simp only [parseStringBody, hq, hb, hctl, if_false] at h
            cases hp : parseStringBody f t with
            | none => simp [hp] at h
            | some r2 =>
              obtain ⟨str2, rest2⟩ := r2
              simp only [hp, Option.map_some', Option.some.injEq, Prod.mk.injEq] at h
              obtain ⟨u2, hu2⟩ := ih t str2 rest2 hp
              refine ⟨c :: u2, ?_⟩
              rw [hu2, ← h.2]
              simp

theorem isDigit_ne_backtick (c : Char) (h : isDigit c = true) : c ≠ Char.ofNat 96 := by
  intro hc
  subst hc
  exact absurd h (by decide)

theorem takeWhile_isDigit_ne_backtick (s : List Char) :
    ∀ c ∈ s.takeWhile isDigit, c ≠ Char.ofNat 96 :=
  fun c hc => isDigit_ne_backtick c (List.mem_takeWhile_imp hc)

theorem scanDigits_consumes (s ds r : List Char) (h : scanDigits s = some (ds, r)) :
    s = ds ++ r ∧ ∀ c ∈ ds, c ≠ Char.ofNat 96 := by
  unfold scanDigits at h
  split at h
  · cases h
  · simp only [Option.some.injEq, Prod.mk.injEq] at h
    rw [← h.1, ← h.2]
    exact ⟨(List.takeWhile_append_dropWhile isDigit s).symm, takeWhile_isDigit_ne_backtick s⟩

theorem scanIntPart_consumes (s p r : List Char) (h : scanIntPart s = some (p, r)) :
    s = p ++ r ∧ p ≠ [] ∧ ∀ c ∈ p, c ≠ Char.ofNat 96 := by
  cases s with
  | nil => simp [scanIntPart] at h
  | cons c t =>
    by_cases h0 : c = '0'
    · simp only [scanIntPart, h0, if_true, Option.some.injEq, Prod.mk.injEq] at h
      rw [← h.1, ← h.2, h0]
      exact ⟨rfl, by simp, by decide⟩
    · by_cases hd : isDigit c = true
      · simp only [scanIntPart, h0, hd, if_true, if_false, Option.some.injEq,
          Prod.mk.injEq] at h
        rw [← h.1, ← h.2]
        refine ⟨by simp [List.takeWhile_append_dropWhile], by simp, ?_⟩
        intro x hx
        rcases List.mem_cons.1 hx with hx | hx
        · rw [hx]; exact isDigit_ne_backtick c hd
        · exact takeWhile_isDigit_ne_backtick t x hx
      · simp [scanIntPart, h0, hd] at h

theorem scanFraction_consumes (s p r : List Char) (h : scanFraction s = some (p, r)) :
    s = p ++ r ∧ ∀ c ∈ p, c ≠ Char.ofNat 96 := by
  cases s with
  | nil =>
    simp only [scanFraction, Option.some.injEq, Prod.mk.injEq] at h
    rw [← h.1, ← h.2]
    exact ⟨rfl, by simp⟩
  | cons c t =>
    by_cases hdot : c = '.'
    · simp only [scanFraction, hdot, if_true] at h
      cases hs : scanDigits t with
      | none => simp [hs] at h
      | some q =>
        obtain ⟨ds, r'⟩ := q
        simp only [hs, Option.map_some', Option.some.injEq, Prod.mk.injEq] at h
        obtain ⟨e1, e2⟩ := scanDigits_consumes t ds r' hs
        rw [← h.1, ← h.2, hdot, e1]
        refine ⟨rfl, ?_⟩
        intro x hx
        rcases List.mem_cons.1 hx with hx | hx
        · rw [hx]; decide
        · exact e2 x hx
    · simp only [scanFraction, hdot, if_false, Option.some.injEq, Prod.mk.injEq] at h
      rw [← h.1, ← h.2]
      exact ⟨rfl, by simp⟩

theorem scanExponent_consumes (s p r : List Char) (h : scanExponent s = some (p, r)) :
    s = p ++ r ∧ ∀ c ∈ p, c ≠ Char.ofNat 96 := by
  cases s with
  | nil =>
    simp only [scanExponent, Option.some.injEq, Prod.mk.injEq] at h
    rw [← h.1, ← h.2]
    exact ⟨rfl, by simp⟩
  | cons c t =>
    by_cases he : c = 'e' ∨ c = 'E'
    · have hc : c ≠ Char.ofNat 96 := by
        rcases he with he | he <;> rw [he] <;> decide
      cases t with
      | nil => simp [scanExponent, he] at h
      | cons sign t1 =>
        by_cases hsign : sign = '+' ∨ sign = '-'
        · have hs' : sign ≠ Char.ofNat 96 := by
            rcases hsign with hs | hs <;> rw [hs] <;> decide
          simp only [scanExponent, he, hsign, if_true] at h
          cases hs : scanDigits t1 with
          | none => simp [hs] at h
          | some q =>
            obtain ⟨ds, r'⟩ := q
            simp only [hs, Option.map_some', Option.some.injEq, Prod.mk.injEq] at h
            obtain ⟨e1, e2⟩ := scanDigits_consumes t1 ds r' hs
            rw [← h.1, ← h.2, e1]
            refine ⟨rfl, ?_⟩
            intro x hx
            rcases List.mem_cons.1 hx with hx | hx
            · rw [hx]; exact hc
            · rcases List.mem_cons.1 hx with hx | hx
              · rw [hx]; exact hs'
              · exact e2 x hx
        · simp only [scanExponent, he, hsign, if_true, if_false] at h
          cases hs : scanDigits (sign :: t1) with
          | none => simp [hs] at h
          | some q =>
            obtain ⟨ds, r'⟩ := q
            simp only [hs, Option.map_some', Option.some.injEq, Prod.mk.injEq] at h
            obtain ⟨e1, e2⟩ := scanDigits_consumes (sign :: t1) ds r' hs
            rw [← h.1, ← h.2, e1]
            refine ⟨rfl, ?_⟩
            intro x hx
            rcases List.mem_cons.1 hx with hx | hx
            · rw [hx]; exact hc
            · exact e2 x hx
    · simp only [scanExponent, he, if_false, Option.some.injEq, Prod.mk.injEq] at h
      rw [← h.1, ← h.2]
      exact ⟨rfl, by simp⟩

/-- The literal of a number that is read is a non-empty front of the text and holds
no backtick. -/
theorem parseNumber_consumes (s lit r : List Char) (h : parseNumber s = some (lit, r)) :
    s = lit ++ r ∧ lit ≠ [] ∧ ∀ c ∈ lit, c ≠ Char.ofNat 96 := by
  have hsigned : ∃ sg s1, (match s with
      | c :: rest => if c = '-' then ([c], rest) else ([], s)
      | [] => ([], s)) = (sg, s1) ∧ s = sg ++ s1 ∧ ∀ c ∈ sg, c ≠ Char.ofNat 96 := by
    cases s with
    | nil => exact ⟨[], [], rfl, rfl, by simp⟩
    | cons c rest =>
      by_cases hm : c = '-'
      · refine ⟨[c], rest, by simp [hm], rfl, ?_⟩
        intro x hx
        rw [List.mem_singleton] at hx
        rw [hx, hm]; decide
      · exact ⟨[], c :: rest, by simp [hm], rfl, by simp⟩
  obtain ⟨sg, s1, hm, hs, hsg⟩ := hsigned
  simp only [parseNumber, hm] at h
  cases hi : scanIntPart s1 with
  | none => simp [hi] at h
  | some q1 =>
    obtain ⟨ip, r1⟩ := q1
    simp only [hi] at h
    cases hf : scanFraction r1 with
    | none => simp [hf] at h
    | some q2 =>
      obtain ⟨fp, r2⟩ := q2
      simp only [hf] at h
      cases hx : scanExponent r2 with
      | none => simp [hx] at h
      | some q3 =>
        obtain ⟨ep, r3⟩ := q3
        simp only [hx, Option.some.injEq, Prod.mk.injEq] at h
        obtain ⟨a1, a2, a3⟩ := scanIntPart_consumes s1 ip r1 hi
        obtain ⟨b1, b2⟩ := scanFraction_consumes r1 fp r2 hf
        obtain ⟨c1, c2⟩ := scanExponent_consumes r2 ep r3 hx
        rw [← h.1, ← h.2]
        refine ⟨?_, ?_, ?_⟩
        · rw [hs, a1, b1, c1]; simp [List.append_assoc]
        · cases ip with
          | nil => exact absurd rfl a2
          | cons i0 it => simp
        · intro x hxm
          simp only [List.mem_append] at hxm
          rcases hxm with ((hxm | hxm) | hxm) | hxm
          · exact hsg x hxm
          · exact a3 x hxm
          · exact b2 x hxm
          · exact c2 x hxm

theorem consumedBefore_of_suffix (s r1 r2 : List Char) (h1 : r1 <:+ s)
    (h2 : ConsumedBefore r1 r2) : ConsumedBefore s r2 := by
  obtain ⟨x, hx⟩ := h1
  obtain ⟨u, c, hu, hc⟩ := h2
  exact ⟨x ++ u, c, by rw [← hx, hu]; simp, hc⟩

theorem consumedBefore_suffix (s rest : List Char) (h : ConsumedBefore s rest) : rest <:+ s := by
  obtain ⟨u, c, hu, _⟩ := h
  exact ⟨u ++ [c], by rw [hu]; simp⟩

theorem consumedBefore_cons (s rest : List Char) (c : Char) (h : (c :: rest) <:+ s)
    (hc : c ≠ Char.ofNat 96) : ConsumedBefore s rest := by
  obtain ⟨x, hx⟩ := h
  exact ⟨x, c, hx.symm, hc⟩

theorem skipWs_suffix (s : List Char) : skipWs s <:+ s := List.dropWhile_suffix _

theorem consumedBefore_keyword (p s : List Char) (hp : ∃ u c, p = u ++ [c] ∧ c ≠ Char.ofNat 96)
    (h : p.isPrefixOf s = true) : ConsumedBefore s (s.drop p.length) := by
  obtain ⟨t, ht⟩ := (isPrefixOf_true_iff p s).1 h
  obtain ⟨u, c, hu, hc⟩ := hp
  refine ⟨u, c, ?_, hc⟩
  rw [← ht, List.drop_left, hu]
  simp

theorem consumedBefore_number (s lit r : List Char) (h : parseNumber s = some (lit, r)) :
    ConsumedBefore s r := by
  obtain ⟨h1, h2, h3⟩ := parseNumber_consumes s lit r h
  rcases List.eq_nil_or_concat lit with h0 | ⟨u, c, hu⟩
  · exact absurd h0 h2
  · refine ⟨u, c, ?_, h3 c (by rw [hu]; simp)⟩
    rw [h1, hu]
    simp

/-- Every value, run of array elements and run of object members that the parser
reads ends with a character that is no backtick. -/
theorem parse_consumes (fuel : Nat) :
    (∀ s v rest, parseValue fuel s = some (v, rest) → ConsumedBefore s rest) ∧
    (∀ s vs rest, parseElements fuel s = some (vs, rest) → ConsumedBefore s rest) ∧
    (∀ s ms rest, parseMembers fuel s = some (ms, rest) → ConsumedBefore s rest) := by
  induction fuel with
  | zero =>
    refine ⟨?_, ?_, ?_⟩ <;> intro s v rest h <;> simp [parseValue, parseElements, parseMembers] at h
  | succ f ih =>
    obtain ⟨ihV, ihL, ihM⟩ := ih
    refine ⟨?_, ?_, ?_⟩
    · intro s v rest h
      cases s with
      | nil => simp [parseValue] at h
      | cons c rest0 =>
        rw [parseValue] at h
        by_cases h1 : c = '"'
        · rw [if_pos h1] at h
          cases hp : parseStringBody f rest0 with
          | none => simp [hp] at h
          | some q =>
            obtain ⟨str, r⟩ := q
            simp only [hp, Option.map_some', Option.some.injEq, Prod.mk.injEq] at h
            obtain ⟨u, hu⟩ := parseStringBody_consumes f rest0 str r hp
            exact ⟨c :: u, '"', by rw [hu, ← h.2]; simp, by decide⟩
        · rw [if_neg h1] at h
          by_cases h2 : c = '['
          · rw [if_pos h2] at h
            cases hs : skipWs rest0 with
            | nil => simp [hs] at h
            | cons d rest1 =>
              have hsuf : (d :: rest1) <:+ (c :: rest0) := by
                rw [← hs]; exact (skipWs_suffix rest0).trans (List.suffix_cons _ _)
              simp only [hs] at h
              by_cases hd : d = ']'
              · simp only [hd, if_true, Option.some.injEq, Prod.mk.injEq] at h
                rw [← h.2]
                exact consumedBefore_cons _ _ d hsuf (by rw [hd]; decide)
              · simp only [hd, if_false] at h
                cases hv : parseValue f (d :: rest1) with
                | none => simp [hv] at h
                | some q =>
                  obtain ⟨v1, rest2⟩ := q
                  simp only [hv] at h
                  cases hl : parseElements f rest2 with
                  | none => simp [hl] at h
                  | some q2 =>
                    obtain ⟨vs, rest3⟩ := q2
                    simp only [hl, Option.map_some', Option.some.injEq, Prod.mk.injEq] at h
                    rw [← h.2]
                    have s1 := consumedBefore_suffix _ _ (ihV _ _ _ hv)
                    exact consumedBefore_of_suffix _ _ _ (s1.trans hsuf) (ihL _ _ _ hl)
          · rw [if_neg h2] at h
            by_cases h3 : c = '{'
            · rw [if_pos h3] at h
              cases hs : skipWs rest0 with
              | nil => simp [hs] at h
              | cons d rest1 =>
                have hsuf : (d :: rest1) <:+ (c :: rest0) := by
                  rw [← hs]; exact (skipWs_suffix rest0).trans (List.suffix_cons _ _)
                simp only [hs] at h
                by_cases hd : d = '}'
                · simp only [hd, if_true, Option.some.injEq, Prod.mk.injEq] at h
                  rw [← h.2]
                  exact consumedBefore_cons _ _ d hsuf (by rw [hd]; decide)
                · by_cases hq : d = '"'
                  · rw [if_neg hd, if_pos hq] at h
                    cases hm : parseMembers f rest1 with
                    | none => simp [hm] at h
                    | some q2 =>
                      obtain ⟨ms, rest3⟩ := q2
                      simp only [hm, Option.map_some', Option.some.injEq, Prod.mk.injEq] at h
                      rw [← h.2]
                      exact consumedBefore_of_suffix _ _ _
                        ((List.suffix_cons _ _).trans hsuf) (ihM _ _ _ hm)
                  · simp [hd, hq] at h
            · rw [if_neg h3] at h
              by_cases h4 : "true".toList.isPrefixOf (c :: rest0) = true
              · rw [if_pos h4] at h
                simp only [Option.some.injEq, Prod.mk.injEq] at h
                rw [← h.2]
                exact consumedBefore_keyword "true".toList _ ⟨"tru".toList, 'e', rfl, by decide⟩ h4
              · rw [if_neg h4] at h
                by_cases h5 : "false".toList.isPrefixOf (c :: rest0) = true
                · rw [if_pos h5] at h
                  simp only [Option.some.injEq, Prod.mk.injEq] at h
                  rw [← h.2]
                  exact consumedBefore_keyword "false".toList _
                    ⟨"fals".toList, 'e', rfl, by decide⟩ h5
                · rw [if_neg h5] at h
                  by_cases h6 : "null".toList.isPrefixOf (c :: rest0) = true
                  · rw [if_pos h6] at h
                    simp only [Option.some.injEq, Prod.mk.injEq] at h
                    rw [← h.2]
                    exact consumedBefore_keyword "null".toList _
                      ⟨"nul".toList, 'l', rfl, by decide⟩ h6
                  · rw [if_neg h6] at h
                    cases hn : parseNumber (c :: rest0) with
                    | none => simp [hn] at h
                    | some q =>
                      obtain ⟨lit, r⟩ := q
                      simp only [hn, Option.map_some', Option.some.injEq, Prod.mk.injEq] at h
                      rw [← h.2]
                      exact consumedBefore_number _ lit r hn
    · intro s vs rest h
      rw [parseElements] at h
      cases hs : skipWs s with
      | nil => simp [hs] at h
      | cons d rest0 =>
        have hsuf : (d :: rest0) <:+ s := by rw [← hs]; exact skipWs_suffix s
        simp only [hs] at h
        by_cases hd : d = ']'
        · simp only [hd, if_true, Option.some.injEq, Prod.mk.injEq] at h
          rw [← h.2]
          exact consumedBefore_cons _ _ d hsuf (by rw [hd]; decide)
        · by_cases hc : d = ','
          · rw [if_neg hd, if_pos hc] at h
            cases hv : parseValue f (skipWs rest0) with
            | none => simp [hv] at h
            | some q =>
              obtain ⟨v1, rest1⟩ := q
              simp only [hv] at h
              cases hl : parseElements f rest1 with
              | none => simp [hl] at h
              | some q2 =>
                obtain ⟨vs2, rest2⟩ := q2
                simp only [hl, Option.map_some', Option.some.injEq, Prod.mk.injEq] at h
                rw [← h.2]
                have s1 := consumedBefore_suffix _ _ (ihV _ _ _ hv)
                have s2 : rest1 <:+ s :=
                  s1.trans ((skipWs_suffix rest0).trans ((List.suffix_cons _ _).trans hsuf))
                exact consumedBefore_of_suffix _ _ _ s2 (ihL _ _ _ hl)
          · simp [hd, hc] at h
    · intro s ms rest h
      rw [parseMembers] at h
      cases hk : parseStringBody f s with
      | none => simp [hk] at h
      | some q =>
        obtain ⟨key, r0⟩ := q
        obtain ⟨uk, huk⟩ := parseStringBody_consumes f s key r0 hk
        have s0 : r0 <:+ s := ⟨uk ++ ['"'], by rw [huk]; simp⟩
        simp only [hk] at h
        cases hs : skipWs r0 with
        | nil => simp [hs] at h
        | cons colon rest1 =>
          have s1 : rest1 <:+ s := by
            have : (colon :: rest1) <:+ r0 := by rw [← hs]; exact skipWs_suffix r0
            exact ((List.suffix_cons _ _).trans this).trans s0
          simp only [hs] at h
          by_cases hcol : colon = ':'
          · simp only [hcol, if_true] at h
            cases hv : parseValue f (skipWs rest1) with
            | none => simp [hv] at h
            | some q1 =>
              obtain ⟨v1, rest2⟩ := q1
              have s2 : rest2 <:+ s :=
                ((consumedBefore_suffix _ _ (ihV _ _ _ hv)).trans (skipWs_suffix rest1)).trans s1
              simp only [hv] at h
              cases hs2 : skipWs rest2 with
              | nil => simp [hs2] at h
              | cons d rest3 =>
                have s3 : (d :: rest3) <:+ s := by
                  have : (d :: rest3) <:+ rest2 := by rw [← hs2]; exact skipWs_suffix rest2
                  exact this.trans s2
                simp only [hs2] at h
                by_cases hd : d = '}'
                · simp only [hd, if_true, Option.some.injEq, Prod.mk.injEq] at h
                  rw [← h.2]
                  exact consumedBefore_cons _ _ d s3 (by rw [hd]; decide)
                · by_cases hc : d = ','
                  · rw [if_neg hd, if_pos hc] at h
                    cases hs4 : skipWs rest3 with
                    | nil => simp [hs4] at h
                    | cons q4 rest4 =>
                      have s4 : rest4 <:+ s := by
                        have : (q4 :: rest4) <:+ rest3 := by
                          rw [← hs4]; exact skipWs_suffix rest3
                        exact ((List.suffix_cons _ _).trans this).trans
                          ((List.suffix_cons _ _).trans s3)
                      simp only [hs4] at h
                      by_cases hq : q4 = '"'
                      · simp only [hq, if_true] at h
                        cases hm : parseMembers f rest4 with
                        | none => simp [hm] at h
                        | some q5 =>
                          obtain ⟨ms2, rest5⟩ := q5
                          simp only [hm, Option.map_some', Option.some.injEq,
                            Prod.mk.injEq] at h
                          rw [← h.2]
                          exact consumedBefore_of_suffix _ _ _ s4 (ihM _ _ _ hm)
                      · simp [hq] at h
                  · simp [hd, hc] at h
          · simp [hcol] at h

/-- A text that is valid JSON does not end in a backtick. -/
theorem parseJson_last_ne_backtick (J : List Char) (v : JsonValue)
    (h : parseJson J = some v) : J.getLast? ≠ some (Char.ofNat 96) := by
  unfold parseJson at h
  cases hv : parseValue ((skipWs J).length + 1) (skipWs J) with
  | none => simp [hv] at h
  | some q =>
    obtain ⟨v1, rest⟩ := q
    simp only [hv] at h
    by_cases hr : (skipWs rest).isEmpty = true
    · obtain ⟨u, c, hu, hc⟩ := (parse_consumes _).1 _ _ _ hv
      obtain ⟨w, hw⟩ := skipWs_suffix J
      have hJ : J = (w ++ u ++ [c]) ++ rest := by rw [← hw, hu]; simp
      have hall : ∀ x ∈ rest, isJsonSpace x = true := by
        have hnil : rest.dropWhile isJsonSpace = [] := by
          simpa [skipWs, List.isEmpty_iff] using hr
        intro x hx
        by_contra hcon
        have := (List.dropWhile_eq_nil_iff.1 hnil) x hx
        exact hcon this
      have hlast : ∀ (a : List Char) (y : Char), y ≠ Char.ofNat 96 →
          (a ++ [y]).getLast? ≠ some (Char.ofNat 96) := by
        intro a y hy
        rw [List.getLast?_append]
        simpa using hy
      rcases List.eq_nil_or_concat rest with h0 | ⟨r', x, hx⟩
      · have e : J = (w ++ u) ++ [c] := by rw [hJ, h0]; simp
        rw [e]
        exact hlast _ c hc
      · have hxs : isJsonSpace x = true := hall x (by rw [hx]; simp)
        have hxne : x ≠ Char.ofNat 96 := by
          intro hbad
          rw [hbad] at hxs
          exact absurd hxs (by decide)
        have e : J = (w ++ u ++ [c] ++ r') ++ [x] := by rw [hJ, hx]; simp
        rw [e]
        exact hlast _ x hxne
    · simp [hr] at h

theorem stringsContains_closingFence_tail (J : List Char)
    (h1 : stringsContains J closingFence = false)
    (h2 : J.getLast? ≠ some (Char.ofNat 96)) :
    stringsContains (J ++ closingFence.dropLast) closingFence = false := by
  induction J with
  | nil => decide
  | cons c t ih =>
    simp only [stringsContains, Bool.or_eq_false_iff] at h1
    have ht : t.getLast? ≠ some (Char.ofNat 96) := by
      cases t with
      | nil => simp
      | cons d u => simpa [List.getLast?_cons_cons] using h2
    rw [List.cons_append]
    simp only [stringsContains, Bool.or_eq_false_iff]
    refine ⟨?_, ih h1.2 ht⟩
    cases t with
    | nil =>
      have hc : c ≠ Char.ofNat 96 := by simpa using h2
      simp [closingFence, List.isPrefixOf, Ne.symm hc]
    | cons d u =>
      cases u with
      | nil =>
        have hd : d ≠ Char.ofNat 96 := by simpa using h2
        simp [closingFence, List.isPrefixOf, Ne.symm hd]
      | cons e v =>
        have := h1.1
        simpa [closingFence, List.isPrefixOf] using this

theorem jsonFence_border (k : Nat) (h0 : 0 < k) (hk : k < jsonFence.length) :
    (jsonFence.drop k).isPrefixOf jsonFence = false := by
  have hk' : k < 7 := hk
  interval_cases k <;> decide

/-- The start of a text that decodes: after its leading white space comes a
character that is no white space of the class `\s`. -/
theorem skipWs_head_of_parseJson (J : List Char) (v : JsonValue)
    (h : parseJson J = some v) :
    ∃ c r, skipWs J = c :: r ∧ isRegexSpace c = false := by
  cases ht : skipWs J with
  | nil => simp [parseJson, ht, parseValue] at h
  | cons c r =>
    refine ⟨c, r, rfl, ?_⟩
    cases hc : isRegexSpace c with
    | false => rfl
    | true =>
      simp [parseJson, ht, parseValue_head_not_space _ c r hc] at h

theorem findJsonBlock_wrapped (pre J post : List Char) (v : JsonValue)
    (hJ : parseJson J = some v)
    (hpre : stringsContains pre jsonFence = false)
    (hJ1 : stringsContains J closingFence = false)
    (hJ2 : J.getLast? ≠ some (Char.ofNat 96)) :
    findJsonBlock (pre ++ jsonFence ++ J ++ closingFence ++ post) = some (skipWs J) := by
  obtain ⟨c, r, ht, hc⟩ := skipWs_head_of_parseJson J v hJ
  have hsplit : J = J.takeWhile isJsonSpace ++ skipWs J :=
    (List.takeWhile_append_dropWhile isJsonSpace J).symm
  have hw : ∀ a ∈ J.takeWhile isJsonSpace, isRegexSpace a = true := fun a ha =>
    isRegexSpace_of_isJsonSpace a (List.mem_takeWhile_imp ha)
  have hfind : findAfter jsonFence (pre ++ jsonFence ++ J ++ closingFence ++ post) =
      some (J ++ closingFence ++ post) := by
    have e : pre ++ jsonFence ++ J ++ closingFence ++ post =
        pre ++ jsonFence ++ (J ++ closingFence ++ post) := by simp [List.append_assoc]
    rw [e]
    exact findAfter_append jsonFence pre _ (by decide) jsonFence_border hpre
  have hdrop : (J ++ closingFence ++ post).dropWhile isRegexSpace =
      skipWs J ++ closingFence ++ post := by
    have e : J ++ closingFence ++ post =
        J.takeWhile isJsonSpace ++ (skipWs J ++ closingFence ++ post) := by
      conv_lhs => rw [hsplit]
      simp [List.append_assoc]
    rw [e, dropWhile_append_of_all isRegexSpace _ _ hw, ht]
    simp [List.dropWhile_cons, hc]
  have htail : stringsContains (skipWs J ++ closingFence.dropLast) closingFence = false := by
    have h := stringsContains_closingFence_tail J hJ1 hJ2
    have e : J ++ closingFence.dropLast =
        J.takeWhile isJsonSpace ++ (skipWs J ++ closingFence.dropLast) := by
      conv_lhs => rw [hsplit]
      simp [List.append_assoc]
    rw [e] at h
    exact stringsContains_append_left closingFence _ _ h
  simp only [findJsonBlock, hfind, hdrop]
  exact takeUntil_append closingFence (skipWs J) post (by decide) htail

/-- C4 (amended): when the JSON text `J` decodes directly to a comment list, the
response that wraps it in a fenced block is not valid JSON, no opening fence occurs
in the prose before the block, and `J` holds no three consecutive backticks, then
the wrapped response decodes to the same list as `J` itself. -/
theorem parseGPT4Response_wrapped (pre J post : List Char) (comments : List CommentPayload)
    (hJ : jsonUnmarshal [] J = (none, comments))
    (hinvalid : jsonValid (pre ++ jsonFence ++ J ++ closingFence ++ post) = false)
    (hpre : stringsContains pre jsonFence = false)
    (hJ1 : stringsContains J closingFence = false) :
    parseGPT4Response J = Except.ok comments ∧
      parseGPT4Response (pre ++ jsonFence ++ J ++ closingFence ++ post) =
        Except.ok comments := by
  have hdirect : parseGPT4Response J = Except.ok comments := by
    rw [parseGPT4Response_direct J (by rw [hJ]), hJ]
  refine ⟨hdirect, ?_⟩
  cases hv : parseJson J with
  | none => simp [jsonUnmarshal, hv] at hJ
  | some v =>
    have hblock := findJsonBlock_wrapped pre J post v hv hpre hJ1
      (parseJson_last_ne_backtick J v hv)
    have hnone : parseJson (pre ++ jsonFence ++ J ++ closingFence ++ post) = none := by
      simpa [jsonValid] using hinvalid
    have hfirst : jsonUnmarshal [] (pre ++ jsonFence ++ J ++ closingFence ++ post) =
        (some JsonError.syntaxError, []) := by
      simp only [jsonUnmarshal, hnone]
    rw [parseGPT4Response_extracted _ (skipWs J) (by rw [hfirst]; simp) hblock, hfirst,
      jsonUnmarshal_skipWs, hJ]

/-- C4 (amended) at a block that holds one inline and one general comment. -/
theorem parseGPT4Response_wrapped_witness :
    jsonUnmarshal [] plainJson =
        (none, [{ Content := { Raw := "rename x".toList },
                  Inline := some { Path := "a.go".toList, To := 3, From := 0 } },
                { Content := { Raw := "ok".toList }, Inline := none }]) ∧
      parseGPT4Response ("Here:\n".toList ++ jsonFence ++ plainJson ++ closingFence ++
          "\nDone.".toList) =
        Except.ok [{ Content := { Raw := "rename x".toList },
                     Inline := some { Path := "a.go".toList, To := 3, From := 0 } },
                   { Content := { Raw := "ok".toList }, Inline := none }] :=
  ⟨by decide!,
    (parseGPT4Response_wrapped "Here:\n".toList plainJson "\nDone.".toList _
      (by decide!) (by decide!) (by decide!) (by decide!)).2⟩

/-- C4 (as stated) fails: a comment list whose text quotes a fenced snippet decodes
directly, but wrapped in a fenced block (the whole response being no valid JSON)
the block is cut at the first three backticks and decoding returns an error. -/
theorem parseGPT4Response_wrapped_snippet :
    parseGPT4Response snippetJson =
        Except.ok [{ Content := { Raw := "run ```make``` first".toList }, Inline := none }] ∧
      jsonValid ("Here:\n".toList ++ jsonFence ++ snippetJson ++ closingFence ++
          "\nDone.".toList) = false ∧
      parseGPT4Response ("Here:\n".toList ++ jsonFence ++ snippetJson ++ closingFence ++
          "\nDone.".toList) =
        Except.error (ParseError.failedToParseExtractedJSON JsonError.syntaxError) := by
  decide!

/-! ## Inline and general comments -/

theorem decodeCommentField_inline (cur : CommentPayload) (key : List Char) (v : JsonValue) :
    (decodeCommentField cur key v).1.Inline.isSome =
      if asciiLower key = "inline".toList then
        (match v with
         | JsonValue.null => false
         | _ => true)
      else cur.Inline.isSome := by
  unfold decodeCommentField
  by_cases h1 : asciiLower key = "content".toList
  · have h2 : ¬ asciiLower key = "inline".toList := by rw [h1]; decide
    rw [if_pos h1, if_neg h2]
  · by_cases h2 : asciiLower key = "inline".toList
    · rw [if_neg h1, if_pos h2, if_pos h2]
      cases v <;> simp [decodeInlinePtr]
    · rw [if_neg h1, if_neg h2, if_neg h2]

theorem decodeMembers_inline (members : List (List Char × JsonValue)) :
    ∀ cur : CommentPayload,
      (decodeMembers decodeCommentField cur members).1.Inline.isSome =
        match lastMember "inline".toList members with
        | none => cur.Inline.isSome
        | some JsonValue.null => false
        | some _ => true := by
  induction members with
  | nil => intro cur; rfl
  | cons m rest ih =>
    intro cur
    obtain ⟨key, v⟩ := m
    simp only [decodeMembers, lastMember]
    rw [ih]
    cases hl : lastMember "inline".toList rest with
    | some w => cases w <;> rfl
    | none =>
      have hfield := decodeCommentField_inline cur key v
      by_cases hk : asciiLower key = "inline".toList
      · rw [if_pos hk] at hfield
        simp only [if_pos hk, hfield]
        cases v <;> rfl
      · rw [if_neg hk] at hfield
        simp only [if_neg hk, hfield]

theorem decodeComment_inline (item : JsonValue) :
    (decodeComment zeroComment item).1.Inline.isSome = carriesInline item := by
  cases item with
  | object members =>
    simp only [decodeComment, carriesInline]
    rw [decodeMembers_inline]
    cases hl : lastMember "inline".toList members with
    | none => simp [zeroComment]
    | some w => cases w <;> simp
  | null => simp [decodeComment, carriesInline, zeroComment]
  | bool b => simp [decodeComment, carriesInline, zeroComment]
  | number l => simp [decodeComment, carriesInline, zeroComment]
  | string s => simp [decodeComment, carriesInline, zeroComment]
  | array a => simp [decodeComment, carriesInline, zeroComment]

theorem decodeElements_inline (items : List JsonValue) :
    List.Forall₂ (fun item c => c.Inline.isSome = carriesInline item) items
      (decodeElements [] items).1 := by
  induction items with
  | nil => exact List.Forall₂.nil
  | cons v rest ih =>
    simp only [decodeElements, List.headD_nil, List.tail_nil]
    exact List.Forall₂.cons (decodeComment_inline v) ih

/-- C6 (amended): when the whole response is a JSON array that decodes, or the
response is not valid JSON and its fenced block is a JSON array that decodes, the
comments returned match the elements of the array in order, and a comment is
inline exactly when its element is an object whose last member named `inline` (in
any case) is not null, whatever its path, which may be empty or missing; the
comment of the fallback tier is general. -/
theorem parseGPT4Response_inline (response : List Char) :
    (∀ items, parseJson response = some (JsonValue.array items) →
      (jsonUnmarshal [] response).1 = none →
      ∃ comments, parseGPT4Response response = Except.ok comments ∧
        List.Forall₂ (fun item c => c.Inline.isSome = carriesInline item) items comments) ∧
    (∀ jsonContent items, jsonValid response = false →
      findJsonBlock response = some jsonContent →
      parseJson jsonContent = some (JsonValue.array items) →
      (jsonUnmarshal [] jsonContent).1 = none →
      ∃ comments, parseGPT4Response response = Except.ok comments ∧
        List.Forall₂ (fun item c => c.Inline.isSome = carriesInline item) items comments) ∧
    ((jsonUnmarshal [] response).1 ≠ none → findJsonBlock response = none →
      ∃ c, parseGPT4Response response = Except.ok [c] ∧ c.Inline = none) := by
  refine ⟨?_, ?_, ?_⟩
  · intro items hparse hok
    refine ⟨(jsonUnmarshal [] response).2, parseGPT4Response_direct response hok, ?_⟩
    simp only [jsonUnmarshal, hparse, decodeComments]
    exact decodeElements_inline items
  · intro jsonContent items hinvalid hblock hparse hok
    have hnone : parseJson response = none := by simpa [jsonValid] using hinvalid
    have hfirst : jsonUnmarshal [] response = (some JsonError.syntaxError, []) := by
      simp only [jsonUnmarshal, hnone]
    refine ⟨(jsonUnmarshal [] jsonContent).2, ?_, ?_⟩
    · rw [parseGPT4Response_extracted response jsonContent (by rw [hfirst]; simp) hblock,
        hfirst, hok]
    · simp only [jsonUnmarshal, hparse, decodeComments]
      exact decodeElements_inline items
  · intro hfail hblock
    exact ⟨_, parseGPT4Response_fallback response hfail hblock, rfl⟩

/-- C6 (as stated) fails: an `inline` object without a path decodes to an inline
comment whose path is empty. -/
theorem parseGPT4Response_empty_path :
    parseGPT4Response emptyInlineResponse =
      Except.ok [{ Content := { Raw := "x".toList },
                   Inline := some { Path := [], To := 0, From := 0 } }] := by
  decide!

/-! ## Decimal rendering and its inverse -/

theorem digitChar_toNat (d : Nat) (h : d < 10) : (digitChar d).toNat = 48 + d := by
  interval_cases d <;> rfl

theorem digitChar_isDigit (d : Nat) (h : d < 10) : isDigit (digitChar d) = true := by
  interval_cases d <;> rfl

theorem digitChar_ne_zero (d : Nat) (h : d < 10) (h0 : 0 < d) : digitChar d ≠ '0' := by
  interval_cases d <;> decide

theorem digitChar_ne_minus (d : Nat) (h : d < 10) : digitChar d ≠ '-' := by
  interval_cases d <;> decide

theorem natDigits_acc (fuel : Nat) : ∀ (n : Nat) (acc : List Char),
    natDigits fuel n acc = natDigits fuel n [] ++ acc := by
  induction fuel with
  | zero => intro n acc; simp [natDigits]
  | succ f ih =>
    intro n acc
    by_cases h : n < 10
    · simp [natDigits, h]
    · simp only [natDigits, h, if_false]
      rw [ih (n / 10) (digitChar (n % 10) :: acc), ih (n / 10) [digitChar (n % 10)]]
      simp

theorem natDigits_isDigit (fuel : Nat) : ∀ (n : Nat), n < fuel →
    ∀ c ∈ natDigits fuel n [], isDigit c = true := by
  induction fuel with
  | zero => intro n h; omega
  | succ f ih =>
    intro n hn c hc
    by_cases h : n < 10
    · simp only [natDigits, h, if_true, List.mem_singleton] at hc
      rw [hc]; exact digitChar_isDigit n h
    · simp only [natDigits, h, if_false] at hc
      rw [natDigits_acc] at hc
      rcases List.mem_append.1 hc with h1 | h1
      · exact ih (n / 10) (by omega) c h1
      · rw [List.mem_singleton] at h1
        rw [h1]; exact digitChar_isDigit _ (Nat.mod_lt _ (by decide))

/-- The rendering of a positive number begins with a non-zero digit. -/
theorem natDigits_head (fuel : Nat) : ∀ (n : Nat), n < fuel → 0 < n →
    ∃ d r, natDigits fuel n [] = digitChar d :: r ∧ d < 10 ∧ 0 < d := by
  induction fuel with
  | zero => intro n h; omega
  | succ f ih =>
    intro n hn h0
    by_cases h : n < 10
    · exact ⟨n, [], by simp [natDigits, h], h, h0⟩
    · obtain ⟨d, r, hr, hd, hd0⟩ := ih (n / 10) (by omega) (by omega)
      refine ⟨d, r ++ [digitChar (n % 10)], ?_, hd, hd0⟩
      simp only [natDigits, h, if_false]
      rw [natDigits_acc, hr]
      rfl

theorem digitsValue_append (l1 l2 : List Char) : ∀ acc : Nat,
    digitsValue acc (l1 ++ l2) = (digitsValue acc l1).bind fun x => digitsValue x l2 := by
  induction l1 with
  | nil => intro acc; rfl
  | cons c t ih =>
    intro acc
    by_cases hc : isDigit c = true
    · simp only [List.cons_append, digitsValue, hc, if_true]
      exact ih _
    · simp [digitsValue, hc]

theorem digitsValue_natDigits (fuel : Nat) : ∀ (n : Nat), n < fuel →
    digitsValue 0 (natDigits fuel n []) = some n := by
  induction fuel with
  | zero => intro n h; omega
  | succ f ih =>
    intro n hn
    by_cases h : n < 10
    · simp [natDigits, h, digitsValue, digitChar_isDigit n h, digitChar_toNat n h]
    · simp only [natDigits, h, if_false]
      rw [natDigits_acc, digitsValue_append, ih (n / 10) (by omega)]
      have hm : n % 10 < 10 := Nat.mod_lt _ (by decide)
      simp only [Option.some_bind, digitsValue, digitChar_isDigit _ hm, if_true,
        digitChar_toNat _ hm]
      congr 1
      omega

theorem formatNat_isDigit (n : Nat) : ∀ c ∈ formatNat n, isDigit c = true :=
  natDigits_isDigit (n + 1) n (Nat.lt_succ_self n)

theorem digitsValue_formatNat (n : Nat) : digitsValue 0 (formatNat n) = some n :=
  digitsValue_natDigits (n + 1) n (Nat.lt_succ_self n)

theorem formatNat_zero : formatNat 0 = ['0'] := by decide

theorem formatNat_head (n : Nat) (h0 : 0 < n) :
    ∃ d r, formatNat n = digitChar d :: r ∧ d < 10 ∧ 0 < d :=
  natDigits_head (n + 1) n (Nat.lt_succ_self n) h0

/-- `strconv.ParseInt` reads back what `%d` writes, within 64 bits. -/
theorem parseIntLiteral_formatInt (n : Int) (hlo : -(2 : Int) ^ 63 ≤ n) (hhi : n < (2 : Int) ^ 63) :
    parseIntLiteral (formatInt n) = some n := by
  cases n with
  | ofNat m =>
    have hm : m < 2 ^ 63 := by
      have : (m : Int) < (2 : Int) ^ 63 := hhi
      exact_mod_cast this
    rcases Nat.eq_zero_or_pos m with h0 | h0
    · subst h0; decide
    · obtain ⟨d, r, hr, hd, _⟩ := formatNat_head m h0
      have hv := digitsValue_formatNat m
      simp only [formatInt]
      rw [hr] at hv ⊢
      simp only [parseIntLiteral, digitChar_ne_minus d hd, if_false, hv, hm, if_true]
      rfl
  | negSucc m =>
    have hm : m + 1 ≤ 2 ^ 63 := by
      have h1 : -(2 : Int) ^ 63 ≤ Int.negSucc m := hlo
      have h2 : Int.negSucc m = -((m : Int) + 1) := Int.negSucc_eq m
      rw [h2] at h1
      have h3 : ((m : Int) + 1) ≤ (2 : Int) ^ 63 := by linarith
      exact_mod_cast h3
    obtain ⟨d, r, hr, hd, _⟩ := formatNat_head (m + 1) (Nat.succ_pos m)
    have hv := digitsValue_formatNat (m + 1)
    simp only [formatInt]
    rw [hr] at hv ⊢
    simp only [parseIntLiteral, if_true, hv, hm]
    rw [Int.negSucc_eq]
    push_cast
    ring_nf

/-! ## Strings: `json.Marshal` then the scanner -/

theorem hexValue_hexChar (d : Nat) (h : d < 16) : hexValue (hexChar d) = some d := by
  interval_cases d <;> rfl

theorem unescapeUnit_low (code : Nat) (next : Option Nat) (h : code < 0xD800) :
    unescapeUnit code next = (Char.ofNat code, false) := by
  have h' : ¬ (0xD800 ≤ code ∧ code < 0xE000) := by omega
  simp only [unescapeUnit, h', if_false]

theorem char_ofNat_toNat (c : Char) : Char.ofNat c.toNat = c := by
  simp [Char.ofNat_toNat]

/-- One character written by `json.Marshal` is read back by one step of the scan. -/
theorem parseStringBody_escapeChar (c : Char) (tail : List Char) (fuel : Nat) :
    parseStringBody (fuel + 1) (escapeChar c ++ tail) =
      (parseStringBody fuel tail).map fun r => (c :: r.1, r.2) := by
  unfold escapeChar
  split
  · next h => subst h; simp [parseStringBody, unescape]
  split
  · next h => subst h; simp [parseStringBody, unescape]
  split
  · next h => subst h; simp [parseStringBody, unescape]
  split
  · next h => subst h; simp [parseStringBody, unescape]
  split
  · next h => subst h; simp [parseStringBody, unescape]
  split
  · next h => subst h; simp [parseStringBody, unescape]
  split
  · next h => subst h; simp [parseStringBody, unescape]
  split
  · next h1 h2 h3 h4 h5 h6 h7 h =>
    have hsmall : c.toNat < 64 := by
      rcases h with h | h | h | h
      · omega
      · subst h; decide
      · subst h; decide
      · subst h; decide
    have hq : c.toNat / 16 < 16 := by omega
    have hr : c.toNat % 16 < 16 := Nat.mod_lt _ (by decide)
    have hcode : ((0 * 16 + 0) * 16 + c.toNat / 16) * 16 + c.toNat % 16 = c.toNat := by omega
    have h0 : hexValue '0' = some 0 := by rfl
    have hhex : hex4 '0' '0' (hexChar (c.toNat / 16)) (hexChar (c.toNat % 16)) =
        some c.toNat := by
      simp only [hex4, h0, hexValue_hexChar _ hq, hexValue_hexChar _ hr, hcode]
    have hunit : ∀ next, unescapeUnit c.toNat next = (c, false) := by
      intro next
      rw [unescapeUnit_low c.toNat next (by omega), char_ofNat_toNat]
    simp [parseStringBody, unescape, hhex, hunit]
  split
  · next h =>
    subst h
    have hhex : hex4 '2' '0' '2' '8' = some 0x2028 := by rfl
    have hunit : ∀ next, unescapeUnit 0x2028 next = (Char.ofNat 0x2028, false) :=
      fun next => unescapeUnit_low _ next (by decide)
    simp [parseStringBody, unescape, hhex, hunit]
  split
  · next h =>
    subst h
    have hhex : hex4 '2' '0' '2' '9' = some 0x2029 := by rfl
    have hunit : ∀ next, unescapeUnit 0x2029 next = (Char.ofNat 0x2029, false) :=
      fun next => unescapeUnit_low _ next (by decide)
    simp [parseStringBody, unescape, hhex, hunit]
  · next h1 h2 h3 h4 h5 h6 h7 h8 h9 h10 =>
    have hge : ¬ c.toNat < 0x20 := fun hlt => h8 (Or.inl hlt)
    simp [parseStringBody, h1, h2, hge]

theorem escapeChar_length_pos (c : Char) : 0 < (escapeChar c).length := by
  unfold escapeChar
  repeat' split
  all_goals simp

/-- The body of a string written by `json.Marshal` is read back by the scan. -/
theorem parseStringBody_escaped (s : List Char) : ∀ (fuel : Nat) (rest : List Char),
    (s.map escapeChar).flatten.length < fuel →
    parseStringBody fuel ((s.map escapeChar).flatten ++ '"' :: rest) = some (s, rest) := by
  induction s with
  | nil =>
    intro fuel rest hf
    cases fuel with
    | zero => simp at hf
    | succ f => simp [parseStringBody]
  | cons c t ih =>
    intro fuel rest hf
    cases fuel with
    | zero => simp at hf
    | succ f =>
      have hpos := escapeChar_length_pos c
      have hf' : (t.map escapeChar).flatten.length < f := by
        simp only [List.map_cons, List.flatten_cons, List.length_append] at hf
        omega
      have e : ((c :: t).map escapeChar).flatten ++ '"' :: rest =
          escapeChar c ++ ((t.map escapeChar).flatten ++ '"' :: rest) := by
        simp [List.append_assoc]
      rw [e, parseStringBody_escapeChar, ih f rest hf']
      rfl

/-! ## Numbers, objects and arrays: `json.Marshal` then the parser -/

theorem followsValue_cases (rest : List Char) (h : followsValue rest = true) :
    rest = [] ∨ ∃ c r, rest = c :: r ∧ (c = ',' ∨ c = '}' ∨ c = ']') := by
  cases rest with
  | nil => exact Or.inl rfl
  | cons c r =>
    refine Or.inr ⟨c, r, rfl, ?_⟩
    have h' : (c = ',' ∨ c = '}') ∨ c = ']' := by simpa [followsValue] using h
    tauto

theorem scan_after_number (rest : List Char) (h : followsValue rest = true) :
    scanFraction rest = some ([], rest) ∧ scanExponent rest = some ([], rest) ∧
      rest.takeWhile isDigit = [] ∧ rest.dropWhile isDigit = rest := by
  rcases followsValue_cases rest h with h0 | ⟨c, r, hr, hc⟩
  · subst h0; simp [scanFraction, scanExponent]
  · subst hr
    rcases hc with hc | hc | hc <;> subst hc <;>
      simp [scanFraction, scanExponent, List.takeWhile_cons, List.dropWhile_cons, isDigit]

theorem takeWhile_digits_append (ds rest : List Char) (hds : ∀ c ∈ ds, isDigit c = true)
    (h : followsValue rest = true) :
    (ds ++ rest).takeWhile isDigit = ds ∧ (ds ++ rest).dropWhile isDigit = rest := by
  induction ds with
  | nil => simpa using (scan_after_number rest h).2.2
  | cons d t ih =>
    have hd : isDigit d = true := hds d (by simp)
    have ht := ih (fun c hc => hds c (by simp [hc]))
    simp [List.takeWhile_cons, List.dropWhile_cons, hd, ht.1, ht.2]

theorem scanIntPart_formatNat (n : Nat) (rest : List Char) (h : followsValue rest = true) :
    scanIntPart (formatNat n ++ rest) = some (formatNat n, rest) := by
  rcases Nat.eq_zero_or_pos n with h0 | h0
  · subst h0; simp [formatNat_zero, scanIntPart]
  · obtain ⟨d, r, hr, hd, hd0⟩ := formatNat_head n h0
    have hall := formatNat_isDigit n
    rw [hr] at hall ⊢
    have hr' := takeWhile_digits_append r rest (fun c hc => hall c (by simp [hc])) h
    simp [scanIntPart, digitChar_ne_zero d hd hd0, digitChar_isDigit d hd, hr'.1, hr'.2]

theorem parseNumber_formatInt (n : Int) (rest : List Char) (h : followsValue rest = true) :
    parseNumber (formatInt n ++ rest) = some (formatInt n, rest) := by
  have hs := scan_after_number rest h
  cases n with
  | ofNat m =>
    have hint := scanIntPart_formatNat m rest h
    have hsigned : (match formatNat m ++ rest with
        | c :: r => if c = '-' then ([c], r) else ([], formatNat m ++ rest)
        | [] => ([], formatNat m ++ rest)) = (([] : List Char), formatNat m ++ rest) := by
      rcases Nat.eq_zero_or_pos m with h0 | h0
      · subst h0; simp [formatNat_zero]
      · obtain ⟨d, r, hr, hd, _⟩ := formatNat_head m h0
        rw [hr]
        simp [digitChar_ne_minus d hd]
    simp only [formatInt, parseNumber, hsigned, hint, hs.1, hs.2.1]
    simp
  | negSucc m =>
    have hint := scanIntPart_formatNat (m + 1) rest h
    simp only [formatInt, parseNumber, List.cons_append, if_true, hint, hs.1, hs.2.1]
    simp

theorem formatInt_head (n : Int) :
    ∃ c r, formatInt n = c :: r ∧ isJsonSpace c = false ∧ c ≠ '"' ∧ c ≠ '[' ∧ c ≠ '{' ∧
      c ≠ 't' ∧ c ≠ 'f' ∧ c ≠ 'n' := by
  have hdigit : ∀ d, d < 10 → isJsonSpace (digitChar d) = false ∧ digitChar d ≠ '"' ∧
      digitChar d ≠ '[' ∧ digitChar d ≠ '{' ∧ digitChar d ≠ 't' ∧ digitChar d ≠ 'f' ∧
      digitChar d ≠ 'n' := by
    intro d hd
    interval_cases d <;> decide
  cases n with
  | ofNat m =>
    rcases Nat.eq_zero_or_pos m with h0 | h0
    · subst h0; exact ⟨'0', [], by decide, by decide⟩
    · obtain ⟨d, r, hr, hd, _⟩ := formatNat_head m h0
      exact ⟨digitChar d, r, by simp [formatInt, hr], hdigit d hd⟩
  | negSucc m => exact ⟨'-', formatNat (m + 1), rfl, by decide⟩

theorem renders_int (n : Int) : Renders (formatInt n) (JsonValue.number (formatInt n)) := by
  obtain ⟨c, r, hcr, hws, h1, h2, h3, h4, h5, h6⟩ := formatInt_head n
  refine ⟨⟨c, r, hcr, hws⟩, ?_⟩
  intro fuel rest hf hrest
  cases fuel with
  | zero => simp at hf
  | succ f =>
    have hnum := parseNumber_formatInt n rest hrest
    rw [hcr] at hnum ⊢
    have ht : ("true".toList.isPrefixOf (c :: (r ++ rest))) = false := by
      simp [List.isPrefixOf, Ne.symm h4]
    have hfl : ("false".toList.isPrefixOf (c :: (r ++ rest))) = false := by
      simp [List.isPrefixOf, Ne.symm h5]
    have hn : ("null".toList.isPrefixOf (c :: (r ++ rest))) = false := by
      simp [List.isPrefixOf, Ne.symm h6]
    rw [List.cons_append] at hnum ⊢
    simp only [parseValue, h1, h2, h3, if_false, ht, hfl, hn, hnum]
    simp

theorem renders_string (s : List Char) : Renders (encodeString s) (JsonValue.string s) := by
  refine ⟨⟨'"', _, rfl, by decide⟩, ?_⟩
  intro fuel rest hf _
  cases fuel with
  | zero => simp at hf
  | succ f =>
    have hlen : (s.map escapeChar).flatten.length < f := by
      simp only [encodeString, List.cons_append, List.length_cons, List.length_append] at hf
      omega
    have hbody := parseStringBody_escaped s f rest hlen
    have e : encodeString s ++ rest = '"' :: ((s.map escapeChar).flatten ++ '"' :: rest) := by
      simp [encodeString, List.append_assoc]
    rw [e]
    simp only [parseValue, if_true, hbody]
    rfl

theorem stringsJoin_cons (sep a : List Char) (l : List (List Char)) :
    stringsJoin (a :: l) sep = a ++ (l.map fun x => sep ++ x).flatten := by
  induction l generalizing a with
  | nil => simp [stringsJoin]
  | cons b rest ih =>
    rw [stringsJoin, ih b]
    simp [List.append_assoc]

theorem skipWs_of_head (c : Char) (r : List Char) (h : isJsonSpace c = false) :
    skipWs (c :: r) = c :: r := by
  simp [skipWs, List.dropWhile_cons, h]

theorem skipWs_renders (t : List Char) (v : JsonValue) (X : List Char) (h : Renders t v) :
    skipWs (t ++ X) = t ++ X := by
  obtain ⟨⟨c, r, hcr, hc⟩, _⟩ := h
  rw [hcr, List.cons_append]
  exact skipWs_of_head c _ hc

/-- One member of an object, read from just after the opening quote of its key. -/
theorem parseMembers_step (k t : List Char) (v : JsonValue) (hR : Renders t v)
    (X : List Char) (f : Nat) (hX : followsValue X = true)
    (hlen : ((k.map escapeChar).flatten ++ '"' :: ':' :: (t ++ X)).length < f + 1) :
    parseMembers (f + 1) ((k.map escapeChar).flatten ++ '"' :: ':' :: (t ++ X)) =
      match X with
      | [] => none
      | d :: rest3 =>
        if d = '}' then some ([(k, v)], rest3)
        else if d = ',' then
          match skipWs rest3 with
          | [] => none
          | q :: rest4 =>
            if q = '"' then (parseMembers f rest4).map fun r => ((k, v) :: r.1, r.2)
            else none
        else none := by
  simp only [List.length_append, List.length_cons] at hlen
  have hkey := parseStringBody_escaped k f (':' :: (t ++ X)) (by omega)
  have hcolon : skipWs (':' :: (t ++ X)) = ':' :: (t ++ X) := skipWs_of_head _ _ (by decide)
  have hval : parseValue f (skipWs (t ++ X)) = some (v, X) := by
    rw [skipWs_renders t v X hR]
    exact hR.2 f X (by simp only [List.length_append]; omega) hX
  rcases followsValue_cases X hX with h0 | ⟨d, r, hr, hd⟩
  · subst h0
    simp only [parseMembers, hkey, hcolon, if_true, hval]
    rfl
  · subst hr
    have hskip : skipWs (d :: r) = d :: r := by
      rcases hd with hd | hd | hd <;> subst hd <;> exact skipWs_of_head _ _ (by decide)
    simp only [parseMembers, hkey, hcolon, if_true, hval, hskip]

/-- The members of an object written by `json.Marshal`, read from just after the
opening quote of the first key. -/
theorem parseMembers_rendered (ms : List (List Char × List Char × JsonValue)) :
    (∀ m ∈ ms, Renders m.2.1 m.2.2) →
    ∀ (k t : List Char) (v : JsonValue), Renders t v →
    ∀ (fuel : Nat) (rest : List Char),
      ((k.map escapeChar).flatten ++ '"' :: ':' :: (t ++
        ((ms.map fun m => [','] ++ (encodeString m.1 ++ ':' :: m.2.1)).flatten ++
          '}' :: rest))).length < fuel →
      parseMembers fuel
        ((k.map escapeChar).flatten ++ '"' :: ':' :: (t ++
          ((ms.map fun m => [','] ++ (encodeString m.1 ++ ':' :: m.2.1)).flatten ++
            '}' :: rest))) =
        some ((k, v) :: ms.map (fun m => (m.1, m.2.2)), rest) := by
  induction ms with
  | nil =>
    intro _ k t v hR fuel rest hlen
    cases fuel with
    | zero => simp at hlen
    | succ f =>
      simp only [List.map_nil, List.flatten_nil, List.nil_append] at hlen ⊢
      rw [parseMembers_step k t v hR ('}' :: rest) f rfl hlen]
      simp
  | cons m ms ih =>
    intro hall k t v hR fuel rest hlen
    cases fuel with
    | zero => simp at hlen
    | succ f =>
      have hm : Renders m.2.1 m.2.2 := hall m (by simp)
      have hms : ∀ m' ∈ ms, Renders m'.2.1 m'.2.2 := fun m' h' => hall m' (by simp [h'])
      have e : ((m :: ms).map fun m => [','] ++ (encodeString m.1 ++ ':' :: m.2.1)).flatten ++
          '}' :: rest =
          ',' :: '"' :: ((m.1.map escapeChar).flatten ++ '"' :: ':' :: (m.2.1 ++
            ((ms.map fun m => [','] ++ (encodeString m.1 ++ ':' :: m.2.1)).flatten ++
              '}' :: rest))) := by
        simp [encodeString, List.append_assoc]
      rw [e] at hlen ⊢
      rw [parseMembers_step k t v hR _ f ((fun z => rfl : ∀ z, followsValue (',' :: z) = true) _) hlen]
      have hq : skipWs ('"' :: ((m.1.map escapeChar).flatten ++ '"' :: ':' :: (m.2.1 ++
            ((ms.map fun m => [','] ++ (encodeString m.1 ++ ':' :: m.2.1)).flatten ++
              '}' :: rest)))) = '"' :: ((m.1.map escapeChar).flatten ++ '"' :: ':' :: (m.2.1 ++
            ((ms.map fun m => [','] ++ (encodeString m.1 ++ ':' :: m.2.1)).flatten ++
              '}' :: rest))) := skipWs_of_head _ _ (by decide)
      have hrec := ih hms m.1 m.2.1 m.2.2 hm f rest (by
        simp only [List.length_append, List.length_cons] at hlen ⊢
        omega)
      simp only [hq, hrec]
      simp

/-- An object written by `json.Marshal` spells the object of its members. -/
theorem renders_object (m : List Char × List Char × JsonValue)
    (ms : List (List Char × List Char × JsonValue))
    (hall : ∀ m' ∈ m :: ms, Renders m'.2.1 m'.2.2) :
    Renders (encodeObject ((m :: ms).map fun m => (m.1, m.2.1)))
      (JsonValue.object ((m :: ms).map fun m => (m.1, m.2.2))) := by
  refine ⟨⟨'{', _, rfl, by decide⟩, ?_⟩
  intro fuel rest hlen _
  have hm : Renders m.2.1 m.2.2 := hall m (by simp)
  have hms : ∀ m' ∈ ms, Renders m'.2.1 m'.2.2 := fun m' h' => hall m' (by simp [h'])
  have e : encodeObject ((m :: ms).map fun m => (m.1, m.2.1)) ++ rest =
      '{' :: '"' :: ((m.1.map escapeChar).flatten ++ '"' :: ':' :: (m.2.1 ++
        ((ms.map fun m => [','] ++ (encodeString m.1 ++ ':' :: m.2.1)).flatten ++
          '}' :: rest))) := by
    simp [encodeObject, stringsJoin_cons, encodeString, List.append_assoc, Function.comp_def]
  rw [e] at hlen ⊢
  cases fuel with
  | zero => simp at hlen
  | succ f =>
    have hq : skipWs ('"' :: ((m.1.map escapeChar).flatten ++ '"' :: ':' :: (m.2.1 ++
          ((ms.map fun m => [','] ++ (encodeString m.1 ++ ':' :: m.2.1)).flatten ++
            '}' :: rest)))) = '"' :: ((m.1.map escapeChar).flatten ++ '"' :: ':' :: (m.2.1 ++
          ((ms.map fun m => [','] ++ (encodeString m.1 ++ ':' :: m.2.1)).flatten ++
            '}' :: rest))) := skipWs_of_head _ _ (by decide)
    have hrec := parseMembers_rendered ms hms m.1 m.2.1 m.2.2 hm f rest (by
      simp only [List.length_append, List.length_cons] at hlen ⊢
      omega)
    simp only [parseValue, hq, hrec]
    simp

/-- The elements of an array written by `json.Marshal` after the first one. -/
theorem parseElements_rendered (items : List (List Char × JsonValue)) :
    (∀ i ∈ items, Renders i.1 i.2) →
    ∀ (fuel : Nat) (rest : List Char),
      ((items.map fun i => [','] ++ i.1).flatten ++ ']' :: rest).length < fuel →
      parseElements fuel ((items.map fun i => [','] ++ i.1).flatten ++ ']' :: rest) =
        some (items.map (fun i => i.2), rest) := by
  induction items with
  | nil =>
    intro _ fuel rest hlen
    cases fuel with
    | zero => simp at hlen
    | succ f =>
      have hs : skipWs (']' :: rest) = ']' :: rest := skipWs_of_head _ _ (by decide)
      simp only [List.map_nil, List.flatten_nil, List.nil_append, parseElements, hs, if_true]
  | cons i is ih =>
    intro hall fuel rest hlen
    cases fuel with
    | zero => simp at hlen
    | succ f =>
      have hi : Renders i.1 i.2 := hall i (by simp)
      have his : ∀ j ∈ is, Renders j.1 j.2 := fun j hj => hall j (by simp [hj])
      have e : ((i :: is).map fun i => [','] ++ i.1).flatten ++ ']' :: rest =
          ',' :: (i.1 ++ ((is.map fun i => [','] ++ i.1).flatten ++ ']' :: rest)) := by
        simp [List.append_assoc]
      rw [e] at hlen ⊢
      have hs : ∀ z, skipWs (',' :: z) = ',' :: z := fun z => skipWs_of_head _ _ (by decide)
      have hfollow : followsValue ((is.map fun i => [','] ++ i.1).flatten ++ ']' :: rest) = true := by
        cases is with
        | nil => rfl
        | cons j js => rfl
      have hlen' : (i.1 ++ ((is.map fun i => [','] ++ i.1).flatten ++ ']' :: rest)).length < f := by
        simp only [List.length_cons] at hlen
        omega
      have hval : parseValue f (skipWs (i.1 ++ ((is.map fun i => [','] ++ i.1).flatten ++
          ']' :: rest))) = some (i.2, (is.map fun i => [','] ++ i.1).flatten ++ ']' :: rest) := by
        rw [skipWs_renders i.1 i.2 _ hi]
        exact hi.2 f _ hlen' hfollow
      have hrec := ih his f rest (by
        simp only [List.length_append] at hlen' ⊢
        omega)
      simp only [parseElements, hs, hval, hrec]
      simp

theorem parseValue_closing_bracket (fuel : Nat) (x : List Char) :
    parseValue fuel (']' :: x) = none := by
  cases fuel with
  | zero => simp [parseValue]
  | succ f => simp [parseValue, parseNumber, scanIntPart, isDigit]

theorem renders_head_ne_bracket (t : List Char) (v : JsonValue) (h : Renders t v) :
    ∃ c r, t = c :: r ∧ isJsonSpace c = false ∧ c ≠ ']' := by
  obtain ⟨⟨c, r, hcr, hc⟩, hparse⟩ := h
  refine ⟨c, r, hcr, hc, ?_⟩
  intro hbad
  subst hbad
  have h1 := hparse (t ++ []).length.succ [] (Nat.lt_succ_self _) rfl
  rw [hcr, List.cons_append, parseValue_closing_bracket] at h1
  cases h1

theorem parseValue_array_step (f : Nat) (x : List Char) (d : Char) (rest1 : List Char)
    (hskip : skipWs x = d :: rest1) (hd : d ≠ ']') :
    parseValue (f + 1) ('[' :: x) =
      match parseValue f (d :: rest1) with
      | none => none
      | some (v, rest2) =>
        (parseElements f rest2).map fun r => (JsonValue.array (v :: r.1), r.2) := by
  rw [parseValue]
  have h1 : ¬ (('[' : Char) = '"') := by decide
  simp only [h1, if_false, if_true, hskip, hd]

/-- A non-empty array written by `json.Marshal` spells the array of its items. -/
theorem parseJson_array (i : List Char × JsonValue) (is : List (List Char × JsonValue))
    (hall : ∀ j ∈ i :: is, Renders j.1 j.2) :
    parseJson ('[' :: (stringsJoin ((i :: is).map fun j => j.1) [','] ++ [']'])) =
      some (JsonValue.array ((i :: is).map fun j => j.2)) := by
  have hi : Renders i.1 i.2 := hall i (by simp)
  have his : ∀ j ∈ is, Renders j.1 j.2 := fun j hj => hall j (by simp [hj])
  have e : '[' :: (stringsJoin ((i :: is).map fun j => j.1) [','] ++ [']']) =
      '[' :: (i.1 ++ ((is.map fun i => [','] ++ i.1).flatten ++ [']'])) := by
    simp [stringsJoin_cons, List.append_assoc, Function.comp_def]
  rw [e]
  have hs : skipWs ('[' :: (i.1 ++ ((is.map fun i => [','] ++ i.1).flatten ++ [']']))) =
      '[' :: (i.1 ++ ((is.map fun i => [','] ++ i.1).flatten ++ [']'])) :=
    skipWs_of_head _ _ (by decide)
  obtain ⟨c, r, hcr, hc, hne⟩ := renders_head_ne_bracket i.1 i.2 hi
  have hfollow : followsValue ((is.map fun i => [','] ++ i.1).flatten ++ [']']) = true := by
    cases is with
    | nil => rfl
    | cons j js => rfl
  have hval := hi.2
    (i.1 ++ ((is.map fun i => [','] ++ i.1).flatten ++ [']'])).length.succ
    ((is.map fun i => [','] ++ i.1).flatten ++ [']']) (Nat.lt_succ_self _) hfollow
  have hrec := parseElements_rendered is his
    (i.1 ++ ((is.map fun i => [','] ++ i.1).flatten ++ [']'])).length.succ [] (by
      simp only [List.length_append]
      omega)
  have hinner : skipWs (i.1 ++ ((is.map fun i => [','] ++ i.1).flatten ++ [']'])) =
      c :: (r ++ ((is.map fun i => [','] ++ i.1).flatten ++ [']'])) := by
    rw [hcr, List.cons_append]
    exact skipWs_of_head c _ hc
  have hcons : c :: (r ++ ((is.map fun i => [','] ++ i.1).flatten ++ [']'])) =
      i.1 ++ ((is.map fun i => [','] ++ i.1).flatten ++ [']']) := by
    rw [hcr, List.cons_append]
  have hbig : parseValue
      (('[' :: (i.1 ++ ((is.map fun i => [','] ++ i.1).flatten ++ [']']))).length + 1)
      ('[' :: (i.1 ++ ((is.map fun i => [','] ++ i.1).flatten ++ [']']))) =
      some (JsonValue.array (i.2 :: is.map fun j => j.2), []) := by
    have hl : ('[' :: (i.1 ++ ((is.map fun i => [','] ++ i.1).flatten ++ [']']))).length =
        (i.1 ++ ((is.map fun i => [','] ++ i.1).flatten ++ [']'])).length.succ := rfl
    rw [hl, parseValue_array_step _ _ c _ hinner hne, hcons, hval]
    simp only [hrec]
    simp
  simp only [parseJson, hs, hbig]
  simp [skipWs]

/-! ## Round trip of a comment list -/

theorem renders_content (c : Content) :
    Renders (encodeContent c) (JsonValue.object [("raw".toList, JsonValue.string c.Raw)]) :=
  renders_object ("raw".toList, encodeString c.Raw, JsonValue.string c.Raw) []
    (fun m hm => by
      simp only [List.mem_singleton] at hm
      subst hm
      exact renders_string c.Raw)

theorem renders_inline (i : Inline) : Renders (encodeInline i) (inlineValue i) := by
  have h := renders_object ("path".toList, encodeString i.Path, JsonValue.string i.Path)
    ((if i.To = 0 then [] else
        [("to".toList, formatInt i.To, JsonValue.number (formatInt i.To))]) ++
      (if i.From = 0 then [] else
        [("from".toList, formatInt i.From, JsonValue.number (formatInt i.From))]))
    (by
      intro m hm
      simp only [List.mem_cons, List.mem_append] at hm
      rcases hm with hm | hm | hm
      · subst hm; exact renders_string i.Path
      · split at hm
        · simp at hm
        · simp only [List.mem_singleton] at hm
          subst hm; exact renders_int i.To
      · split at hm
        · simp at hm
        · simp only [List.mem_singleton] at hm
          subst hm; exact renders_int i.From)
  have e1 : encodeInline i = encodeObject
      ((("path".toList, encodeString i.Path, JsonValue.string i.Path) ::
        ((if i.To = 0 then [] else
            [("to".toList, formatInt i.To, JsonValue.number (formatInt i.To))]) ++
          (if i.From = 0 then [] else
            [("from".toList, formatInt i.From, JsonValue.number (formatInt i.From))]))).map
        fun m => (m.1, m.2.1)) := by
    unfold encodeInline
    by_cases h1 : i.To = 0 <;> by_cases h2 : i.From = 0 <;> simp [h1, h2]
  have e2 : inlineValue i = JsonValue.object
      ((("path".toList, encodeString i.Path, JsonValue.string i.Path) ::
        ((if i.To = 0 then [] else
            [("to".toList, formatInt i.To, JsonValue.number (formatInt i.To))]) ++
          (if i.From = 0 then [] else
            [("from".toList, formatInt i.From, JsonValue.number (formatInt i.From))]))).map
        fun m => (m.1, m.2.2)) := by
    unfold inlineValue
    by_cases h1 : i.To = 0 <;> by_cases h2 : i.From = 0 <;> simp [h1, h2]
  rw [e1, e2]
  exact h

theorem renders_comment (c : CommentPayload) : Renders (encodeComment c) (commentValue c) := by
  cases hi : c.Inline with
  | none =>
    have h := renders_object ("content".toList, encodeContent c.Content,
      JsonValue.object [("raw".toList, JsonValue.string c.Content.Raw)]) []
      (fun m hm => by
        simp only [List.mem_singleton] at hm
        subst hm
        exact renders_content c.Content)
    simpa [encodeComment, commentValue, hi] using h
  | some i =>
    have h := renders_object ("content".toList, encodeContent c.Content,
      JsonValue.object [("raw".toList, JsonValue.string c.Content.Raw)])
      [("inline".toList, encodeInline i, inlineValue i)]
      (fun m hm => by
        simp only [List.mem_cons, List.mem_singleton, List.not_mem_nil, or_false] at hm
        rcases hm with hm | hm
        · subst hm; exact renders_content c.Content
        · subst hm; exact renders_inline i)
    simpa [encodeComment, commentValue, hi] using h

/-- The text written by `json.Marshal` for a comment list parses to the array of
the values of its comments. -/
theorem parseJson_jsonMarshal (comments : List CommentPayload) :
    parseJson (jsonMarshal comments) = some (JsonValue.array (comments.map commentValue)) := by
  cases comments with
  | nil => rfl
  | cons c cs =>
    have h := parseJson_array (encodeComment c, commentValue c)
      (cs.map fun c => (encodeComment c, commentValue c))
      (by
        intro j hj
        simp only [List.mem_cons, List.mem_map] at hj
        rcases hj with hj | ⟨c', _, hj⟩
        · subst hj; exact renders_comment c
        · subst hj; exact renders_comment c')
    simpa [jsonMarshal, Function.comp_def] using h

theorem decodeInlineField_path (cur : Inline) (v : JsonValue) :
    decodeInlineField cur "path".toList v =
      ({ cur with Path := (decodeString cur.Path v).1 }, (decodeString cur.Path v).2) := by
  unfold decodeInlineField
  rw [if_pos (by decide)]

theorem decodeInlineField_to (cur : Inline) (v : JsonValue) :
    decodeInlineField cur "to".toList v =
      ({ cur with To := (decodeInt cur.To v).1 }, (decodeInt cur.To v).2) := by
  unfold decodeInlineField
  rw [if_neg (by decide), if_pos (by decide)]

theorem decodeInlineField_from (cur : Inline) (v : JsonValue) :
    decodeInlineField cur "from".toList v =
      ({ cur with From := (decodeInt cur.From v).1 }, (decodeInt cur.From v).2) := by
  unfold decodeInlineField
  rw [if_neg (by decide), if_neg (by decide), if_pos (by decide)]

theorem decodeContentField_raw (cur : Content) (v : JsonValue) :
    decodeContentField cur "raw".toList v =
      ({ Raw := (decodeString cur.Raw v).1 }, (decodeString cur.Raw v).2) := by
  unfold decodeContentField
  rw [if_pos (by decide)]

theorem decodeCommentField_content (cur : CommentPayload) (v : JsonValue) :
    decodeCommentField cur "content".toList v =
      ({ cur with Content := (decodeContent cur.Content v).1 },
        (decodeContent cur.Content v).2) := by
  unfold decodeCommentField
  rw [if_pos (by decide)]

theorem decodeCommentField_inline_key (cur : CommentPayload) (v : JsonValue) :
    decodeCommentField cur "inline".toList v =
      ({ cur with Inline := (decodeInlinePtr cur.Inline v).1 },
        (decodeInlinePtr cur.Inline v).2) := by
  unfold decodeCommentField
  rw [if_neg (by decide), if_pos (by decide)]

theorem decodeInt_formatInt (cur n : Int) (h : fitsInt64 n = true) :
    decodeInt cur (JsonValue.number (formatInt n)) = (n, true) := by
  have h' : -(2 : Int) ^ 63 ≤ n ∧ n < (2 : Int) ^ 63 := by simpa [fitsInt64] using h
  simp only [decodeInt, parseIntLiteral_formatInt n h'.1 h'.2]

theorem decodeInlinePtr_inlineValue (i : Inline) (hto : fitsInt64 i.To = true)
    (hfrom : fitsInt64 i.From = true) :
    decodeInlinePtr none (inlineValue i) = (some i, true) := by
  obtain ⟨p, t, f⟩ := i
  simp only at hto hfrom
  by_cases h1 : t = 0 <;> by_cases h2 : f = 0 <;>
    simp only [decodeInlinePtr, inlineValue, decodeMembers, decodeInlineField_path,
      decodeInlineField_to, decodeInlineField_from, decodeString,
      decodeInt_formatInt _ _ hto, decodeInt_formatInt _ _ hfrom,
      h1, h2, if_true, if_false, List.nil_append, List.append_nil, List.cons_append,
      Option.getD_none, Bool.and_true, Bool.and_self]

theorem decodeComment_commentValue (c : CommentPayload)
    (h : wellTyped [c] = true) :
    decodeComment zeroComment (commentValue c) = (c, true) := by
  obtain ⟨⟨raw⟩, inl⟩ := c
  cases inl with
  | none =>
    simp only [decodeComment, commentValue, decodeMembers, decodeCommentField_content,
      decodeContent, decodeContentField_raw, decodeString, zeroComment, Bool.and_true,
      Bool.and_self]
  | some i =>
    have hi : fitsInt64 i.To = true ∧ fitsInt64 i.From = true := by
      simpa [wellTyped] using h
    simp only [decodeComment, commentValue, decodeMembers, decodeCommentField_content,
      decodeCommentField_inline_key, decodeContent, decodeContentField_raw, decodeString,
      zeroComment, decodeInlinePtr_inlineValue i hi.1 hi.2, Bool.and_true, Bool.and_self]

theorem decodeElements_commentValue (comments : List CommentPayload)
    (h : wellTyped comments = true) :
    decodeElements [] (comments.map commentValue) = (comments, true) := by
  induction comments with
  | nil => rfl
  | cons c cs ih =>
    have hc : wellTyped [c] = true := by
      simp only [wellTyped, List.all_cons, Bool.and_eq_true] at h ⊢
      exact ⟨h.1, by simp⟩
    have hcs : wellTyped cs = true := by
      simp only [wellTyped, List.all_cons, Bool.and_eq_true] at h ⊢
      exact h.2
    simp only [List.map_cons, decodeElements, List.headD_nil, List.tail_nil,
      decodeComment_commentValue c hc, ih hcs]
    rfl

theorem jsonUnmarshal_jsonMarshal (comments : List CommentPayload)
    (h : wellTyped comments = true) :
    jsonUnmarshal [] (jsonMarshal comments) = (none, comments) := by
  simp only [jsonUnmarshal, parseJson_jsonMarshal, decodeComments,
    decodeElements_commentValue comments h]
  rfl

/-- C3: a comment list whose integers fit the type `int`, written as a JSON array
with the field tags of the structs, is returned unchanged and without error by
`parseGPT4Response`. -/
theorem parseGPT4Response_jsonMarshal (comments : List CommentPayload)
    (h : wellTyped comments = true) :
    parseGPT4Response (jsonMarshal comments) = Except.ok comments := by
  have hu := jsonUnmarshal_jsonMarshal comments h
  rw [parseGPT4Response_direct _ (by rw [hu]), hu]

/-- C3 at a list with an inline comment whose text needs escaping and a general
comment. -/
theorem parseGPT4Response_jsonMarshal_witness :
    wellTyped roundTripComments = true ∧
      parseGPT4Response (jsonMarshal roundTripComments) = Except.ok roundTripComments :=
  ⟨by decide!, parseGPT4Response_jsonMarshal roundTripComments (by decide!)⟩

/-! ## The definition locator -/

theorem stringsContains_iff_occurs (s p : List Char) :
    stringsContains s p = true ↔ p <:+: s := by
  induction s with
  | nil =>
    simp only [stringsContains, isPrefixOf_true_iff]
    constructor
    · intro h; exact h.isInfix
    · intro h
      have : p = [] := List.eq_nil_of_infix_nil h
      subst this
      exact List.prefix_refl _
  | cons c t ih =>
    simp only [stringsContains, Bool.or_eq_true, isPrefixOf_true_iff, ih]
    exact List.infix_cons_iff.symm

theorem stringsContains_middle (line a identifier b : List Char)
    (h : stringsContains line (a ++ identifier ++ b) = true) :
    stringsContains line identifier = true := by
  rw [stringsContains_iff_occurs] at h ⊢
  exact List.IsInfix.trans ⟨a, b, rfl⟩ h

/-- One step of the scan, in terms of the two kinds of qualifying line: the guard on
the bare identifier never hides a qualifying line. -/
theorem scanLines_cons (filePath identifier line : List Char) (rest : List (List Char)) :
    scanLines filePath identifier (line :: rest) =
      if isStructHeader line identifier then
        Except.ok (captureDefinition "struct".toList filePath identifier line rest)
      else if isFunctionLine line identifier then
        Except.ok (captureDefinition "function".toList filePath identifier line rest)
      else scanLines filePath identifier rest := by
  have h1 : stringsContains line ("type ".toList ++ identifier ++ " struct".toList) = true →
      stringsContains line identifier = true := stringsContains_middle line _ identifier _
  have h2 : stringsContains line (" ".toList ++ identifier ++ "(".toList) = true →
      stringsContains line identifier = true := stringsContains_middle line _ identifier _
  have h3 : stringsContains line (" (*".toList ++ identifier ++ ")".toList) = true →
      stringsContains line identifier = true := stringsContains_middle line _ identifier _
  rcases Bool.eq_false_or_eq_true
      (stringsContains line ("type ".toList ++ identifier ++ " struct".toList)) with hs | hs <;>
  rcases Bool.eq_false_or_eq_true
      (stringsContains line (" ".toList ++ identifier ++ "(".toList)) with hn | hn <;>
  rcases Bool.eq_false_or_eq_true
      (stringsContains line (" (*".toList ++ identifier ++ ")".toList)) with hr | hr <;>
  rcases Bool.eq_false_or_eq_true (stringsContains line "func".toList) with hf | hf <;>
  rcases Bool.eq_false_or_eq_true (stringsContains line ['{']) with hb | hb <;>
  rcases Bool.eq_false_or_eq_true (stringsContains line identifier) with hid | hid <;>
  first
    | exact Bool.noConfusion ((h1 hs).symm.trans hid)
    | exact Bool.noConfusion ((h2 hn).symm.trans hid)
    | exact Bool.noConfusion ((h3 hr).symm.trans hid)
    | (simp only [scanLines, isStructHeader, isFunctionLine, hs, hn, hr, hf, hb, hid]; simp)

theorem scanLines_not_found_iff (filePath identifier : List Char) (lines : List (List Char)) :
    scanLines filePath identifier lines = Except.error LookupError.definitionNotFound ↔
      ∀ line ∈ lines, qualifies line identifier = false := by
  induction lines with
  | nil => simp [scanLines]
  | cons line rest ih =>
    rw [scanLines_cons]
    by_cases hs : isStructHeader line identifier = true
    · simp [hs, qualifies]
    · by_cases hf : isFunctionLine line identifier = true
      · simp [hs, hf, qualifies]
      · have hq : qualifies line identifier = false := by simp [qualifies, hs, hf]
        rw [if_neg hs, if_neg hf, ih]
        simp only [List.mem_cons, forall_eq_or_imp, hq, true_and]

/-- The scan stops at the first qualifying line, whatever follows it. -/
theorem scanLines_first (filePath identifier line : List Char) (pre post : List (List Char))
    (hpre : ∀ l ∈ pre, qualifies l identifier = false)
    (hline : qualifies line identifier = true) :
    scanLines filePath identifier (pre ++ line :: post) =
      Except.ok (captureDefinition
        (if isStructHeader line identifier then "struct".toList else "function".toList)
        filePath identifier line post) := by
  induction pre with
  | nil =>
    rw [List.nil_append, scanLines_cons]
    by_cases hs : isStructHeader line identifier = true
    · simp [hs]
    · have hf : isFunctionLine line identifier = true := by
        simpa [qualifies, hs] using hline
      simp [hs, hf]
  | cons l rest ih =>
    have hl : qualifies l identifier = false := hpre l (by simp)
    have hl' : isStructHeader l identifier = false ∧ isFunctionLine l identifier = false := by
      simpa [qualifies] using hl
    rw [List.cons_append, scanLines_cons]
    simp only [hl'.1, hl'.2, Bool.false_eq_true, if_false]
    exact ih (fun x hx => hpre x (by simp [hx]))

/-- A successful scan returns the capture at some line of the file. -/
theorem scanLines_ok_shape (filePath identifier : List Char) (lines : List (List Char))
    (d : CodeDefinition) (h : scanLines filePath identifier lines = Except.ok d) :
    ∃ pre line post kind, lines = pre ++ line :: post ∧
      d = captureDefinition kind filePath identifier line post := by
  induction lines with
  | nil => simp [scanLines] at h
  | cons l rest ih =>
    rw [scanLines_cons] at h
    by_cases hs : isStructHeader l identifier = true
    · rw [if_pos hs] at h
      exact ⟨[], l, rest, _, rfl, (Except.ok.inj h).symm⟩
    · by_cases hf : isFunctionLine l identifier = true
      · rw [if_neg hs, if_pos hf] at h
        exact ⟨[], l, rest, _, rfl, (Except.ok.inj h).symm⟩
      · rw [if_neg hs, if_neg hf] at h
        obtain ⟨pre, line, post, kind, hl, hd⟩ := ih h
        exact ⟨l :: pre, line, post, kind, by rw [hl]; rfl, hd⟩

/-- C9: for a readable file, `findDefinitionInFile` returns the error
`definition not found` exactly when no line holds the struct header of the
identifier or holds `func`, the identifier followed by `(` after a blank or as
ahead of `)` in ` (*id)`, and an opening brace; a candidate function line
without a brace does not qualify and the scan goes on. -/
theorem findDefinitionInFile_not_found_iff (readFile : List Char → Option (List Char))
    (filePath identifier content : List Char) (hread : readFile filePath = some content) :
    findDefinitionInFile readFile filePath identifier =
        Except.error LookupError.definitionNotFound ↔
      ∀ line ∈ stringsSplit content ['\n'], qualifies line identifier = false := by
  simp only [findDefinitionInFile, hread]
  exact scanLines_not_found_iff filePath identifier _

/-- C9 at a file whose only candidate line has its brace on the next line. -/
theorem findDefinitionInFile_not_found_witness :
    singleFile braceOnNextLineSource "main.go".toList = some braceOnNextLineSource ∧
      (findDefinitionInFile (singleFile braceOnNextLineSource) "main.go".toList "Run".toList =
          Except.error LookupError.definitionNotFound ↔
        ∀ line ∈ stringsSplit braceOnNextLineSource ['\n'],
          qualifies line "Run".toList = false) :=
  ⟨rfl, findDefinitionInFile_not_found_iff (singleFile braceOnNextLineSource)
    "main.go".toList "Run".toList braceOnNextLineSource rfl⟩

theorem lookupDefinition_first (readFile : List Char → Option (List Char))
    (identifier file : List Char) (before after : List (List Char)) (d : CodeDefinition)
    (hbefore : ∀ g ∈ before, ∀ d', findDefinitionInFile readFile g identifier ≠ Except.ok d')
    (hfile : findDefinitionInFile readFile file identifier = Except.ok d) :
    lookupDefinition readFile identifier (before ++ file :: after) = some d := by
  induction before with
  | nil => simp only [List.nil_append, lookupDefinition, hfile]
  | cons g rest ih =>
    have hg := hbefore g (by simp)
    rw [List.cons_append, lookupDefinition]
    cases hres : findDefinitionInFile readFile g identifier with
    | ok d' => exact absurd hres (hg d')
    | error e => exact ih (fun x hx => hbefore x (by simp [hx]))

theorem collectDefinitions_nodup (readFile : List Char → Option (List Char))
    (goFiles : List (List Char)) (identifiers : List (List Char)) :
    ∀ seen : List (List Char), identifiers.Nodup → (∀ x ∈ identifiers, x ∉ seen) →
      collectDefinitions readFile goFiles seen identifiers =
        identifiers.filterMap fun x => lookupDefinition readFile x goFiles := by
  induction identifiers with
  | nil => intro seen _ _; rfl
  | cons x rest ih =>
    intro seen hnd hseen
    have hx : x ∉ seen := hseen x (by simp)
    have hnd' : rest.Nodup := (List.nodup_cons.1 hnd).2
    have hxr : x ∉ rest := (List.nodup_cons.1 hnd).1
    have hrest : ∀ y ∈ rest, y ∉ seen := fun y hy => hseen y (by simp [hy])
    simp only [collectDefinitions, hx, if_false]
    cases hl : lookupDefinition readFile x goFiles with
    | none =>
      simp only [List.filterMap_cons, hl]
      exact ih seen hnd' hrest
    | some d =>
      simp only [List.filterMap_cons, hl]
      rw [ih (x :: seen) hnd' (by
        intro y hy hmem
        rcases List.mem_cons.1 hmem with h | h
        · exact hxr (h ▸ hy)
        · exact hrest y hy h)]

/-- C8: first match wins.  For distinct identifiers, `findReferencedDefinitions`
keeps for each identifier the result of the lookup over the files in enumeration
order; that lookup returns the result of `findDefinitionInFile` on the first file on
which it succeeds, whatever the later files hold; and in that file the span starts at
the first line that is a struct header or a function line with an opening brace,
whatever qualifying lines follow. -/
theorem first_match_wins (readFile : List Char → Option (List Char))
    (identifiers : List (List Char)) (identifier file content line : List Char)
    (before after : List (List Char)) (pre post : List (List Char))
    (hdistinct : identifiers.Nodup)
    (hbefore : ∀ g ∈ before, ∀ d', findDefinitionInFile readFile g identifier ≠ Except.ok d')
    (hread : readFile file = some content)
    (hlines : stringsSplit content ['\n'] = pre ++ line :: post)
    (hpre : ∀ l ∈ pre, qualifies l identifier = false)
    (hline : qualifies line identifier = true) :
    findReferencedDefinitions readFile (before ++ file :: after) identifiers =
        identifiers.filterMap (fun x => lookupDefinition readFile x (before ++ file :: after)) ∧
      findDefinitionInFile readFile file identifier =
        Except.ok (captureDefinition
          (if isStructHeader line identifier then "struct".toList else "function".toList)
          file identifier line post) ∧
      lookupDefinition readFile identifier (before ++ file :: after) =
        some (captureDefinition
          (if isStructHeader line identifier then "struct".toList else "function".toList)
          file identifier line post) := by
  have hfile : findDefinitionInFile readFile file identifier =
      Except.ok (captureDefinition
        (if isStructHeader line identifier then "struct".toList else "function".toList)
        file identifier line post) := by
    simp only [findDefinitionInFile, hread, hlines]
    exact scanLines_first file identifier line pre post hpre hline
  refine ⟨?_, hfile, lookupDefinition_first readFile identifier file before after _ hbefore hfile⟩
  exact collectDefinitions_nodup readFile _ identifiers [] hdistinct (fun _ _ h => by simp at h)

/-- C8 at two files that both declare `Job`, the first of them twice. -/
theorem first_match_wins_witness :
    findReferencedDefinitions twoFiles ([] ++ "a.go".toList :: ["b.go".toList]) ["Job".toList] =
        ["Job".toList].filterMap
          (fun x => lookupDefinition twoFiles x ([] ++ "a.go".toList :: ["b.go".toList])) ∧
      findDefinitionInFile twoFiles "a.go".toList "Job".toList =
        Except.ok (captureDefinition
          (if isStructHeader "type Job struct \x7b".toList "Job".toList then "struct".toList
           else "function".toList)
          "a.go".toList "Job".toList "type Job struct \x7b".toList
          ["\x7d".toList, "type Job struct \x7b".toList, "\tN int".toList, "\x7d".toList]) ∧
      lookupDefinition twoFiles "Job".toList ([] ++ "a.go".toList :: ["b.go".toList]) =
        some (captureDefinition
          (if isStructHeader "type Job struct \x7b".toList "Job".toList then "struct".toList
           else "function".toList)
          "a.go".toList "Job".toList "type Job struct \x7b".toList
          ["\x7d".toList, "type Job struct \x7b".toList, "\tN int".toList, "\x7d".toList]) :=
  first_match_wins twoFiles ["Job".toList] "Job".toList "a.go".toList
    "// Job\ntype Job struct \x7b\n\x7d\ntype Job struct \x7b\n\tN int\n\x7d".toList
    "type Job struct \x7b".toList [] ["b.go".toList] ["// Job".toList]
    ["\x7d".toList, "type Job struct \x7b".toList, "\tN int".toList, "\x7d".toList]
    (by decide) (by simp) (by decide!) (by decide!) (by decide!) (by decide!)

theorem stringsCount_join_lines (p : List Char) (hp : p ≠ []) (hn : '\n' ∉ p)
    (lines : List (List Char)) :
    stringsCount (stringsJoin lines ['\n']) p = (lines.map fun l => stringsCount l p).sum := by
  induction lines with
  | nil =>
    have hne : p.isEmpty = false := by cases p <;> simp_all
    simp [stringsJoin, stringsCount, hne, countFrom]
  | cons a rest ih =>
    cases rest with
    | nil => simp [stringsJoin]
    | cons b rest =>
      have e : stringsJoin (a :: b :: rest) ['\n'] = a ++ '\n' :: stringsJoin (b :: rest) ['\n'] := by
        simp [stringsJoin]
      rw [e, stringsCount_append_cons '\n' p a _ hn hp, ih]
      simp

theorem netBraces_sum (lines : List (List Char)) :
    (lines.map netBraces).sum =
      (((lines.map fun l => stringsCount l ['{']).sum : Nat) : Int) -
        (((lines.map fun l => stringsCount l ['}']).sum : Nat) : Int) := by
  induction lines with
  | nil => simp
  | cons l rest ih =>
    simp only [List.map_cons, List.sum_cons, ih, netBraces]
    push_cast
    ring

/-- The capture loop takes a prefix of the lines that follow, and stops before the last
line only when the running brace count is no longer positive. -/
theorem captureLines_split (rest : List (List Char)) : ∀ n : Int,
    ∃ after, rest = captureLines n rest ++ after ∧
      (after = [] ∨ n + ((captureLines n rest).map netBraces).sum ≤ 0) := by
  induction rest with
  | nil => intro n; exact ⟨[], rfl, Or.inl rfl⟩
  | cons l t ih =>
    intro n
    by_cases hpos : n > 0
    · obtain ⟨after, hsplit, hstop⟩ := ih (n + netBraces l)
      refine ⟨after, ?_, ?_⟩
      · simp only [captureLines, hpos, if_true, List.cons_append]
        rw [← hsplit]
      · rcases hstop with h | h
        · exact Or.inl h
        · right
          simp only [captureLines, hpos, if_true, List.map_cons, List.sum_cons]
          linarith
    · refine ⟨l :: t, ?_, Or.inr ?_⟩
      · simp [captureLines, hpos]
      · simp only [captureLines, hpos, if_false, List.map_nil, List.sum_nil]
        linarith

/-- C7 (amended): when `findDefinitionInFile` succeeds, the returned span is a run of
consecutive whole lines of the file, joined by newlines, and either it runs to the
last line of the file or it has no more opening than closing braces; a span whose
brace depth never returns to zero is returned all the same, and the two counts
need not be equal. -/
theorem findDefinitionInFile_span (readFile : List Char → Option (List Char))
    (filePath identifier content : List Char) (d : CodeDefinition)
    (hread : readFile filePath = some content)
    (h : findDefinitionInFile readFile filePath identifier = Except.ok d) :
    ∃ before span after, stringsSplit content ['\n'] = before ++ span ++ after ∧
      d.Content = stringsJoin span ['\n'] ∧
      (after = [] ∨ stringsCount d.Content ['{'] ≤ stringsCount d.Content ['}']) := by
  simp only [findDefinitionInFile, hread] at h
  obtain ⟨pre, line, post, kind, hlines, hd⟩ := scanLines_ok_shape filePath identifier _ d h
  obtain ⟨after, hsplit, hstop⟩ := captureLines_split post (netBraces line)
  have hcontent : d.Content = stringsJoin (line :: captureLines (netBraces line) post) ['\n'] := by
    rw [hd]; rfl
  refine ⟨pre, line :: captureLines (netBraces line) post, after, ?_, hcontent, ?_⟩
  · rw [hlines]
    conv_lhs => rw [hsplit]
    simp
  · rcases hstop with h0 | hle
    · exact Or.inl h0
    · right
      have hsum := netBraces_sum (line :: captureLines (netBraces line) post)
      simp only [List.map_cons, List.sum_cons] at hsum
      rw [hcontent, stringsCount_join_lines ['{'] (by simp) (by decide),
        stringsCount_join_lines ['}'] (by simp) (by decide)]
      simp only [List.map_cons, List.sum_cons]
      have h1 : netBraces line + ((captureLines (netBraces line) post).map netBraces).sum ≤ 0 :=
        hle
      rw [hsum] at h1
      have h2 : ((stringsCount line ['{'] +
          ((captureLines (netBraces line) post).map fun l => stringsCount l ['{']).sum : Nat) : Int) ≤
          ((stringsCount line ['}'] +
            ((captureLines (netBraces line) post).map fun l => stringsCount l ['}']).sum : Nat) : Int) := by
        linarith
      exact_mod_cast h2

/-- C7 (amended) at the struct `Job` of the file `b.go`. -/
theorem findDefinitionInFile_span_witness :
    ∃ before span after,
      stringsSplit "type Job struct \x7b\n\tM int\n\x7d".toList ['\n'] = before ++ span ++ after ∧
      (captureDefinition "struct".toList "b.go".toList "Job".toList "type Job struct \x7b".toList
          ["\tM int".toList, "\x7d".toList]).Content = stringsJoin span ['\n'] ∧
      (after = [] ∨
        stringsCount (captureDefinition "struct".toList "b.go".toList "Job".toList
            "type Job struct \x7b".toList ["\tM int".toList, "\x7d".toList]).Content ['{'] ≤
          stringsCount (captureDefinition "struct".toList "b.go".toList "Job".toList
            "type Job struct \x7b".toList ["\tM int".toList, "\x7d".toList]).Content ['}']) :=
  findDefinitionInFile_span twoFiles "b.go".toList "Job".toList
    "type Job struct \x7b\n\tM int\n\x7d".toList _ (by decide!) (by decide!)

/-- C7 (as stated) fails: a function whose body returns the text of an opening brace
is found, and the returned span, which runs to the end of the file, has two opening
braces and one closing brace. -/
theorem findDefinitionInFile_unbalanced :
    findDefinitionInFile (singleFile braceInStringSource) "main.go".toList "Open".toList =
        Except.ok { Kind := "function".toList, Name := "Open".toList,
                    Content := "func Open() string \x7b\n\treturn \"\x7b\"\n\x7d\n".toList,
                    FilePath := "main.go".toList, References := [] } ∧
      stringsCount "func Open() string \x7b\n\treturn \"\x7b\"\n\x7d\n".toList ['{'] = 2 ∧
      stringsCount "func Open() string \x7b\n\treturn \"\x7b\"\n\x7d\n".toList ['}'] = 1 := by
  decide!

/-- C10 fails on the code: for a method declared with a named receiver, pointer or
value, the lookup of the receiver type finds no definition, because the scan looks
for the type only as a function name or as an unnamed pointer receiver. -/
theorem findDefinitionInFile_named_receiver :
    findDefinitionInFile (singleFile methodSource) "main.go".toList "Server".toList =
        Except.error LookupError.definitionNotFound ∧
      findDefinitionInFile (singleFile valueMethodSource) "main.go".toList "Server".toList =
        Except.error LookupError.definitionNotFound := by
  decide!

/-- C2 (amended) at a response without JSON: no error, the fallback comment. -/
theorem parseGPT4Response_error_iff_witness :
    ((jsonUnmarshal [] "Nothing to report.".toList).1 ≠ none ∧
        findJsonBlock "Nothing to report.".toList = none) ∧
      parseGPT4Response "Nothing to report.".toList =
        Except.ok [{ Content := { Raw := "Nothing to report.".toList }, Inline := none }] :=
  ⟨by decide!, (parseGPT4Response_error_iff "Nothing to report.".toList).2 (by decide!)⟩

/-- C6 (amended) at a response whose only comment has an `inline` object and no path. -/
theorem parseGPT4Response_inline_witness :
    ∃ comments, parseGPT4Response "[\x7b\"inline\":\x7b\x7d\x7d]".toList = Except.ok comments ∧
      List.Forall₂ (fun item c => c.Inline.isSome = carriesInline item)
        [JsonValue.object [("inline".toList, JsonValue.object [])]] comments :=
  (parseGPT4Response_inline "[\x7b\"inline\":\x7b\x7d\x7d]".toList).1
    [JsonValue.object [("inline".toList, JsonValue.object [])]] rfl (by decide!)

theorem no_block_of_not_contains (response : List Char)
    (h : stringsContains response jsonFence = false) :
    ¬ ∃ a b c, response = a ++ jsonFence ++ b ++ closingFence ++ c := by
  rintro ⟨a, b, c, habc⟩
  have hin : jsonFence <:+: response := ⟨a, b ++ closingFence ++ c, by rw [habc]; simp⟩
  rw [(stringsContains_iff_occurs response jsonFence).2 hin] at h
  exact Bool.noConfusion h

/-- C5 at the response `Looks good to me.`. -/
theorem parseGPT4Response_no_json_witness :
    (jsonUnmarshal [] "Looks good to me.".toList).1 ≠ none ∧
      (¬ ∃ a b c, "Looks good to me.".toList = a ++ jsonFence ++ b ++ closingFence ++ c) ∧
      parseGPT4Response "Looks good to me.".toList =
        Except.ok [{ Content := { Raw := "Looks good to me.".toList }, Inline := none }] :=
  ⟨by decide!, no_block_of_not_contains _ (by decide!),
    parseGPT4Response_no_json "Looks good to me.".toList (by decide!)
      (no_block_of_not_contains _ (by decide!))⟩

/-! ## The pull-request description -/

theorem impactStep_fold (files : List (List Char)) (init : ImpactFlags) :
    files.foldl impactStep init =
      { hasTests := init.hasTests || files.any testsCase
        hasConfig := init.hasConfig || files.any (fun f => !testsCase f && configCase f)
        hasDocs :=
          init.hasDocs || files.any (fun f => !testsCase f && !configCase f && docsCase f)
        hasCore :=
          init.hasCore ||
            files.any (fun f => !testsCase f && !configCase f && !docsCase f && coreCase f) } := by
  induction files generalizing init with
  | nil => simp
  | cons f rest ih =>
    rw [List.foldl_cons, ih]
    simp only [impactStep, List.any_cons]
    cases testsCase f <;> cases configCase f <;> cases docsCase f <;> cases coreCase f <;>
      simp [Bool.or_assoc]

/-- C13: the impact text of `generatePRDescription` is the header followed by the
bullets of exactly the flags that are set, in the order core, configuration, tests,
documentation: a bullet occurs in the text precisely when its flag is set. For the
files `a_test.go`, `config/x.yaml` and `README.md` the flags for configuration, tests
and documentation are set, the core flag is not, and the text is the header followed
by those three bullets. -/
theorem generatePRDescription_impact
    (rangeOrder : List (List Char × Nat) → List (List Char × Nat))
    (repoPath diffOutput : List Char) (changedFiles : List (List Char)) :
    ((generatePRDescription rangeOrder repoPath changedFiles diffOutput).Impact =
        impactHeader ++
          ((([((impactFlags changedFiles).hasCore, coreBullet),
              ((impactFlags changedFiles).hasConfig, configBullet),
              ((impactFlags changedFiles).hasTests, testsBullet),
              ((impactFlags changedFiles).hasDocs, docsBullet)].filter
              (fun p => p.1)).map (fun p => p.2)).flatten)) ∧
      (stringsContains (generatePRDescription rangeOrder repoPath changedFiles diffOutput).Impact
          coreBullet = (impactFlags changedFiles).hasCore ∧
        stringsContains (generatePRDescription rangeOrder repoPath changedFiles diffOutput).Impact
          configBullet = (impactFlags changedFiles).hasConfig ∧
        stringsContains (generatePRDescription rangeOrder repoPath changedFiles diffOutput).Impact
          testsBullet = (impactFlags changedFiles).hasTests ∧
        stringsContains (generatePRDescription rangeOrder repoPath changedFiles diffOutput).Impact
          docsBullet = (impactFlags changedFiles).hasDocs) ∧
      impactFlags exampleChangedFiles =
        { hasTests := true, hasConfig := true, hasDocs := true, hasCore := false } ∧
      (generatePRDescription rangeOrder repoPath exampleChangedFiles diffOutput).Impact =
        impactHeader ++ configBullet ++ testsBullet ++ docsBullet := by
  have key : ∀ flags : ImpactFlags,
      (impactText flags =
        impactHeader ++
          ((([(flags.hasCore, coreBullet), (flags.hasConfig, configBullet),
              (flags.hasTests, testsBullet), (flags.hasDocs, docsBullet)].filter
              (fun p => p.1)).map (fun p => p.2)).flatten)) ∧
      stringsContains (impactText flags) coreBullet = flags.hasCore ∧
      stringsContains (impactText flags) configBullet = flags.hasConfig ∧
      stringsContains (impactText flags) testsBullet = flags.hasTests ∧
      stringsContains (impactText flags) docsBullet = flags.hasDocs := by
    rintro ⟨t, c, d, k⟩
    cases t <;> cases c <;> cases d <;> cases k <;> decide!
  have hflags : impactFlags exampleChangedFiles =
      { hasTests := true, hasConfig := true, hasDocs := true, hasCore := false } := by decide!
  refine ⟨(key _).1, (key _).2, hflags, ?_⟩
  show impactText (impactFlags exampleChangedFiles) = _
  rw [hflags]
  decide!

/-- C14, as the code has it: each file sets the flag of the first case it meets and
no other. The tests flag is set exactly when some path contains `_test.`; the
configuration flag exactly when some path contains `config` and not `_test.`; the
documentation flag exactly when some path contains `docs` or ends in `.md` and meets
neither earlier case; the core flag exactly when some path ends in `.go`, `.js` or
`.py` and meets none of the earlier cases. -/
theorem impactFlags_first_case (changedFiles : List (List Char)) :
    ((impactFlags changedFiles).hasTests = true ↔
        ∃ f ∈ changedFiles, stringsContains f "_test.".toList = true) ∧
      ((impactFlags changedFiles).hasConfig = true ↔
        ∃ f ∈ changedFiles, stringsContains f "_test.".toList = false ∧
          stringsContains f "config".toList = true) ∧
      ((impactFlags changedFiles).hasDocs = true ↔
        ∃ f ∈ changedFiles, stringsContains f "_test.".toList = false ∧
          stringsContains f "config".toList = false ∧
          (stringsContains f "docs".toList = true ∨ stringsHasSuffix f ".md".toList = true)) ∧
      ((impactFlags changedFiles).hasCore = true ↔
        ∃ f ∈ changedFiles, stringsContains f "_test.".toList = false ∧
          stringsContains f "config".toList = false ∧
          stringsContains f "docs".toList = false ∧ stringsHasSuffix f ".md".toList = false ∧
          (stringsHasSuffix f ".go".toList = true ∨ stringsHasSuffix f ".js".toList = true ∨
            stringsHasSuffix f ".py".toList = true)) := by
  unfold impactFlags
  rw [impactStep_fold]
  simp only [Bool.false_or, List.any_eq_true, Bool.and_eq_true, Bool.not_eq_true',
    testsCase, configCase, docsCase, coreCase, Bool.or_eq_true, Bool.or_eq_false_iff]
  refine ⟨trivial, trivial, ?_, ?_⟩
  · constructor
    · rintro ⟨f, hf, ⟨h1, h2⟩, h3⟩
      exact ⟨f, hf, h1, h2, h3⟩
    · rintro ⟨f, hf, h1, h2, h3⟩
      exact ⟨f, hf, ⟨h1, h2⟩, h3⟩
  · constructor
    · rintro ⟨f, hf, ⟨⟨h1, h2⟩, h3, h4⟩, h5⟩
      exact ⟨f, hf, h1, h2, h3, h4, (or_assoc.mp h5)⟩
    · rintro ⟨f, hf, h1, h2, h3, h4, h5⟩
      exact ⟨f, hf, ⟨⟨h1, h2⟩, h3, h4⟩, (or_assoc.mpr h5)⟩

/-- C14 counterexample: for the single changed file `a_test.go` the path ends in
`.go`, yet the core flag is not set, because the file already met the tests case. -/
theorem impactFlags_not_independent :
    stringsHasSuffix "a_test.go".toList ".go".toList = true ∧
      (impactFlags ["a_test.go".toList]).hasCore = false := by
  decide!

/-- C15: with no changed files the summary is the fallback sentence, the list of file
changes is empty and the impact text is the header alone. -/
theorem generatePRDescription_no_files
    (rangeOrder : List (List Char × Nat) → List (List Char × Nat))
    (repoPath diffOutput : List Char) :
    (generatePRDescription rangeOrder repoPath [] diffOutput).Summary =
        "This PR includes changes to configuration or documentation.".toList ∧
      (generatePRDescription rangeOrder repoPath [] diffOutput).FileChanges = [] ∧
      (generatePRDescription rangeOrder repoPath [] diffOutput).Impact =
        "### Impact Assessment\n".toList := by
  refine ⟨?_, rfl, ?_⟩
  · show "This PR includes changes to ".toList ++
        "configuration or documentation".toList ++ ".".toList = _
    decide!
  · show impactText (impactFlags []) = _
    decide!

/-! ## The webhook handler -/

theorem isExoReviewerPresent_iff (reviewers : List Reviewer) :
    isExoReviewerPresent reviewers = true ↔
      ∃ r ∈ reviewers, r.DisplayName = "ExoReview".toList ∨ r.UUID = "ExoReview".toList := by
  induction reviewers with
  | nil => simp [isExoReviewerPresent]
  | cons r rest ih =>
    by_cases h : r.DisplayName = "ExoReview".toList ∨ r.UUID = "ExoReview".toList
    · simp only [isExoReviewerPresent, if_pos h, true_iff]
      exact ⟨r, List.mem_cons_self _ _, h⟩
    · simp only [isExoReviewerPresent, if_neg h, ih]
      constructor
      · rintro ⟨x, hx, hx2⟩
        exact ⟨x, List.mem_cons_of_mem _ hx, hx2⟩
      · rintro ⟨x, hx, hx2⟩
        rcases List.mem_cons.mp hx with rfl | hx
        · exact absurd hx2 h
        · exact ⟨x, hx, hx2⟩

theorem postingLoop_spec (postComment : Nat → CommentPayload → Bool)
    (comments : List CommentPayload) (i : Nat) (run : HandlerRun) :
    (postingLoop postComment i comments run).attempts = run.attempts ++ comments ∧
      (postingLoop postComment i comments run).successCount +
          (postingLoop postComment i comments run).failedCount =
        run.successCount + run.failedCount + comments.length ∧
      (postingLoop postComment i comments run).status = run.status ∧
      (postingLoop postComment i comments run).fetched = run.fetched := by
  induction comments generalizing i run with
  | nil => simp [postingLoop]
  | cons c rest ih =>
    rw [postingLoop]
    by_cases h : postComment i c = true
    · rw [if_pos h]
      obtain ⟨h1, h2, h3, h4⟩ := ih (i + 1)
        { run with attempts := run.attempts ++ [c], successCount := run.successCount + 1 }
      refine ⟨by rw [h1]; simp, by rw [h2]; simp only [List.length_cons]; omega, h3, h4⟩
    · rw [if_neg h]
      obtain ⟨h1, h2, h3, h4⟩ := ih (i + 1)
        { run with attempts := run.attempts ++ [c], failedCount := run.failedCount + 1 }
      refine ⟨by rw [h1]; simp, by rw [h2]; simp only [List.length_cons]; omega, h3, h4⟩

theorem postingLoop_counts (postComment : Nat → CommentPayload → Bool)
    (comments : List CommentPayload) (i : Nat) (run : HandlerRun) :
    (postingLoop postComment i comments run).successCount =
        run.successCount +
          ((comments.enumFrom i).filter (fun p => postComment p.1 p.2)).length ∧
      (postingLoop postComment i comments run).failedCount =
        run.failedCount +
          ((comments.enumFrom i).filter (fun p => !postComment p.1 p.2)).length := by
  induction comments generalizing i run with
  | nil => simp [postingLoop]
  | cons c rest ih =>
    rw [postingLoop]
    by_cases h : postComment i c = true
    · rw [if_pos h]
      obtain ⟨h1, h2⟩ := ih (i + 1)
        { run with attempts := run.attempts ++ [c], successCount := run.successCount + 1 }
      rw [h1, h2]
      simp only [List.enumFrom_cons, List.filter_cons, h, if_true, Bool.not_true,
        Bool.false_eq_true, if_false, List.length_cons]
      constructor <;> first | (dsimp only; omega) | dsimp only
    · rw [if_neg h]
      obtain ⟨h1, h2⟩ := ih (i + 1)
        { run with attempts := run.attempts ++ [c], failedCount := run.failedCount + 1 }
      rw [h1, h2]
      have h' : postComment i c = false := by
        cases hp : postComment i c with
        | false => rfl
        | true => exact absurd hp h
      simp only [List.enumFrom_cons, List.filter_cons, h', Bool.false_eq_true, if_false,
        Bool.not_false, if_true, List.length_cons]
      constructor <;> first | (dsimp only; omega) | dsimp only

theorem webhookHandler_gate (env : HandlerEnv) (r : Request) (body : List Char)
    (payload : PullRequestCreatedPayload)
    (hmethod : r.Method = "POST".toList)
    (hevent : stringsTrimSpace r.EventKey = "pullrequest:created".toList ∨
      stringsTrimSpace r.EventKey = "pullrequest:updated".toList)
    (hbody : r.Body = some body) (hpayload : env.unmarshalPayload body = some payload) :
    webhookHandler env r =
      if payload.Reviewers.length = 0 then respond 200 false
      else if !isExoReviewerPresent payload.Reviewers then respond 200 false
      else
        match env.readDiffFile payload with
        | none => respond 500 true
        | some diffContent =>
          match env.analyzeWithGPT4 diffContent with
          | none => respond 500 true
          | some analysis =>
            match parseGPT4Response analysis with
            | Except.error _ => respond 500 true
            | Except.ok comments =>
              { postingLoop env.postComment 0 comments (respond 0 true) with status := 200 } := by
  have hev : ¬ (stringsTrimSpace r.EventKey ≠ "pullrequest:created".toList ∧
      stringsTrimSpace r.EventKey ≠ "pullrequest:updated".toList) := by
    rintro ⟨h1, h2⟩
    rcases hevent with h | h
    · exact h1 h
    · exact h2 h
  unfold webhookHandler
  rw [if_neg (not_not.mpr hmethod)]
  simp only []
  rw [if_neg hev, hbody]
  simp only [hpayload]

/-- C16: for a created or updated pull-request event whose payload has no reviewer,
or no reviewer whose display name or UUID is `ExoReview`, `webhookHandler` answers
200 and does not call `fetchAndDiff`; and `isExoReviewerPresent` returns true exactly
when some reviewer of the list has the display name or the UUID `ExoReview`. -/
theorem webhookHandler_skips (env : HandlerEnv) (r : Request) (body : List Char)
    (payload : PullRequestCreatedPayload)
    (hmethod : r.Method = "POST".toList)
    (hevent : stringsTrimSpace r.EventKey = "pullrequest:created".toList ∨
      stringsTrimSpace r.EventKey = "pullrequest:updated".toList)
    (hbody : r.Body = some body) (hpayload : env.unmarshalPayload body = some payload)
    (hreviewers : payload.Reviewers = [] ∨
      ∀ reviewer ∈ payload.Reviewers,
        reviewer.DisplayName ≠ "ExoReview".toList ∧ reviewer.UUID ≠ "ExoReview".toList) :
    (webhookHandler env r).status = 200 ∧ (webhookHandler env r).fetched = false ∧
      ∀ reviewers : List Reviewer,
        isExoReviewerPresent reviewers = true ↔
          ∃ reviewer ∈ reviewers,
            reviewer.DisplayName = "ExoReview".toList ∨ reviewer.UUID = "ExoReview".toList := by
  have hrun : webhookHandler env r = respond 200 false := by
    rw [webhookHandler_gate env r body payload hmethod hevent hbody hpayload]
    by_cases hlen : payload.Reviewers.length = 0
    · rw [if_pos hlen]
    · rw [if_neg hlen]
      have hne : payload.Reviewers ≠ [] := fun h => hlen (by rw [h]; rfl)
      rcases hreviewers with h | h
      · exact absurd h hne
      · have hno : isExoReviewerPresent payload.Reviewers = false := by
          cases hp : isExoReviewerPresent payload.Reviewers with
          | false => rfl
          | true =>
            obtain ⟨x, hx, hx2⟩ := (isExoReviewerPresent_iff _).mp hp
            rcases hx2 with hx2 | hx2
            · exact absurd hx2 (h x hx).1
            · exact absurd hx2 (h x hx).2
        rw [hno]
        rfl
  rw [hrun]
  exact ⟨rfl, rfl, isExoReviewerPresent_iff⟩

/-- C16 at a payload whose only reviewer is somebody else. -/
theorem webhookHandler_skips_witness :
    (webhookHandler (sampleEnv otherReviewerPayload) createdRequest).status = 200 ∧
      (webhookHandler (sampleEnv otherReviewerPayload) createdRequest).fetched = false ∧
      ∀ reviewers : List Reviewer,
        isExoReviewerPresent reviewers = true ↔
          ∃ reviewer ∈ reviewers,
            reviewer.DisplayName = "ExoReview".toList ∨ reviewer.UUID = "ExoReview".toList :=
  webhookHandler_skips (sampleEnv otherReviewerPayload) createdRequest [] otherReviewerPayload
    rfl (Or.inl (by decide)) rfl rfl (Or.inr (by decide))

/-- C17: when the handler reaches its posting loop with the decoded comments, it
hands each comment to `postComment` exactly once, in the order of the list, whatever
the earlier calls returned; `successCount` is the number of calls that returned
without error, `failedCount` the number of the others, so that the two add up to the
number of comments; and the response is 200 whatever the number of failures. -/
theorem webhookHandler_posts_all (env : HandlerEnv) (r : Request) (body : List Char)
    (payload : PullRequestCreatedPayload) (diffContent analysis : List Char)
    (comments : List CommentPayload)
    (hmethod : r.Method = "POST".toList)
    (hevent : stringsTrimSpace r.EventKey = "pullrequest:created".toList ∨
      stringsTrimSpace r.EventKey = "pullrequest:updated".toList)
    (hbody : r.Body = some body) (hpayload : env.unmarshalPayload body = some payload)
    (hreviewer : isExoReviewerPresent payload.Reviewers = true)
    (hdiff : env.readDiffFile payload = some diffContent)
    (hanalysis : env.analyzeWithGPT4 diffContent = some analysis)
    (hcomments : parseGPT4Response analysis = Except.ok comments) :
    (webhookHandler env r).attempts = comments ∧
      (webhookHandler env r).successCount =
        (comments.enum.filter (fun p => env.postComment p.1 p.2)).length ∧
      (webhookHandler env r).failedCount =
        (comments.enum.filter (fun p => !env.postComment p.1 p.2)).length ∧
      (webhookHandler env r).successCount + (webhookHandler env r).failedCount =
        comments.length ∧
      (webhookHandler env r).status = 200 := by
  have hlen : ¬ payload.Reviewers.length = 0 := by
    intro h
    have hnil : payload.Reviewers = [] := List.length_eq_zero.mp h
    rw [hnil] at hreviewer
    exact Bool.noConfusion hreviewer
  have hrun : webhookHandler env r =
      { postingLoop env.postComment 0 comments (respond 0 true) with status := 200 } := by
    rw [webhookHandler_gate env r body payload hmethod hevent hbody hpayload, if_neg hlen,
      hreviewer]
    simp only [Bool.not_true, Bool.false_eq_true, if_false, hdiff, hanalysis, hcomments]
  obtain ⟨h1, h2, _, _⟩ := postingLoop_spec env.postComment comments 0 (respond 0 true)
  obtain ⟨h3, h4⟩ := postingLoop_counts env.postComment comments 0 (respond 0 true)
  rw [hrun]
  refine ⟨?_, ?_, ?_, ?_, rfl⟩
  · show (postingLoop env.postComment 0 comments (respond 0 true)).attempts = comments
    rw [h1]
    rfl
  · show (postingLoop env.postComment 0 comments (respond 0 true)).successCount = _
    rw [h3]
    simp [respond, List.enum]
  · show (postingLoop env.postComment 0 comments (respond 0 true)).failedCount = _
    rw [h4]
    simp [respond, List.enum]
  · show (postingLoop env.postComment 0 comments (respond 0 true)).successCount +
      (postingLoop env.postComment 0 comments (respond 0 true)).failedCount = comments.length
    rw [h2]
    simp [respond]

/-- C17 at a run with two decoded comments of which the first fails to post. -/
theorem webhookHandler_posts_all_witness :
    (webhookHandler (sampleEnv exoReviewPayload) createdRequest).attempts =
        roundTripComments ∧
      (webhookHandler (sampleEnv exoReviewPayload) createdRequest).successCount =
        (roundTripComments.enum.filter
          (fun p => (sampleEnv exoReviewPayload).postComment p.1 p.2)).length ∧
      (webhookHandler (sampleEnv exoReviewPayload) createdRequest).failedCount =
        (roundTripComments.enum.filter
          (fun p => !(sampleEnv exoReviewPayload).postComment p.1 p.2)).length ∧
      (webhookHandler (sampleEnv exoReviewPayload) createdRequest).successCount +
          (webhookHandler (sampleEnv exoReviewPayload) createdRequest).failedCount =
        roundTripComments.length ∧
      (webhookHandler (sampleEnv exoReviewPayload) createdRequest).status = 200 :=
  webhookHandler_posts_all (sampleEnv exoReviewPayload) createdRequest [] exoReviewPayload
    "+x".toList (jsonMarshal roundTripComments) roundTripComments
    rfl (Or.inl (by decide)) rfl rfl (by decide) rfl rfl (by decide!)

theorem webhookHandler_sample_run :
    webhookHandler (sampleEnv exoReviewPayload) createdRequest =
      { status := 200, fetched := true, attempts := roundTripComments,
        successCount := 1, failedCount := 1 } := by
  decide!

/-! ## The architecture snapshot -/

theorem contains_iff (slice : List (List Char)) (item : List Char) :
    contains slice item = true ↔ item ∈ slice := by
  induction slice with
  | nil => simp [contains]
  | cons s rest ih =>
    by_cases h : s = item
    · simp [contains, h]
    · have h2 : ¬ item = s := fun e => h e.symm
      simp [contains, h, h2, ih]

theorem addDependencies_mem (imports deps : List (List Char)) (p : List Char) :
    p ∈ addDependencies deps imports ↔ p ∈ deps ∨ p ∈ imports := by
  induction imports generalizing deps with
  | nil => simp [addDependencies]
  | cons i rest ih =>
    rw [addDependencies]
    cases hc : contains deps i with
    | false =>
      simp only [Bool.not_false, if_true]
      rw [ih]
      simp only [List.mem_append, List.mem_singleton, List.mem_cons]
      tauto
    | true =>
      simp only [Bool.not_true, Bool.false_eq_true, if_false]
      rw [ih]
      have hi : i ∈ deps := (contains_iff deps i).mp hc
      simp only [List.mem_cons]
      constructor
      · rintro (h | h)
        · exact Or.inl h
        · exact Or.inr (Or.inr h)
      · rintro (h | h | h)
        · exact Or.inl h
        · exact Or.inl (h ▸ hi)
        · exact Or.inr h

theorem addDependencies_nodup (imports deps : List (List Char)) (h : deps.Nodup) :
    (addDependencies deps imports).Nodup := by
  induction imports generalizing deps with
  | nil => simpa [addDependencies] using h
  | cons i rest ih =>
    rw [addDependencies]
    cases hc : contains deps i with
    | false =>
      simp only [Bool.not_false, if_true]
      apply ih
      have hi : i ∉ deps := fun hm => by
        rw [(contains_iff deps i).mpr hm] at hc
        exact Bool.noConfusion hc
      rw [List.nodup_append]
      refine ⟨h, List.nodup_singleton i, ?_⟩
      intro a ha hb
      rw [List.mem_singleton] at hb
      exact hi (hb ▸ ha)
    | true =>
      simp only [Bool.not_true, Bool.false_eq_true, if_false]
      exact ih deps h

theorem mapSet_lookup (key : List Char) (value : List (List Char))
    (m : List (List Char × List (List Char))) (k : List Char) :
    (mapSet key value m).lookup k = if k = key then some value else m.lookup k := by
  induction m with
  | nil =>
    simp only [mapSet, List.lookup_cons, List.lookup_nil]
    by_cases h : k = key
    · rw [if_pos h, h, beq_self_eq_true]
    · rw [if_neg h, beq_eq_false_iff_ne.mpr h]
  | cons e rest ih =>
    obtain ⟨k0, v0⟩ := e
    by_cases h0 : k0 = key
    · simp only [mapSet, if_pos h0, List.lookup_cons]
      subst h0
      by_cases h : k = k0
      · rw [if_pos h, h, beq_self_eq_true]
      · rw [if_neg h, beq_eq_false_iff_ne.mpr h]
    · simp only [mapSet, if_neg h0, List.lookup_cons, ih]
      by_cases h : k = key
      · have h1 : k ≠ k0 := fun e => h0 (e.symm.trans h)
        simp only [if_pos h, beq_eq_false_iff_ne.mpr h1]
      · simp only [if_neg h]

theorem walkTree_some (visits : List WalkEntry) (lists : WalkLists)
    (h : ∀ e ∈ visits, e.err = false) : ∃ out, walkTree visits lists = some out := by
  induction visits generalizing lists with
  | nil => exact ⟨lists, rfl⟩
  | cons e rest ih =>
    rw [walkTree, h e (List.mem_cons_self _ _)]
    simp only [Bool.false_eq_true, if_false]
    exact ih _ (fun x hx => h x (List.mem_cons_of_mem _ hx))

theorem analyzeFile_fold_deps (parseFile : List Char → Option ParsedFile)
    (files : List (List Char)) (context : ArchitecturalContext) (p : List Char) :
    p ∈ (files.foldl (analyzeFile parseFile) context).PackageDependencies ↔
      p ∈ context.PackageDependencies ∨
        ∃ file f, file ∈ files ∧ parseFile file = some f ∧
          p ∈ f.imports.map (fun value => stringsTrim value ['"']) := by
  induction files generalizing context with
  | nil => simp
  | cons file rest ih =>
    rw [List.foldl_cons, ih]
    cases hp : parseFile file with
    | none =>
      simp only [analyzeFile, hp]
      constructor
      · rintro (h | ⟨x, f, hx, hf, hm⟩)
        · exact Or.inl h
        · exact Or.inr ⟨x, f, List.mem_cons_of_mem _ hx, hf, hm⟩
      · rintro (h | ⟨x, f, hx, hf, hm⟩)
        · exact Or.inl h
        · rcases List.mem_cons.mp hx with rfl | hx
          · rw [hp] at hf
            exact Option.noConfusion hf
          · exact Or.inr ⟨x, f, hx, hf, hm⟩
    | some g =>
      simp only [analyzeFile, hp]
      rw [addDependencies_mem]
      constructor
      · rintro ((h | h) | ⟨x, f, hx, hf, hm⟩)
        · exact Or.inl h
        · exact Or.inr ⟨file, g, List.mem_cons_self _ _, hp, h⟩
        · exact Or.inr ⟨x, f, List.mem_cons_of_mem _ hx, hf, hm⟩
      · rintro (h | ⟨x, f, hx, hf, hm⟩)
        · exact Or.inl (Or.inl h)
        · rcases List.mem_cons.mp hx with rfl | hx
          · rw [hp] at hf
            cases hf
            exact Or.inl (Or.inr hm)
          · exact Or.inr ⟨x, f, hx, hf, hm⟩

theorem analyzeFile_fold_nodup (parseFile : List Char → Option ParsedFile)
    (files : List (List Char)) (context : ArchitecturalContext)
    (h : context.PackageDependencies.Nodup) :
    (files.foldl (analyzeFile parseFile) context).PackageDependencies.Nodup := by
  induction files generalizing context with
  | nil => simpa using h
  | cons file rest ih =>
    rw [List.foldl_cons]
    apply ih
    cases hp : parseFile file with
    | none => simpa only [analyzeFile, hp] using h
    | some g =>
      simp only [analyzeFile, hp]
      exact addDependencies_nodup _ _ h

theorem analyzeFile_fold_lookup (parseFile : List Char → Option ParsedFile)
    (files : List (List Char)) (context : ArchitecturalContext) (k : List Char) :
    (files.foldl (analyzeFile parseFile) context).ImportGraph.lookup k =
      match (if k ∈ files then parseFile k else none) with
      | some f => some (f.imports.map (fun value => stringsTrim value ['"']))
      | none => context.ImportGraph.lookup k := by
  induction files generalizing context with
  | nil => simp
  | cons file rest ih =>
    rw [List.foldl_cons, ih]
    by_cases hk : k ∈ rest
    · have hk2 : k ∈ file :: rest := List.mem_cons_of_mem _ hk
      rw [if_pos hk, if_pos hk2]
      cases hq : parseFile k with
      | some f => rfl
      | none =>
        simp only []
        cases hp : parseFile file with
        | none => simp only [analyzeFile, hp]
        | some g =>
          simp only [analyzeFile, hp]
          rw [mapSet_lookup]
          have hne : ¬ k = file := by
            intro e
            rw [e, hp] at hq
            exact Option.noConfusion hq
          rw [if_neg hne]
    · rw [if_neg hk]
      simp only []
      by_cases hkf : k = file
      · subst hkf
        rw [if_pos (List.mem_cons_self _ _)]
        cases hp : parseFile k with
        | none => simp only [analyzeFile, hp]
        | some g =>
          simp only [analyzeFile, hp]
          rw [mapSet_lookup, if_pos rfl]
      · have hk2 : ¬ k ∈ file :: rest := by
          intro hm
          rcases List.mem_cons.mp hm with h | h
          · exact hkf h
          · exact hk h
        rw [if_neg hk2]
        simp only []
        cases hp : parseFile file with
        | none => simp only [analyzeFile, hp]
        | some g =>
          simp only [analyzeFile, hp]
          rw [mapSet_lookup, if_neg hkf]

/-- C18: when the walk meets no error, `getArchitecturalContext` returns a context
whose `PackageDependencies` holds no entry twice and holds exactly the import paths
that occur in the import list of some parsed Go file, and whose `ImportGraph` maps
each parsed Go file to its own import list in the order of declaration, and no other
file to anything. -/
theorem getArchitecturalContext_dependencies (visits : List WalkEntry)
    (parseFile : List Char → Option ParsedFile) (hwalk : ∀ e ∈ visits, e.err = false) :
    ∃ lists context,
      walkTree visits { goFiles := [], DatabaseSchemas := [], ConfigFiles := [] } = some lists ∧
      getArchitecturalContext visits parseFile = some context ∧
      context.PackageDependencies.Nodup ∧
      (∀ importPath, importPath ∈ context.PackageDependencies ↔
        ∃ file f, file ∈ lists.goFiles ∧ parseFile file = some f ∧
          importPath ∈ f.imports.map (fun value => stringsTrim value ['"'])) ∧
      (∀ file f, file ∈ lists.goFiles → parseFile file = some f →
        context.ImportGraph.lookup file =
          some (f.imports.map (fun value => stringsTrim value ['"']))) ∧
      (∀ file, (context.ImportGraph.lookup file).isSome = true →
        file ∈ lists.goFiles ∧ (parseFile file).isSome = true) := by
  obtain ⟨lists, hl⟩ := walkTree_some visits
    { goFiles := [], DatabaseSchemas := [], ConfigFiles := [] } hwalk
  refine ⟨lists, lists.goFiles.foldl (analyzeFile parseFile)
      { PackageDependencies := [], ImportGraph := [], DatabaseSchemas := lists.DatabaseSchemas,
        APIEndpoints := [], ConfigFiles := lists.ConfigFiles },
    hl, by simp only [getArchitecturalContext, hl], ?_, ?_, ?_, ?_⟩
  · exact analyzeFile_fold_nodup _ _ _ List.nodup_nil
  · intro p
    rw [analyzeFile_fold_deps]
    simp
  · intro file f hfile hf
    rw [analyzeFile_fold_lookup, if_pos hfile, hf]
  · intro file h
    rw [analyzeFile_fold_lookup] at h
    by_cases hfile : file ∈ lists.goFiles
    · rw [if_pos hfile] at h
      refine ⟨hfile, ?_⟩
      cases hp : parseFile file with
      | some f => rfl
      | none =>
        rw [hp] at h
        simp [List.lookup] at h
    · rw [if_neg hfile] at h
      simp [List.lookup] at h

/-- C18 at the walk of a small repository. -/
theorem getArchitecturalContext_dependencies_witness :
    ∃ lists context,
      walkTree vendoredTree { goFiles := [], DatabaseSchemas := [], ConfigFiles := [] } =
        some lists ∧
      getArchitecturalContext vendoredTree vendoredParse = some context ∧
      context.PackageDependencies.Nodup ∧
      (∀ importPath, importPath ∈ context.PackageDependencies ↔
        ∃ file f, file ∈ lists.goFiles ∧ vendoredParse file = some f ∧
          importPath ∈ f.imports.map (fun value => stringsTrim value ['"'])) ∧
      (∀ file f, file ∈ lists.goFiles → vendoredParse file = some f →
        context.ImportGraph.lookup file =
          some (f.imports.map (fun value => stringsTrim value ['"']))) ∧
      (∀ file, (context.ImportGraph.lookup file).isSome = true →
        file ∈ lists.goFiles ∧ (vendoredParse file).isSome = true) :=
  getArchitecturalContext_dependencies vendoredTree vendoredParse (by decide)

/-- C19, failing input: in the walk of a repository with a `.git` directory, an
installed node module and a vendored package, `getArchitecturalContext` classifies
the files below all three: the vendored Go file is parsed and becomes a key of
`ImportGraph`, the vendored schema is listed in `DatabaseSchemas`, and the git
configuration and the manifest of the node module are listed in `ConfigFiles`. The
walk of `detectRepoLanguages` over the same tree passes over the three directories
and reaches `repo/main.go` alone. -/
theorem getArchitecturalContext_walks_vendor :
    getArchitecturalContext vendoredTree vendoredParse =
        some
          { PackageDependencies :=
              ["fmt".toList, "net/http".toList, "lib".toList, "os".toList]
            ImportGraph :=
              [("repo/main.go".toList, ["fmt".toList, "net/http".toList, "lib".toList]),
               ("repo/vendor/lib/lib.go".toList, ["fmt".toList, "os".toList])]
            DatabaseSchemas := ["repo/vendor/lib/schema.sql".toList]
            APIEndpoints := ["/webhook".toList]
            ConfigFiles :=
              ["repo/.git/config".toList, "repo/node_modules/pkg/package.json".toList] } ∧
      underSkippedDir "repo/vendor/lib/lib.go".toList = true ∧
      underSkippedDir "repo/vendor/lib/schema.sql".toList = true ∧
      underSkippedDir "repo/.git/config".toList = true ∧
      underSkippedDir "repo/node_modules/pkg/package.json".toList = true ∧
      detectRepoLanguagesFiles none vendoredTree = some ["repo/main.go".toList] := by
  decide!

/-! ## Splitting the bundle on the separator -/

theorem isRegexSpace_of_word (c : Char) (h : isWordChar c = true) : isRegexSpace c = false := by
  cases hs : isRegexSpace c with
  | false => rfl
  | true =>
    exfalso
    simp only [isRegexSpace, Bool.or_eq_true, decide_eq_true_eq] at hs
    rcases hs with (((rfl | rfl) | rfl) | rfl) | rfl <;> exact absurd h (by decide)

theorem isWordChar_of_space (c : Char) (h : isRegexSpace c = true) : isWordChar c = false := by
  cases hw : isWordChar c with
  | false => rfl
  | true =>
    rw [isRegexSpace_of_word c hw] at h
    exact Bool.noConfusion h

theorem takeWhile_block (p : Char → Bool) (w rest : List Char) (hw : ∀ c ∈ w, p c = true)
    (hrest : ∀ c t, rest = c :: t → p c = false) : (w ++ rest).takeWhile p = w := by
  induction w with
  | nil =>
    cases rest with
    | nil => rfl
    | cons c t => simp [List.takeWhile, hrest c t rfl]
  | cons x xs ih =>
    rw [List.cons_append, List.takeWhile_cons, hw x (List.mem_cons_self _ _)]
    simp only [if_true]
    rw [ih (fun c hc => hw c (List.mem_cons_of_mem _ hc))]

theorem dropWhile_block (p : Char → Bool) (w rest : List Char) (hw : ∀ c ∈ w, p c = true)
    (hrest : ∀ c t, rest = c :: t → p c = false) : (w ++ rest).dropWhile p = rest := by
  induction w with
  | nil =>
    cases rest with
    | nil => rfl
    | cons c t => simp [List.dropWhile, hrest c t rfl]
  | cons x xs ih =>
    rw [List.cons_append, List.dropWhile_cons, hw x (List.mem_cons_self _ _)]
    simp only [if_true]
    rw [ih (fun c hc => hw c (List.mem_cons_of_mem _ hc))]

/-- The run `\w+` in front of a word followed by a character of another class. -/
theorem word1_block (w rest : List Char) (hne : w ≠ []) (hw : ∀ c ∈ w, isWordChar c = true)
    (hrest : ∀ c t, rest = c :: t → isWordChar c = false) :
    word1 (w ++ rest) = some (w, rest) := by
  cases w with
  | nil => exact absurd rfl hne
  | cons x xs =>
    have hxs : ∀ c ∈ xs, isWordChar c = true := fun c hc => hw c (List.mem_cons_of_mem _ hc)
    rw [List.cons_append, word1, if_pos (hw x (List.mem_cons_self _ _)),
      takeWhile_block _ _ _ hxs hrest, dropWhile_block _ _ _ hxs hrest]

theorem isIdentifier_iff (w : List Char) :
    isIdentifier w = true ↔ w ≠ [] ∧ ∀ c ∈ w, isWordChar c = true := by
  cases w with
  | nil => simp [isIdentifier]
  | cons x xs => simp [isIdentifier]

/-- A literal made of word characters that begins a word followed by a character of
another class lies within the word. -/
theorem literal_word_block (lit w rest : List Char) (hlit : ∀ c ∈ lit, isWordChar c = true)
    (hrest : ∀ c t, rest = c :: t → isWordChar c = false)
    (h : lit.isPrefixOf (w ++ rest) = true) : ∃ w2, w = lit ++ w2 := by
  induction lit generalizing w with
  | nil => exact ⟨w, rfl⟩
  | cons x xs ih =>
    cases w with
    | nil =>
      exfalso
      cases rest with
      | nil => simp at h
      | cons c t =>
        rw [List.nil_append, List.isPrefixOf, Bool.and_eq_true, beq_iff_eq] at h
        have h1 := hrest c t rfl
        rw [← h.1, hlit x (List.mem_cons_self _ _)] at h1
        exact Bool.noConfusion h1
    | cons y ys =>
      rw [List.cons_append, List.isPrefixOf, Bool.and_eq_true, beq_iff_eq] at h
      obtain ⟨w2, hw2⟩ := ih ys (fun c hc => hlit c (List.mem_cons_of_mem _ hc)) h.2
      exact ⟨w2, by rw [h.1, hw2]; rfl⟩

/-- A pattern that begins with a literal word followed by `\s+` does not match at
the start of a word unless the word is the literal and the text behind it matches
the rest of the pattern. -/
theorem headed_word_block (lit : List Char) (k : List Char → Option (List Char × List Char))
    (w rest : List Char) (hlit : ∀ c ∈ lit, isWordChar c = true)
    (hw : ∀ c ∈ w, isWordChar c = true)
    (hrest : ∀ c t, rest = c :: t → isWordChar c = false)
    (hk : (spaces1 rest).bind k = none) : headed lit k (w ++ rest) = none := by
  unfold headed literal
  by_cases hp : lit.isPrefixOf (w ++ rest) = true
  · rw [if_pos hp]
    obtain ⟨w2, hw2⟩ := literal_word_block lit w rest hlit hrest hp
    have hdrop : (w ++ rest).drop lit.length = w2 ++ rest := by
      rw [hw2, List.append_assoc, List.drop_left]
    simp only [Option.bind, hdrop]
    cases w2 with
    | nil => exact hk
    | cons c t =>
      have hc : isWordChar c = true := hw c (by rw [hw2]; simp)
      rw [List.cons_append, spaces1, if_neg (by rw [isRegexSpace_of_word c hc]; exact Bool.false_ne_true)]
  · rw [if_neg hp]
    rfl

theorem findAllSubmatch_step (re : List Char → Option (List Char × List Char)) (c : Char)
    (t : List Char) (h : re (c :: t) = none) :
    findAllSubmatch re 0 (c :: t) = findAllSubmatch re 0 t := by
  rw [findAllSubmatch, h]

theorem findAllSubmatch_skip (re : List Char → Option (List Char × List Char)) (s : List Char)
    (k : Nat) (h : s.length ≤ k) : findAllSubmatch re k s = [] := by
  induction s generalizing k with
  | nil => cases k <;> rfl
  | cons c t ih =>
    cases k with
    | zero => simp at h
    | succ n =>
      rw [findAllSubmatch]
      exact ih n (by simpa using h)

/-- A pattern that begins with a literal word followed by `\s+` finds nothing inside
a word behind which the rest of the pattern does not match. -/
theorem findAllSubmatch_block (lit : List Char)
    (k : List Char → Option (List Char × List Char)) (w rest : List Char)
    (hlit : ∀ c ∈ lit, isWordChar c = true) (hw : ∀ c ∈ w, isWordChar c = true)
    (hrest : ∀ c t, rest = c :: t → isWordChar c = false)
    (hk : (spaces1 rest).bind k = none) :
    findAllSubmatch (headed lit k) 0 (w ++ rest) = findAllSubmatch (headed lit k) 0 rest := by
  induction w with
  | nil => rfl
  | cons x xs ih =>
    have h := headed_word_block lit k (x :: xs) rest hlit hw hrest hk
    rw [List.cons_append] at h ⊢
    rw [findAllSubmatch_step _ _ _ h]
    exact ih (fun c hc => hw c (List.mem_cons_of_mem _ hc))

theorem word_chars_type : ∀ c ∈ "type".toList, isWordChar c = true := by decide

theorem word_chars_func : ∀ c ∈ "func".toList, isWordChar c = true := by decide

theorem word_chars_var : ∀ c ∈ "var".toList, isWordChar c = true := by decide

theorem head_of_word (w rest : List Char) (hne : w ≠ []) (hw : ∀ c ∈ w, isWordChar c = true) :
    ∀ c t, w ++ rest = c :: t → isRegexSpace c = false := by
  intro c t e
  cases w with
  | nil => exact absurd rfl hne
  | cons x xs =>
    rw [List.cons_append] at e
    cases e
    exact isRegexSpace_of_word _ (hw _ (List.mem_cons_self _ _))

theorem spaces1_single (c : Char) (rest : List Char) (hc : isRegexSpace c = true)
    (hrest : ∀ d t, rest = d :: t → isRegexSpace d = false) :
    spaces1 (c :: rest) = some rest := by
  rw [spaces1, if_pos hc]
  have h := dropWhile_block isRegexSpace [] rest (fun _ h => absurd h (List.not_mem_nil _)) hrest
  rw [List.nil_append] at h
  rw [h]

theorem methodDeclaration_pointer (r T M : List Char) :
    methodDeclaration true r T M =
      'f' :: 'u' :: 'n' :: 'c' :: ' ' :: '(' ::
        (r ++ ' ' :: '*' :: (T ++ ')' :: ' ' :: (M ++ ['(']))) := by
  simp [methodDeclaration]

theorem methodDeclaration_value (r T M : List Char) :
    methodDeclaration false r T M =
      'f' :: 'u' :: 'n' :: 'c' :: ' ' :: '(' ::
        (r ++ ' ' :: (T ++ ')' :: ' ' :: (M ++ ['(']))) := by
  simp [methodDeclaration]

theorem typeRegex_pointer (r T M : List Char) (hr : isIdentifier r = true)
    (hT : isIdentifier T = true) (hM : isIdentifier M = true) :
    findAllSubmatch typeRegex 0 (methodDeclaration true r T M) = [] := by
  rw [isIdentifier_iff] at hr hT hM
  rw [methodDeclaration_pointer]
  unfold typeRegex
  rw [findAllSubmatch_step _ _ _ (by simp [headed, literal]),
    findAllSubmatch_step _ _ _ (by simp [headed, literal]),
    findAllSubmatch_step _ _ _ (by simp [headed, literal]),
    findAllSubmatch_step _ _ _ (by simp [headed, literal]),
    findAllSubmatch_step _ _ _ (by simp [headed, literal]),
    findAllSubmatch_step _ _ _ (by simp [headed, literal]),
    findAllSubmatch_block _ _ r _ word_chars_type hr.2
      (by intro c t e; cases e; decide)
      (by simp [spaces1, isRegexSpace, typeTail, word1, isWordChar]),
    findAllSubmatch_step _ _ _ (by simp [headed, literal]),
    findAllSubmatch_step _ _ _ (by simp [headed, literal]),
    findAllSubmatch_block _ _ T _ word_chars_type hT.2
      (by intro c t e; cases e; decide)
      (by simp [spaces1, isRegexSpace]),
    findAllSubmatch_step _ _ _ (by simp [headed, literal]),
    findAllSubmatch_step _ _ _ (by simp [headed, literal]),
    findAllSubmatch_block _ _ M _ word_chars_type hM.2
      (by intro c t e; cases e; decide)
      (by simp [spaces1, isRegexSpace]),
    findAllSubmatch_step _ _ _ (by simp [headed, literal])]
  rfl

theorem typeRegex_value (r T M : List Char) (hr : isIdentifier r = true)
    (hT : isIdentifier T = true) (hM : isIdentifier M = true) :
    findAllSubmatch typeRegex 0 (methodDeclaration false r T M) = [] := by
  rw [isIdentifier_iff] at hr hT hM
  rw [methodDeclaration_value]
  unfold typeRegex
  have hk : (spaces1 (' ' :: (T ++ ')' :: ' ' :: (M ++ ['('])))).bind typeTail = none := by
    rw [spaces1_single ' ' _ (by decide) (head_of_word T _ hT.1 hT.2)]
    simp only [Option.bind, typeTail]
    rw [word1_block T _ hT.1 hT.2 (by intro c t e; cases e; decide)]
    simp [spaces1, isRegexSpace]
  rw [findAllSubmatch_step _ _ _ (by simp [headed, literal]),
    findAllSubmatch_step _ _ _ (by simp [headed, literal]),
    findAllSubmatch_step _ _ _ (by simp [headed, literal]),
    findAllSubmatch_step _ _ _ (by simp [headed, literal]),
    findAllSubmatch_step _ _ _ (by simp [headed, literal]),
    findAllSubmatch_step _ _ _ (by simp [headed, literal]),
    findAllSubmatch_block _ _ r _ word_chars_type hr.2
      (by intro c t e; cases e; decide) hk,
    findAllSubmatch_step _ _ _ (by simp [headed, literal]),
    findAllSubmatch_block _ _ T _ word_chars_type hT.2
      (by intro c t e; cases e; decide)
      (by simp [spaces1, isRegexSpace]),
    findAllSubmatch_step _ _ _ (by simp [headed, literal]),
    findAllSubmatch_step _ _ _ (by simp [headed, literal]),
    findAllSubmatch_block _ _ M _ word_chars_type hM.2
      (by intro c t e; cases e; decide)
      (by simp [spaces1, isRegexSpace]),
    findAllSubmatch_step _ _ _ (by simp [headed, literal])]
  rfl

theorem funcRegex_pointer (r T M : List Char) (hr : isIdentifier r = true)
    (hT : isIdentifier T = true) (hM : isIdentifier M = true) :
    findAllSubmatch funcRegex 0 (methodDeclaration true r T M) = [] := by
  rw [isIdentifier_iff] at hr hT hM
  rw [methodDeclaration_pointer]
  unfold funcRegex
  rw [findAllSubmatch_step _ _ _
      (by simp [headed, literal, spaces1, isRegexSpace, funcTail, word1, isWordChar]),
    findAllSubmatch_step _ _ _ (by simp [headed, literal]),
    findAllSubmatch_step _ _ _ (by simp [headed, literal]),
    findAllSubmatch_step _ _ _ (by simp [headed, literal]),
    findAllSubmatch_step _ _ _ (by simp [headed, literal]),
    findAllSubmatch_step _ _ _ (by simp [headed, literal]),
    findAllSubmatch_block _ _ r _ word_chars_func hr.2
      (by intro c t e; cases e; decide)
      (by simp [spaces1, isRegexSpace, funcTail, word1, isWordChar]),
    findAllSubmatch_step _ _ _ (by simp [headed, literal]),
    findAllSubmatch_step _ _ _ (by simp [headed, literal]),
    findAllSubmatch_block _ _ T _ word_chars_func hT.2
      (by intro c t e; cases e; decide)
      (by simp [spaces1, isRegexSpace]),
    findAllSubmatch_step _ _ _ (by simp [headed, literal]),
    findAllSubmatch_step _ _ _ (by simp [headed, literal]),
    findAllSubmatch_block _ _ M _ word_chars_func hM.2
      (by intro c t e; cases e; decide)
      (by simp [spaces1, isRegexSpace]),
    findAllSubmatch_step _ _ _ (by simp [headed, literal])]
  rfl

theorem funcRegex_value (r T M : List Char) (hr : isIdentifier r = true)
    (hT : isIdentifier T = true) (hM : isIdentifier M = true) :
    findAllSubmatch funcRegex 0 (methodDeclaration false r T M) = [] := by
  rw [isIdentifier_iff] at hr hT hM
  rw [methodDeclaration_value]
  unfold funcRegex
  have hk : (spaces1 (' ' :: (T ++ ')' :: ' ' :: (M ++ ['('])))).bind funcTail = none := by
    rw [spaces1_single ' ' _ (by decide) (head_of_word T _ hT.1 hT.2)]
    simp only [Option.bind, funcTail]
    rw [word1_block T _ hT.1 hT.2 (by intro c t e; cases e; decide)]
    simp [literal, isRegexSpace]
  rw [findAllSubmatch_step _ _ _
      (by simp [headed, literal, spaces1, isRegexSpace, funcTail, word1, isWordChar]),
    findAllSubmatch_step _ _ _ (by simp [headed, literal]),
    findAllSubmatch_step _ _ _ (by simp [headed, literal]),
    findAllSubmatch_step _ _ _ (by simp [headed, literal]),
    findAllSubmatch_step _ _ _ (by simp [headed, literal]),
    findAllSubmatch_step _ _ _ (by simp [headed, literal]),
    findAllSubmatch_block _ _ r _ word_chars_func hr.2
      (by intro c t e; cases e; decide) hk,
    findAllSubmatch_step _ _ _ (by simp [headed, literal]),
    findAllSubmatch_block _ _ T _ word_chars_func hT.2
      (by intro c t e; cases e; decide)
      (by simp [spaces1, isRegexSpace]),
    findAllSubmatch_step _ _ _ (by simp [headed, literal]),
    findAllSubmatch_step _ _ _ (by simp [headed, literal]),
    findAllSubmatch_block _ _ M _ word_chars_func hM.2
      (by intro c t e; cases e; decide)
      (by simp [spaces1, isRegexSpace]),
    findAllSubmatch_step _ _ _ (by simp [headed, literal])]
  rfl

theorem varRegex_pointer (r T M : List Char) (hr : isIdentifier r = true)
    (hT : isIdentifier T = true) (hM : isIdentifier M = true) :
    findAllSubmatch varRegex 0 (methodDeclaration true r T M) = [] := by
  rw [isIdentifier_iff] at hr hT hM
  rw [methodDeclaration_pointer]
  unfold varRegex
  rw [findAllSubmatch_step _ _ _ (by simp [headed, literal]),
    findAllSubmatch_step _ _ _ (by simp [headed, literal]),
    findAllSubmatch_step _ _ _ (by simp [headed, literal]),
    findAllSubmatch_step _ _ _ (by simp [headed, literal]),
    findAllSubmatch_step _ _ _ (by simp [headed, literal]),
    findAllSubmatch_step _ _ _ (by simp [headed, literal]),
    findAllSubmatch_block _ _ r _ word_chars_var hr.2
      (by intro c t e; cases e; decide)
      (by simp [spaces1, isRegexSpace, varTail, word1, isWordChar]),
    findAllSubmatch_step _ _ _ (by simp [headed, literal]),
    findAllSubmatch_step _ _ _ (by simp [headed, literal]),
    findAllSubmatch_block _ _ T _ word_chars_var hT.2
      (by intro c t e; cases e; decide)
      (by simp [spaces1, isRegexSpace]),
    findAllSubmatch_step _ _ _ (by simp [headed, literal]),
    findAllSubmatch_step _ _ _ (by simp [headed, literal]),
    findAllSubmatch_block _ _ M _ word_chars_var hM.2
      (by intro c t e; cases e; decide)
      (by simp [spaces1, isRegexSpace]),
    findAllSubmatch_step _ _ _ (by simp [headed, literal])]
  rfl

theorem varRegex_value (r T M : List Char) (hr : isIdentifier r = true)
    (hT : isIdentifier T = true) (hM : isIdentifier M = true) :
    findAllSubmatch varRegex 0 (methodDeclaration false r T M) = [] := by
  rw [isIdentifier_iff] at hr hT hM
  rw [methodDeclaration_value]
  unfold varRegex
  have hk : (spaces1 (' ' :: (T ++ ')' :: ' ' :: (M ++ ['('])))).bind varTail = none := by
    rw [spaces1_single ' ' _ (by decide) (head_of_word T _ hT.1 hT.2)]
    simp only [Option.bind, varTail]
    rw [word1_block T _ hT.1 hT.2 (by intro c t e; cases e; decide)]
    simp [spaces1, isRegexSpace]
  rw [findAllSubmatch_step _ _ _ (by simp [headed, literal]),
    findAllSubmatch_step _ _ _ (by simp [headed, literal]),
    findAllSubmatch_step _ _ _ (by simp [headed, literal]),
    findAllSubmatch_step _ _ _ (by simp [headed, literal]),
    findAllSubmatch_step _ _ _ (by simp [headed, literal]),
    findAllSubmatch_step _ _ _ (by simp [headed, literal]),
    findAllSubmatch_block _ _ r _ word_chars_var hr.2
      (by intro c t e; cases e; decide) hk,
    findAllSubmatch_step _ _ _ (by simp [headed, literal]),
    findAllSubmatch_block _ _ T _ word_chars_var hT.2
      (by intro c t e; cases e; decide)
      (by simp [spaces1, isRegexSpace]),
    findAllSubmatch_step _ _ _ (by simp [headed, literal]),
    findAllSubmatch_step _ _ _ (by simp [headed, literal]),
    findAllSubmatch_block _ _ M _ word_chars_var hM.2
      (by intro c t e; cases e; decide)
      (by simp [spaces1, isRegexSpace]),
    findAllSubmatch_step _ _ _ (by simp [headed, literal])]
  rfl

theorem literal_star_word (w rest : List Char) (hne : w ≠ [])
    (hw : ∀ c ∈ w, isWordChar c = true) : literal "*".toList (w ++ rest) = none := by
  cases w with
  | nil => exact absurd rfl hne
  | cons x xs =>
    have hx : ('*' == x) = false := by
      rw [beq_eq_false_iff_ne]
      intro e
      have h := hw x (List.mem_cons_self _ _)
      rw [← e] at h
      exact absurd h (by decide)
    simp [literal, List.isPrefixOf, hx]

theorem methodRegex_pointer (r T M : List Char) (hr : isIdentifier r = true)
    (hT : isIdentifier T = true) (hM : isIdentifier M = true) :
    methodRegex (methodDeclaration true r T M) = some (T, []) := by
  rw [isIdentifier_iff] at hr hT hM
  rw [methodDeclaration_pointer]
  have h1 : literal "func".toList
      ('f' :: 'u' :: 'n' :: 'c' :: ' ' :: '(' ::
        (r ++ ' ' :: '*' :: (T ++ ')' :: ' ' :: (M ++ ['('])))) =
      some (' ' :: '(' :: (r ++ ' ' :: '*' :: (T ++ ')' :: ' ' :: (M ++ ['('])))) := by
    simp [literal]
  have h2 : spaces1 (' ' :: '(' :: (r ++ ' ' :: '*' :: (T ++ ')' :: ' ' :: (M ++ ['('])))) =
      some ('(' :: (r ++ ' ' :: '*' :: (T ++ ')' :: ' ' :: (M ++ ['('])))) :=
    spaces1_single _ _ (by decide) (by intro c t e; cases e; decide)
  have h3 : literal "(".toList ('(' :: (r ++ ' ' :: '*' :: (T ++ ')' :: ' ' :: (M ++ ['('])))) =
      some (r ++ ' ' :: '*' :: (T ++ ')' :: ' ' :: (M ++ ['(']))) := by
    simp [literal]
  have h4 := word1_block r (' ' :: '*' :: (T ++ ')' :: ' ' :: (M ++ ['(']))) hr.1 hr.2
    (by intro c t e; cases e; decide)
  have h5 : spaces1 (' ' :: '*' :: (T ++ ')' :: ' ' :: (M ++ ['(']))) =
      some ('*' :: (T ++ ')' :: ' ' :: (M ++ ['(']))) :=
    spaces1_single _ _ (by decide) (by intro c t e; cases e; decide)
  have h6 : literal "*".toList ('*' :: (T ++ ')' :: ' ' :: (M ++ ['(']))) =
      some (T ++ ')' :: ' ' :: (M ++ ['('])) := by
    simp [literal]
  have h7 := word1_block T (')' :: ' ' :: (M ++ ['('])) hT.1 hT.2
    (by intro c t e; cases e; decide)
  have h8 : literal ")".toList (')' :: ' ' :: (M ++ ['('])) = some (' ' :: (M ++ ['('])) := by
    simp [literal]
  have h9 : spaces1 (' ' :: (M ++ ['('])) = some (M ++ ['(']) :=
    spaces1_single _ _ (by decide) (head_of_word M _ hM.1 hM.2)
  have h10 := word1_block M ['('] hM.1 hM.2 (by intro c t e; cases e; decide)
  have h11 : literal "(".toList ['('] = some [] := by decide
  simp only [methodRegex, headed, methodTail, Option.bind, h1, h2, h3, h4, h5, h6, h7, h8, h9,
    h10, h11, Option.getD]

theorem methodRegex_value (r T M : List Char) (hr : isIdentifier r = true)
    (hT : isIdentifier T = true) (hM : isIdentifier M = true) :
    methodRegex (methodDeclaration false r T M) = some (T, []) := by
  rw [isIdentifier_iff] at hr hT hM
  rw [methodDeclaration_value]
  have h1 : literal "func".toList
      ('f' :: 'u' :: 'n' :: 'c' :: ' ' :: '(' ::
        (r ++ ' ' :: (T ++ ')' :: ' ' :: (M ++ ['('])))) =
      some (' ' :: '(' :: (r ++ ' ' :: (T ++ ')' :: ' ' :: (M ++ ['('])))) := by
    simp [literal]
  have h2 : spaces1 (' ' :: '(' :: (r ++ ' ' :: (T ++ ')' :: ' ' :: (M ++ ['('])))) =
      some ('(' :: (r ++ ' ' :: (T ++ ')' :: ' ' :: (M ++ ['('])))) :=
    spaces1_single _ _ (by decide) (by intro c t e; cases e; decide)
  have h3 : literal "(".toList ('(' :: (r ++ ' ' :: (T ++ ')' :: ' ' :: (M ++ ['('])))) =
      some (r ++ ' ' :: (T ++ ')' :: ' ' :: (M ++ ['(']))) := by
    simp [literal]
  have h4 := word1_block r (' ' :: (T ++ ')' :: ' ' :: (M ++ ['(']))) hr.1 hr.2
    (by intro c t e; cases e; decide)
  have h5 : spaces1 (' ' :: (T ++ ')' :: ' ' :: (M ++ ['(']))) =
      some (T ++ ')' :: ' ' :: (M ++ ['('])) :=
    spaces1_single _ _ (by decide) (head_of_word T _ hT.1 hT.2)
  have h6 := literal_star_word T (')' :: ' ' :: (M ++ ['('])) hT.1 hT.2
  have h7 := word1_block T (')' :: ' ' :: (M ++ ['('])) hT.1 hT.2
    (by intro c t e; cases e; decide)
  have h8 : literal ")".toList (')' :: ' ' :: (M ++ ['('])) = some (' ' :: (M ++ ['('])) := by
    simp [literal]
  have h9 : spaces1 (' ' :: (M ++ ['('])) = some (M ++ ['(']) :=
    spaces1_single _ _ (by decide) (head_of_word M _ hM.1 hM.2)
  have h10 := word1_block M ['('] hM.1 hM.2 (by intro c t e; cases e; decide)
  have h11 : literal "(".toList ['('] = some [] := by decide
  simp only [methodRegex, headed, methodTail, Option.bind, h1, h2, h3, h4, h5, h6, h7, h8, h9,
    h10, h11, Option.getD]

theorem findAllSubmatch_whole (re : List Char → Option (List Char × List Char))
    (s w : List Char) (hs : s ≠ []) (h : re s = some (w, [])) :
    findAllSubmatch re 0 s = [w] := by
  cases s with
  | nil => exact absurd rfl hs
  | cons c t =>
    rw [findAllSubmatch, h]
    simp only [List.length_cons, List.length_nil, Nat.sub_zero, Nat.add_sub_cancel]
    rw [findAllSubmatch_skip _ _ _ (Nat.le_refl _)]

theorem methodDeclaration_ne_nil (pointer : Bool) (r T M : List Char) :
    methodDeclaration pointer r T M ≠ [] := by
  simp [methodDeclaration]

/-- C12: for a diff that is a single method declaration `func (r *T) M(` or
`func (r T) M(` with word identifiers `r`, `T`, `M`, the identifiers extracted are the
receiver type `T` and nothing else; so `T` is extracted and, when `M` differs from
`T`, `M` is not. -/
theorem extractIdentifiers_method (pointer : Bool) (r T M : List Char)
    (hr : isIdentifier r = true) (hT : isIdentifier T = true) (hM : isIdentifier M = true)
    (hne : T ≠ M) :
    extractIdentifiers (methodDeclaration pointer r T M) = [T] ∧
      T ∈ extractIdentifiers (methodDeclaration pointer r T M) ∧
      M ∉ extractIdentifiers (methodDeclaration pointer r T M) := by
  have h : extractIdentifiers (methodDeclaration pointer r T M) = [T] := by
    unfold extractIdentifiers
    cases pointer with
    | true =>
      rw [typeRegex_pointer r T M hr hT hM, funcRegex_pointer r T M hr hT hM,
        varRegex_pointer r T M hr hT hM,
        findAllSubmatch_whole _ _ T (methodDeclaration_ne_nil _ _ _ _)
          (methodRegex_pointer r T M hr hT hM)]
      rfl
    | false =>
      rw [typeRegex_value r T M hr hT hM, funcRegex_value r T M hr hT hM,
        varRegex_value r T M hr hT hM,
        findAllSubmatch_whole _ _ T (methodDeclaration_ne_nil _ _ _ _)
          (methodRegex_value r T M hr hT hM)]
      rfl
  rw [h]
  refine ⟨rfl, List.mem_singleton.mpr rfl, ?_⟩
  intro hm
  exact hne (List.mem_singleton.mp hm).symm

/-- C12 at the declaration `func (s *Server) Run(`. -/
theorem extractIdentifiers_method_witness :
    extractIdentifiers (methodDeclaration true "s".toList "Server".toList "Run".toList) =
        ["Server".toList] ∧
      "Server".toList ∈
        extractIdentifiers (methodDeclaration true "s".toList "Server".toList "Run".toList) ∧
      "Run".toList ∉
        extractIdentifiers (methodDeclaration true "s".toList "Server".toList "Run".toList) :=
  extractIdentifiers_method true "s".toList "Server".toList "Run".toList
    (by decide) (by decide) (by decide) (by decide)

/-! ### Matches do not run into a later declaration -/

theorem suffix_ends (a u v : List Char) (z : Char) (ha : a = v ++ [z]) (hu : u <:+ a)
    (hne : u ≠ []) : ∃ v2, u = v2 ++ [z] := by
  obtain ⟨p, hp⟩ := hu
  have hsplit : u = u.dropLast ++ [u.getLast hne] := (List.dropLast_append_getLast hne).symm
  refine ⟨u.dropLast, ?_⟩
  have h1 : (p ++ u.dropLast) ++ [u.getLast hne] = v ++ [z] := by
    rw [List.append_assoc, ← hsplit, hp, ha]
  have h2 := (List.append_inj' h1 rfl).2
  rw [List.cons.injEq] at h2
  rw [← h2.1]
  exact hsplit

theorem dropWhile_append_head (p : Char → Bool) (u X : List Char)
    (hX : ∀ c t, X = c :: t → p c = false) :
    (u ++ X).dropWhile p = u.dropWhile p ++ X := by
  induction u with
  | nil =>
    cases X with
    | nil => rfl
    | cons c t => simp [List.dropWhile, hX c t rfl]
  | cons c t ih =>
    rw [List.cons_append, List.dropWhile_cons, List.dropWhile_cons]
    cases hc : p c with
    | true => simpa using ih
    | false => simp

theorem dropWhile_append_of_mem (p : Char → Bool) (u X : List Char)
    (h : ∃ c ∈ u, p c = false) :
    (u ++ X).dropWhile p = u.dropWhile p ++ X ∧ u.dropWhile p ≠ [] := by
  induction u with
  | nil =>
    obtain ⟨c, hc, _⟩ := h
    exact absurd hc (List.not_mem_nil _)
  | cons c t ih =>
    rw [List.cons_append, List.dropWhile_cons, List.dropWhile_cons]
    cases hc : p c with
    | true =>
      simp only [if_true]
      apply ih
      obtain ⟨d, hd, hpd⟩ := h
      rcases List.mem_cons.mp hd with rfl | hd
      · rw [hc] at hpd
        exact Bool.noConfusion hpd
      · exact ⟨d, hd, hpd⟩
    | false => simp

/-- A literal word read in front of a text that ends outside `\w` lies within that
text. -/
theorem literal_above (lit u X s v : List Char) (z : Char)
    (hlit : ∀ c ∈ lit, isWordChar c = true) (hu : u = v ++ [z]) (hz : isWordChar z = false)
    (h : literal lit (u ++ X) = some s) : ∃ u2, u = lit ++ u2 ∧ s = u2 ++ X := by
  unfold literal at h
  by_cases hp : lit.isPrefixOf (u ++ X) = true
  · rw [if_pos hp] at h
    have h1 : lit <+: u ++ X := (isPrefixOf_true_iff _ _).1 hp
    rcases List.prefix_or_prefix_of_prefix h1 (List.prefix_append u X) with h2 | h2
    · obtain ⟨u2, hu2⟩ := h2
      refine ⟨u2, hu2.symm, ?_⟩
      rw [← Option.some_inj.mp h, ← hu2, List.append_assoc, List.drop_left]
    · exfalso
      have hzu : z ∈ u := by rw [hu]; simp
      have hzl : z ∈ lit := h2.subset hzu
      rw [hlit z hzl] at hz
      exact Bool.noConfusion hz
  · rw [if_neg hp] at h
    exact Option.noConfusion h

/-- The run `\s+` read in front of a text followed by a character that is no white
space stays within that text, and takes all of it only when all of it is white
space. -/
theorem spaces1_above (u X s : List Char) (hX : ∀ c t, X = c :: t → isRegexSpace c = false)
    (hXne : X ≠ []) (h : spaces1 (u ++ X) = some s) :
    ∃ u2, u2 <:+ u ∧ s = u2 ++ X ∧ (u2 = [] → ∀ c ∈ u, isRegexSpace c = true) := by
  cases u with
  | nil =>
    exfalso
    cases X with
    | nil => exact hXne rfl
    | cons c t =>
      rw [List.nil_append, spaces1, hX c t rfl] at h
      simp at h
  | cons c t =>
    rw [List.cons_append, spaces1] at h
    by_cases hc : isRegexSpace c = true
    · rw [if_pos hc, dropWhile_append_head _ _ _ hX] at h
      refine ⟨t.dropWhile isRegexSpace,
        (List.dropWhile_suffix _).trans (List.suffix_cons c t), (Option.some_inj.mp h).symm, ?_⟩
      intro hnil d hd
      rcases List.mem_cons.mp hd with e | hd2
      · rw [e]
        exact hc
      · exact (List.dropWhile_eq_nil_iff.mp hnil) d hd2
    · rw [if_neg hc] at h
      exact Option.noConfusion h

/-- The run `\w+` read in front of a text that ends outside `\w` stops within that
text. -/
theorem word1_above (u X v : List Char) (z : Char) (m : List Char × List Char)
    (hu : u = v ++ [z]) (hz : isWordChar z = false) (h : word1 (u ++ X) = some m) :
    ∃ u2, u2 <:+ u ∧ u2 ≠ [] ∧ m.2 = u2 ++ X := by
  cases u with
  | nil => simp at hu
  | cons c t =>
    rw [List.cons_append, word1] at h
    by_cases hc : isWordChar c = true
    · rw [if_pos hc] at h
      have hzt : ∃ d ∈ t, isWordChar d = false := by
        have hzm : z ∈ c :: t := by rw [hu]; simp
        rcases List.mem_cons.mp hzm with e | hm
        · rw [e, hc] at hz
          exact Bool.noConfusion hz
        · exact ⟨z, hm, hz⟩
      obtain ⟨h1, h2⟩ := dropWhile_append_of_mem isWordChar t X hzt
      refine ⟨t.dropWhile isWordChar,
        (List.dropWhile_suffix _).trans (List.suffix_cons c t), h2, ?_⟩
      rw [← Option.some_inj.mp h, h1]
    · rw [if_neg hc] at h
      exact Option.noConfusion h

theorem length_above (u X s : List Char) (h : s = u ++ X) : X.length ≤ s.length := by
  rw [h, List.length_append]
  exact Nat.le_add_left _ _

theorem word_chars_struct : ∀ c ∈ "struct".toList, isWordChar c = true := by decide

/-- `typeRegex` matches at the text `type A struct` and captures `A`. -/
theorem typeRegex_at (A post : List Char) (hA : isIdentifier A = true) :
    typeRegex ('t' :: 'y' :: 'p' :: 'e' :: ' ' ::
      (A ++ ' ' :: 's' :: 't' :: 'r' :: 'u' :: 'c' :: 't' :: post)) = some (A, post) := by
  rw [isIdentifier_iff] at hA
  have h1 : literal "type".toList ('t' :: 'y' :: 'p' :: 'e' :: ' ' ::
      (A ++ ' ' :: 's' :: 't' :: 'r' :: 'u' :: 'c' :: 't' :: post)) =
      some (' ' :: (A ++ ' ' :: 's' :: 't' :: 'r' :: 'u' :: 'c' :: 't' :: post)) := by
    simp [literal]
  have h2 : spaces1 (' ' :: (A ++ ' ' :: 's' :: 't' :: 'r' :: 'u' :: 'c' :: 't' :: post)) =
      some (A ++ ' ' :: 's' :: 't' :: 'r' :: 'u' :: 'c' :: 't' :: post) :=
    spaces1_single _ _ (by decide) (head_of_word A _ hA.1 hA.2)
  have h3 := word1_block A (' ' :: 's' :: 't' :: 'r' :: 'u' :: 'c' :: 't' :: post) hA.1 hA.2
    (by intro c t e; cases e; decide)
  have h4 : spaces1 (' ' :: 's' :: 't' :: 'r' :: 'u' :: 'c' :: 't' :: post) =
      some ('s' :: 't' :: 'r' :: 'u' :: 'c' :: 't' :: post) :=
    spaces1_single _ _ (by decide) (by intro c t e; cases e; decide)
  have h5 : literal "struct".toList ('s' :: 't' :: 'r' :: 'u' :: 'c' :: 't' :: post) =
      some post := by
    simp [literal]
  simp only [typeRegex, headed, typeTail, Option.bind, h1, h2, h3, h4, h5]

/-- A match of `typeRegex` that starts in a text ending outside `\w` does not run
into a following `type A struct`, provided `A` does not begin with `struct` when the
text ends with white space. -/
theorem typeRegex_no_overlap (A post u v : List Char) (z : Char) (m : List Char × List Char)
    (hA : isIdentifier A = true)
    (hstruct : isRegexSpace z = true → stringsHasPrefix A "struct".toList = false)
    (hu : u = v ++ [z]) (hz : isWordChar z = false)
    (h : typeRegex (u ++ 't' :: 'y' :: 'p' :: 'e' :: ' ' ::
      (A ++ ' ' :: 's' :: 't' :: 'r' :: 'u' :: 'c' :: 't' :: post)) = some m) :
    ('t' :: 'y' :: 'p' :: 'e' :: ' ' ::
      (A ++ ' ' :: 's' :: 't' :: 'r' :: 'u' :: 'c' :: 't' :: post)).length ≤ m.2.length := by
  have hA2 := (isIdentifier_iff A).1 hA
  generalize hX : ('t' :: 'y' :: 'p' :: 'e' :: ' ' ::
      (A ++ ' ' :: 's' :: 't' :: 'r' :: 'u' :: 'c' :: 't' :: post)) = X at h ⊢
  have hXs : ∀ c t, X = c :: t → isRegexSpace c = false := by
    intro c t e
    rw [← hX] at e
    cases e
    decide
  have hXne : X ≠ [] := by
    rw [← hX]
    exact List.cons_ne_nil _ _
  simp only [typeRegex, headed, typeTail, Option.bind_eq_some] at h
  obtain ⟨s1, h1, s2, h2, w, h3, s4, h4, s5, h5, hm⟩ := h
  obtain ⟨u1, hu1, hs1⟩ := literal_above _ u X s1 v z word_chars_type hu hz h1
  rw [hs1] at h2
  obtain ⟨u2, hu2, hs2, hall⟩ := spaces1_above u1 X s2 hXs hXne h2
  rw [hs2] at h3
  have hu1u : u1 <:+ u := ⟨"type".toList, hu1.symm⟩
  have hu2u : u2 <:+ u := hu2.trans hu1u
  by_cases hu2e : u2 = []
  · exfalso
    have hu1ne : u1 ≠ [] := by
      intro e
      rw [e, List.append_nil] at hu1
      have hzm : z ∈ "type".toList := by
        rw [← hu1, hu]
        simp
      rw [word_chars_type z hzm] at hz
      exact Bool.noConfusion hz
    obtain ⟨v1, hv1⟩ := suffix_ends u u1 v z hu hu1u hu1ne
    have hzs : isRegexSpace z = true := hall hu2e z (by rw [hv1]; simp)
    have hstruct := hstruct hzs
    rw [hu2e, List.nil_append, ← hX] at h3
    have hw := word1_block "type".toList
      (' ' :: (A ++ ' ' :: 's' :: 't' :: 'r' :: 'u' :: 'c' :: 't' :: post)) (by decide)
      word_chars_type (by intro c t e; cases e; decide)
    have hw2 : word1 ('t' :: 'y' :: 'p' :: 'e' :: ' ' ::
        (A ++ ' ' :: 's' :: 't' :: 'r' :: 'u' :: 'c' :: 't' :: post)) =
        some ("type".toList, ' ' :: (A ++ ' ' :: 's' :: 't' :: 'r' :: 'u' :: 'c' :: 't' :: post)) :=
      hw
    rw [hw2] at h3
    rw [← Option.some_inj.mp h3] at h4
    have h4b : spaces1 (' ' :: (A ++ ' ' :: 's' :: 't' :: 'r' :: 'u' :: 'c' :: 't' :: post)) =
        some (A ++ ' ' :: 's' :: 't' :: 'r' :: 'u' :: 'c' :: 't' :: post) :=
      spaces1_single _ _ (by decide) (head_of_word A _ hA2.1 hA2.2)
    rw [show (("type".toList, ' ' :: (A ++ ' ' :: 's' :: 't' :: 'r' :: 'u' :: 'c' :: 't' :: post)) :
        List Char × List Char).2 = ' ' :: (A ++ ' ' :: 's' :: 't' :: 'r' :: 'u' :: 'c' :: 't' :: post)
        from rfl, h4b] at h4
    rw [← Option.some_inj.mp h4] at h5
    unfold literal at h5
    by_cases hp : "struct".toList.isPrefixOf
        (A ++ ' ' :: 's' :: 't' :: 'r' :: 'u' :: 'c' :: 't' :: post) = true
    · rw [isPrefixOf_append_cons_of_not_mem ' ' "struct".toList A _ (by decide)] at hp
      unfold stringsHasPrefix at hstruct
      rw [hp] at hstruct
      exact Bool.noConfusion hstruct
    · rw [if_neg hp] at h5
      exact Option.noConfusion h5
  · obtain ⟨v2, hv2⟩ := suffix_ends u u2 v z hu hu2u hu2e
    obtain ⟨u3, hu3, hu3ne, hs3⟩ := word1_above u2 X v2 z w hv2 hz h3
    rw [hs3] at h4
    obtain ⟨u4, hu4, hs4, _⟩ := spaces1_above u3 X s4 hXs hXne h4
    rw [hs4] at h5
    have hu4u : u4 <:+ u := (hu4.trans hu3).trans hu2u
    by_cases hu4e : u4 = []
    · exfalso
      rw [hu4e, List.nil_append, ← hX] at h5
      simp [literal] at h5
    · obtain ⟨v4, hv4⟩ := suffix_ends u u4 v z hu hu4u hu4e
      obtain ⟨u5, _, hs5⟩ := literal_above _ u4 X s5 v4 z word_chars_struct hv4 hz h5
      rw [← Option.some_inj.mp hm]
      exact length_above u5 X s5 hs5

/-- Every match is found when the matches that start before it end before it. -/
theorem findAllSubmatch_reach (re : List Char → Option (List Char × List Char))
    (X w restX : List Char) (hX : re X = some (w, restX)) (hXne : X ≠ []) (a : List Char)
    (k : Nat) (hk : k ≤ a.length)
    (h : ∀ a1 a2 m, a = a1 ++ a2 → a2 ≠ [] → re (a2 ++ X) = some m → X.length ≤ m.2.length) :
    w ∈ findAllSubmatch re k (a ++ X) := by
  induction a generalizing k with
  | nil =>
    have hk0 : k = 0 := by simpa using hk
    cases X with
    | nil => exact absurd rfl hXne
    | cons c t =>
      rw [hk0, List.nil_append, findAllSubmatch, hX]
      exact List.mem_cons_self _ _
  | cons c t ih =>
    have hrest : ∀ a1 a2 m, t = a1 ++ a2 → a2 ≠ [] → re (a2 ++ X) = some m →
        X.length ≤ m.2.length :=
      fun a1 a2 m e hne hm => h (c :: a1) a2 m (by rw [e]; rfl) hne hm
    cases k with
    | succ n =>
      rw [List.cons_append, findAllSubmatch]
      exact ih n (by simpa using hk) hrest
    | zero =>
      rw [List.cons_append, findAllSubmatch]
      cases hm : re (c :: (t ++ X)) with
      | none => exact ih 0 (Nat.zero_le _) hrest
      | some m =>
        have hlen := h [] (c :: t) m rfl (List.cons_ne_nil _ _) hm
        apply List.mem_cons_of_mem
        apply ih _ _ hrest
        simp only [List.length_cons, List.length_append]
        omega

/-- `funcRegex` matches at the text `func B(` and captures `B`. -/
theorem funcRegex_at (B post : List Char) (hB : isIdentifier B = true) :
    funcRegex ('f' :: 'u' :: 'n' :: 'c' :: ' ' :: (B ++ '(' :: post)) = some (B, post) := by
  rw [isIdentifier_iff] at hB
  have h1 : literal "func".toList ('f' :: 'u' :: 'n' :: 'c' :: ' ' :: (B ++ '(' :: post)) =
      some (' ' :: (B ++ '(' :: post)) := by
    simp [literal]
  have h2 : spaces1 (' ' :: (B ++ '(' :: post)) = some (B ++ '(' :: post) :=
    spaces1_single _ _ (by decide) (head_of_word B _ hB.1 hB.2)
  have h3 := word1_block B ('(' :: post) hB.1 hB.2 (by intro c t e; cases e; decide)
  have h4 : literal "(".toList (('(' :: post).dropWhile isRegexSpace) = some post := by
    simp [literal, List.dropWhile, isRegexSpace]
  simp only [funcRegex, headed, funcTail, Option.bind, h1, h2, h3, h4]

theorem literal_paren_word (w rest : List Char) (hne : w ≠ [])
    (hw : ∀ c ∈ w, isWordChar c = true) : literal "(".toList (w ++ rest) = none := by
  cases w with
  | nil => exact absurd rfl hne
  | cons x xs =>
    have hx : ('(' == x) = false := by
      rw [beq_eq_false_iff_ne]
      intro e
      have h := hw x (List.mem_cons_self _ _)
      rw [← e] at h
      exact absurd h (by decide)
    simp [literal, List.isPrefixOf, hx]

/-- A match of `funcRegex` that starts before a text `func B(` does not run into
it. -/
theorem funcRegex_no_overlap (B post u : List Char) (m : List Char × List Char)
    (hB : isIdentifier B = true) (hu : u ≠ [])
    (h : funcRegex (u ++ 'f' :: 'u' :: 'n' :: 'c' :: ' ' :: (B ++ '(' :: post)) = some m) :
    ('f' :: 'u' :: 'n' :: 'c' :: ' ' :: (B ++ '(' :: post)).length ≤ m.2.length := by
  have hB2 := (isIdentifier_iff B).1 hB
  simp only [funcRegex, headed, funcTail, Option.bind_eq_some] at h
  obtain ⟨s1, h1, s2, h2, w, h3, s4, h4, hm⟩ := h
  have hfirst : ∃ u1, s1 = u1 ++ 'f' :: 'u' :: 'n' :: 'c' :: ' ' :: (B ++ '(' :: post) := by
    rcases u with _ | ⟨c1, _ | ⟨c2, _ | ⟨c3, _ | ⟨c4, u1⟩⟩⟩⟩
    · exact absurd rfl hu
    · exfalso
      simp [literal, List.isPrefixOf] at h1
    · exfalso
      simp [literal, List.isPrefixOf] at h1
    · exfalso
      simp [literal, List.isPrefixOf] at h1
    · refine ⟨u1, ?_⟩
      unfold literal at h1
      by_cases hp : "func".toList.isPrefixOf
          (c1 :: c2 :: c3 :: c4 :: u1 ++ 'f' :: 'u' :: 'n' :: 'c' :: ' ' :: (B ++ '(' :: post)) = true
      · rw [if_pos hp] at h1
        rw [← Option.some_inj.mp h1]
        rfl
      · rw [if_neg hp] at h1
        exact Option.noConfusion h1
  obtain ⟨u1, hs1⟩ := hfirst
  generalize hX : ('f' :: 'u' :: 'n' :: 'c' :: ' ' :: (B ++ '(' :: post)) = X at hs1 ⊢
  have hXs : ∀ c t, X = c :: t → isRegexSpace c = false := by
    intro c t e
    rw [← hX] at e
    cases e
    decide
  have hXne : X ≠ [] := by
    rw [← hX]
    exact List.cons_ne_nil _ _
  rw [hs1] at h2
  obtain ⟨u2, _, hs2, _⟩ := spaces1_above u1 X s2 hXs hXne h2
  rw [hs2] at h3
  have hmid : ∃ u3, u3 ≠ [] ∧ w.2 = u3 ++ X := by
    by_cases hall : ∀ c ∈ u2, isWordChar c = true
    · exfalso
      have hw := word1_block (u2 ++ "func".toList) (' ' :: (B ++ '(' :: post)) (by simp)
        (by
          intro c hc
          rcases List.mem_append.mp hc with h | h
          · exact hall c h
          · exact word_chars_func c h)
        (by intro c t e; cases e; decide)
      have he : u2 ++ "func".toList ++ ' ' :: (B ++ '(' :: post) = u2 ++ X := by
        rw [← hX, List.append_assoc]
        rfl
      rw [he, h3] at hw
      have hw2 : w.2 = ' ' :: (B ++ '(' :: post) := by
        rw [Option.some_inj.mp hw]
      rw [hw2] at h4
      have hd : (' ' :: (B ++ '(' :: post)).dropWhile isRegexSpace = B ++ '(' :: post := by
        have := dropWhile_block isRegexSpace [' '] (B ++ '(' :: post) (by decide)
          (head_of_word B _ hB2.1 hB2.2)
        exact this
      rw [hd, literal_paren_word B _ hB2.1 hB2.2] at h4
      exact Option.noConfusion h4
    · have hex : ∃ c ∈ u2, isWordChar c = false := by
        by_contra hno
        apply hall
        intro c hc
        cases hcw : isWordChar c with
        | true => rfl
        | false => exact absurd ⟨c, hc, hcw⟩ hno
      cases u2 with
      | nil =>
        obtain ⟨c, hc, _⟩ := hex
        exact absurd hc (List.not_mem_nil _)
      | cons c t =>
        rw [List.cons_append, word1] at h3
        by_cases hc : isWordChar c = true
        · rw [if_pos hc] at h3
          have hext : ∃ d ∈ t, isWordChar d = false := by
            obtain ⟨d, hd, hdw⟩ := hex
            rcases List.mem_cons.mp hd with e | hd2
            · rw [e, hc] at hdw
              exact Bool.noConfusion hdw
            · exact ⟨d, hd2, hdw⟩
          obtain ⟨hd1, hd2⟩ := dropWhile_append_of_mem isWordChar t X hext
          refine ⟨t.dropWhile isWordChar, hd2, ?_⟩
          rw [← Option.some_inj.mp h3, hd1]
        · rw [if_neg hc] at h3
          exact Option.noConfusion h3
  obtain ⟨u3, hu3, hs3⟩ := hmid
  rw [hs3, dropWhile_append_head _ _ _ hXs] at h4
  rw [← Option.some_inj.mp hm]
  cases hu4 : u3.dropWhile isRegexSpace with
  | nil =>
    exfalso
    rw [hu4, List.nil_append, ← hX] at h4
    simp [literal] at h4
  | cons c t =>
    rw [hu4] at h4
    unfold literal at h4
    by_cases hp : "(".toList.isPrefixOf (c :: t ++ X) = true
    · rw [if_pos hp] at h4
      rw [← Option.some_inj.mp h4]
      exact length_above t X _ rfl
    · rw [if_neg hp] at h4
      exact Option.noConfusion h4

theorem endsOutsideWord_cases (pre : List Char) (h : endsOutsideWord pre = true) :
    pre = [] ∨ ∃ v z, pre = v ++ [z] ∧ isWordChar z = false := by
  by_cases hne : pre = []
  · exact Or.inl hne
  · right
    refine ⟨pre.dropLast, pre.getLast hne, (List.dropLast_append_getLast hne).symm, ?_⟩
    unfold endsOutsideWord at h
    rw [List.getLast?_eq_getLast _ hne] at h
    simpa using h

theorem endsWithSpace_last (v : List Char) (z : Char) (hz : isRegexSpace z = true) :
    endsWithSpace (v ++ [z]) = true := by
  unfold endsWithSpace
  rw [List.getLast?_append]
  simpa using hz

/-- C11, as the code has it: when the diff contains `type A struct` at a place
that is not preceded by a word character, for a word identifier `A` that does not
begin with `struct` in case the place is preceded by white space, and contains
`func B(` for a word identifier `B`, both `A` and `B` are among the extracted
identifiers, whatever surrounds the two texts. -/
theorem extractIdentifiers_type_func (diffOutput pre post pre2 post2 A B : List Char)
    (hA : isIdentifier A = true) (hB : isIdentifier B = true)
    (htype : diffOutput = pre ++ "type ".toList ++ A ++ " struct".toList ++ post)
    (hpre : endsOutsideWord pre = true)
    (hstruct : endsWithSpace pre = true → stringsHasPrefix A "struct".toList = false)
    (hfunc : diffOutput = pre2 ++ "func ".toList ++ B ++ "(".toList ++ post2) :
    A ∈ extractIdentifiers diffOutput ∧ B ∈ extractIdentifiers diffOutput := by
  have htype2 : diffOutput = pre ++ 't' :: 'y' :: 'p' :: 'e' :: ' ' ::
      (A ++ ' ' :: 's' :: 't' :: 'r' :: 'u' :: 'c' :: 't' :: post) := by
    rw [htype]
    simp
  have hfunc2 : diffOutput = pre2 ++ 'f' :: 'u' :: 'n' :: 'c' :: ' ' :: (B ++ '(' :: post2) := by
    rw [hfunc]
    simp
  constructor
  · have hmem : A ∈ findAllSubmatch typeRegex 0 diffOutput := by
      rw [htype2]
      apply findAllSubmatch_reach typeRegex _ A post (typeRegex_at A post hA)
        (List.cons_ne_nil _ _) pre 0 (Nat.zero_le _)
      intro a1 a2 m e hne hm
      rcases endsOutsideWord_cases pre hpre with hnil | ⟨v, z, hv, hz⟩
      · rw [hnil] at e
        have : a2 = [] := (List.append_eq_nil.mp e.symm).2
        exact absurd this hne
      · obtain ⟨v2, hv2⟩ := suffix_ends pre a2 v z hv ⟨a1, e.symm⟩ hne
        refine typeRegex_no_overlap A post a2 v2 z m hA ?_ hv2 hz hm
        intro hzs
        apply hstruct
        rw [hv]
        exact endsWithSpace_last v z hzs
    unfold extractIdentifiers
    simp only [List.mem_append]
    exact Or.inl (Or.inl (Or.inl hmem))
  · have hmem : B ∈ findAllSubmatch funcRegex 0 diffOutput := by
      rw [hfunc2]
      apply findAllSubmatch_reach funcRegex _ B post2 (funcRegex_at B post2 hB)
        (List.cons_ne_nil _ _) pre2 0 (Nat.zero_le _)
      intro a1 a2 m _ hne hm
      exact funcRegex_no_overlap B post2 a2 m hB hne hm
    unfold extractIdentifiers
    simp only [List.mem_append]
    exact Or.inl (Or.inl (Or.inr hmem))

/-- C11 at a diff with an added struct `Foo` and a removed function `Bar`. -/
theorem extractIdentifiers_type_func_witness :
    "Foo".toList ∈ extractIdentifiers sampleDiff ∧
      "Bar".toList ∈ extractIdentifiers sampleDiff :=
  extractIdentifiers_type_func sampleDiff "+".toList
    " \x7b\n-func Bar(x int) \x7b\n func (s *Server) Run() \x7b\n+var limit int\n".toList
    "+type Foo struct \x7b\n-".toList
    "x int) \x7b\n func (s *Server) Run() \x7b\n+var limit int\n".toList
    "Foo".toList "Bar".toList (by decide) (by decide) (by decide!) (by decide)
    (fun _ => by decide) (by decide!)

/-- C11 counterexample: the diff contains both `type Foo struct` and `func Bar(`,
yet `Foo` is not among the extracted identifiers, which are `Gen` and `Bar`: the
match of `typeRegex` that captures `Gen` ends inside the word `structype`, and the
matches of a pattern do not overlap. In the same way a diff that contains
`type struct struct` behind the word `type` yields `type` and not `struct`. -/
theorem extractIdentifiers_overlap :
    stringsContains overlapDiff "type Foo struct".toList = true ∧
      stringsContains overlapDiff "func Bar(".toList = true ∧
      extractIdentifiers overlapDiff = ["Gen".toList, "Bar".toList] ∧
      "Foo".toList ∉ extractIdentifiers overlapDiff ∧
      stringsContains structNameDiff "type struct struct".toList = true ∧
      stringsContains structNameDiff "func Bar(".toList = true ∧
      extractIdentifiers structNameDiff = ["type".toList, "Bar".toList] ∧
      "struct".toList ∉ extractIdentifiers structNameDiff := by
  decide!

/-! ## The brace walk of the locator -/

/-- Either no line qualifies, or there is a first line that does. -/
theorem first_qualifying (identifier : List Char) (lines : List (List Char)) :
    (∀ x ∈ lines, qualifies x identifier = false) ∨
      ∃ pre line rest, lines = pre ++ line :: rest ∧
        (∀ x ∈ pre, qualifies x identifier = false) ∧ qualifies line identifier = true := by
  induction lines with
  | nil => exact Or.inl (fun x hx => absurd hx (List.not_mem_nil _))
  | cons l t ih =>
    cases hq : qualifies l identifier with
    | true => exact Or.inr ⟨[], l, t, rfl, fun x hx => absurd hx (List.not_mem_nil _), hq⟩
    | false =>
      rcases ih with h | ⟨pre, line, rest, hl, hpre, hline⟩
      · left
        intro x hx
        rcases List.mem_cons.mp hx with e | hx2
        · rw [e]
          exact hq
        · exact h x hx2
      · right
        refine ⟨l :: pre, line, rest, by rw [hl]; rfl, ?_, hline⟩
        intro x hx
        rcases List.mem_cons.mp hx with e | hx2
        · rw [e]
          exact hq
        · exact hpre x hx2

/-- The capture loop appends the first `k` of the lines that follow, where `k` is
the least number for which the running brace count is no longer positive, or the
number of all of them when the count stays positive. -/
theorem captureLines_take (rest : List (List Char)) : ∀ n : Int,
    ∃ k, k ≤ rest.length ∧ captureLines n rest = rest.take k ∧
      (∀ j, j < k → 0 < n + ((rest.take j).map netBraces).sum) ∧
      (k = rest.length ∨ n + ((rest.take k).map netBraces).sum ≤ 0) := by
  induction rest with
  | nil =>
    intro n
    exact ⟨0, Nat.le_refl _, rfl, fun j hj => absurd hj (Nat.not_lt_zero _), Or.inl rfl⟩
  | cons l t ih =>
    intro n
    by_cases hpos : n > 0
    · obtain ⟨k, hk, htake, hrun, hstop⟩ := ih (n + netBraces l)
      refine ⟨k + 1, by simpa using hk, ?_, ?_, ?_⟩
      · simp only [captureLines, hpos, if_true, List.take_succ_cons]
        rw [htake]
      · intro j hj
        cases j with
        | zero => simpa using hpos
        | succ i =>
          have h := hrun i (by omega)
          simp only [List.take_succ_cons, List.map_cons, List.sum_cons]
          linarith
      · rcases hstop with h | h
        · left
          simp [h]
        · right
          simp only [List.take_succ_cons, List.map_cons, List.sum_cons]
          linarith
    · refine ⟨0, Nat.zero_le _, ?_, fun j hj => absurd hj (Nat.not_lt_zero _), Or.inr ?_⟩
      · simp [captureLines, hpos]
      · simp only [List.take_zero, List.map_nil, List.sum_nil]
        linarith

/-- The running brace count of the capture loop over a run of lines, in terms of the
braces of the lines: it is positive exactly when the lines hold more `{` than `}`. -/
theorem running_count_braces (line : List Char) (taken : List (List Char)) :
    (0 < netBraces line + (taken.map netBraces).sum ↔
        ((line :: taken).map (fun l => stringsCount l ['}'])).sum <
          ((line :: taken).map (fun l => stringsCount l ['{'])).sum) ∧
      (netBraces line + (taken.map netBraces).sum ≤ 0 ↔
        ((line :: taken).map (fun l => stringsCount l ['{'])).sum ≤
          ((line :: taken).map (fun l => stringsCount l ['}'])).sum) := by
  have h := netBraces_sum (line :: taken)
  simp only [List.map_cons, List.sum_cons] at h ⊢
  rw [h]
  constructor <;> constructor <;> intro h1 <;> omega

/-- C21: for a readable file, `findDefinitionInFile` always returns. Either no line
qualifies and it returns the error `definition not found`, or it returns the
definition found at the first qualifying line: the content is that line and the
`k` lines after it, joined by newlines. For every `j` below `k` the matching line
and the `j` lines after it hold more `{` than `}` (the running net brace count is
positive), and the matching line and the `k` lines after it hold no more `{` than `}`
(the count is not positive), unless they run to the last line of the file. The lines
scanned and the lines captured are consecutive parts of the file, so no line is
visited twice. -/
theorem findDefinitionInFile_brace_walk (readFile : List Char → Option (List Char))
    (filePath identifier content : List Char) (hread : readFile filePath = some content) :
    (findDefinitionInFile readFile filePath identifier =
          Except.error LookupError.definitionNotFound ∧
        ∀ x ∈ stringsSplit content ['\n'], qualifies x identifier = false) ∨
      ∃ pre line rest k d,
        stringsSplit content ['\n'] = pre ++ line :: rest ∧
        (∀ x ∈ pre, qualifies x identifier = false) ∧ qualifies line identifier = true ∧
        findDefinitionInFile readFile filePath identifier = Except.ok d ∧
        k ≤ rest.length ∧
        d.Content = stringsJoin (line :: rest.take k) ['\n'] ∧
        (∀ j, j < k →
          ((line :: rest.take j).map (fun l => stringsCount l ['}'])).sum <
            ((line :: rest.take j).map (fun l => stringsCount l ['{'])).sum) ∧
        (k = rest.length ∨
          ((line :: rest.take k).map (fun l => stringsCount l ['{'])).sum ≤
            ((line :: rest.take k).map (fun l => stringsCount l ['}'])).sum) ∧
        (k = rest.length ∨
          stringsCount d.Content ['{'] ≤ stringsCount d.Content ['}']) ∧
        pre.length + 1 + k ≤ (stringsSplit content ['\n']).length := by
  have hfind : findDefinitionInFile readFile filePath identifier =
      scanLines filePath identifier (stringsSplit content ['\n']) := by
    simp only [findDefinitionInFile, hread]
  rcases first_qualifying identifier (stringsSplit content ['\n']) with
    hnone | ⟨pre, line, rest, hl, hpre, hline⟩
  · left
    exact ⟨by rw [hfind]; exact (scanLines_not_found_iff _ _ _).2 hnone, hnone⟩
  · right
    obtain ⟨k, hk, htake, hrun, hstop⟩ := captureLines_take rest (netBraces line)
    have hstop2 : k = rest.length ∨
        ((line :: rest.take k).map (fun l => stringsCount l ['{'])).sum ≤
          ((line :: rest.take k).map (fun l => stringsCount l ['}'])).sum := by
      rcases hstop with h | h
      · exact Or.inl h
      · exact Or.inr ((running_count_braces line (rest.take k)).2.1 h)
    have hcontent : (captureDefinition
        (if isStructHeader line identifier then "struct".toList else "function".toList)
        filePath identifier line rest).Content = stringsJoin (line :: rest.take k) ['\n'] := by
      show stringsJoin (line :: captureLines (netBraces line) rest) ['\n'] = _
      rw [htake]
    refine ⟨pre, line, rest, k,
      captureDefinition
        (if isStructHeader line identifier then "struct".toList else "function".toList)
        filePath identifier line rest,
      hl, hpre, hline, ?_, hk, hcontent, ?_, hstop2, ?_, ?_⟩
    · rw [hfind, hl]
      exact scanLines_first filePath identifier line pre rest hpre hline
    · intro j hj
      exact (running_count_braces line (rest.take j)).1.1 (hrun j hj)
    · rcases hstop2 with h | h
      · exact Or.inl h
      · right
        rw [hcontent, stringsCount_join_lines ['{'] (by simp) (by decide),
          stringsCount_join_lines ['}'] (by simp) (by decide)]
        exact h
    · rw [hl]
      simp only [List.length_append, List.length_cons]
      omega

/-- C21 at a file in which the struct `Job` is declared twice in `a.go`: the first
declaration is found and its two lines are returned. -/
theorem findDefinitionInFile_brace_walk_witness :
    (findDefinitionInFile twoFiles "a.go".toList "Job".toList =
          Except.error LookupError.definitionNotFound ∧
        ∀ x ∈ stringsSplit
            "// Job\ntype Job struct \x7b\n\x7d\ntype Job struct \x7b\n\tN int\n\x7d".toList ['\n'],
          qualifies x "Job".toList = false) ∨
      ∃ pre line rest k d,
        stringsSplit
            "// Job\ntype Job struct \x7b\n\x7d\ntype Job struct \x7b\n\tN int\n\x7d".toList ['\n'] =
          pre ++ line :: rest ∧
        (∀ x ∈ pre, qualifies x "Job".toList = false) ∧ qualifies line "Job".toList = true ∧
        findDefinitionInFile twoFiles "a.go".toList "Job".toList = Except.ok d ∧
        k ≤ rest.length ∧
        d.Content = stringsJoin (line :: rest.take k) ['\n'] ∧
        (∀ j, j < k →
          ((line :: rest.take j).map (fun l => stringsCount l ['}'])).sum <
            ((line :: rest.take j).map (fun l => stringsCount l ['{'])).sum) ∧
        (k = rest.length ∨
          ((line :: rest.take k).map (fun l => stringsCount l ['{'])).sum ≤
            ((line :: rest.take k).map (fun l => stringsCount l ['}'])).sum) ∧
        (k = rest.length ∨
          stringsCount d.Content ['{'] ≤ stringsCount d.Content ['}']) ∧
        pre.length + 1 + k ≤
          (stringsSplit
            "// Job\ntype Job struct \x7b\n\x7d\ntype Job struct \x7b\n\tN int\n\x7d".toList
            ['\n']).length :=
  findDefinitionInFile_brace_walk twoFiles "a.go".toList "Job".toList
    "// Job\ntype Job struct \x7b\n\x7d\ntype Job struct \x7b\n\tN int\n\x7d".toList rfl

/-- The walk at the struct `Job` of `a.go`: the span found is the first declaration,
`type Job struct {` and the closing brace after it. -/
theorem findDefinitionInFile_brace_walk_sample :
    (findDefinitionInFile twoFiles "a.go".toList "Job".toList).map (fun d => d.Content) =
      Except.ok "type Job struct \x7b\n\x7d".toList := by
  decide!

/-! ## The path of the bundle -/

theorem splitFrom_ne_nil (sep : List Char) (skip : Nat) (cur s : List Char) :
    splitFrom sep skip cur s ≠ [] := by
  induction s generalizing skip cur with
  | nil => cases skip <;> simp [splitFrom]
  | cons c t ih =>
    cases skip with
    | succ n =>
      rw [splitFrom]
      exact ih n cur
    | zero =>
      rw [splitFrom]
      by_cases h : sep.isPrefixOf (c :: t) = true
      · rw [if_pos h]
        exact List.cons_ne_nil _ _
      · rw [if_neg h]
        exact ih 0 (c :: cur)

theorem stringsJoin_cons_ne_nil (a sep : List Char) (l : List (List Char)) (h : l ≠ []) :
    stringsJoin (a :: l) sep = a ++ sep ++ stringsJoin l sep := by
  cases l with
  | nil => exact absurd rfl h
  | cons b rest => rw [stringsJoin]

/-- Replacing a single character by a single character acts character by
character. -/
theorem splitFrom_join_char (d e : Char) (s cur : List Char) :
    stringsJoin (splitFrom [d] 0 cur s) [e] =
      cur.reverse ++ s.map (fun c => if c = d then e else c) := by
  induction s generalizing cur with
  | nil => simp [splitFrom, stringsJoin]
  | cons c t ih =>
    rw [splitFrom]
    by_cases h : c = d
    · have hp : [d].isPrefixOf (c :: t) = true := by simp [List.isPrefixOf, h]
      rw [if_pos hp]
      have hskip : [d].length - 1 = 0 := rfl
      rw [hskip, stringsJoin_cons_ne_nil _ _ _ (splitFrom_ne_nil _ _ _ _), ih []]
      simp [h]
    · have hp : ¬ [d].isPrefixOf (c :: t) = true := by
        simp only [List.isPrefixOf, Bool.and_eq_true, beq_iff_eq, Bool.and_true]
        intro e2
        exact h e2.symm
      rw [if_neg hp, ih (c :: cur)]
      simp [h]

theorem stringsReplaceAll_char (d e : Char) (s : List Char) :
    stringsReplaceAll s [d] [e] = s.map (fun c => if c = d then e else c) := by
  unfold stringsReplaceAll stringsSplit
  have h1 : ([d] : List Char).isEmpty = false := rfl
  simp only [h1, Bool.false_eq_true, if_false]
  rw [splitFrom_join_char]
  rfl

/-- On a text without the characters that only `sanitizeFilename` replaces, it does
what the replacement of slashes does. -/
theorem sanitizeFilename_eq_replace (s : List Char) (h : ∀ c ∈ s, onlySanitized c = false) :
    sanitizeFilename s = stringsReplaceAll s "/".toList "_".toList := by
  have hr := stringsReplaceAll_char '/' '_' s
  rw [show ("/".toList : List Char) = ['/'] from rfl, show ("_".toList : List Char) = ['_'] from rfl,
    hr]
  unfold sanitizeFilename
  apply List.map_congr_left
  intro c hc
  have hs := h c hc
  simp only [onlySanitized, Bool.or_eq_false_iff, decide_eq_false_iff_not] at hs
  obtain ⟨⟨⟨⟨⟨⟨⟨⟨h1, h2⟩, h3⟩, h4⟩, h5⟩, h6⟩, h7⟩, h8⟩, h9⟩ := hs
  by_cases hsl : c = '/'
  · simp [hsl]
  · simp [hsl, h1, h2, h3, h4, h5, h6, h7, h8, h9]

/-- The two sides build the same path when the timestamps agree, the repository
name holds no dot, and none of the three names holds a character that only
`sanitizeFilename` replaces. -/
theorem diffFile_eq_filename (fullRepo sourceBranch destBranch timestamp : List Char)
    (hdot : '.' ∉ fullRepo)
    (hrepo : ∀ c ∈ fullRepo, onlySanitized c = false)
    (hsource : ∀ c ∈ sourceBranch, onlySanitized c = false)
    (hdest : ∀ c ∈ destBranch, onlySanitized c = false) :
    diffFile fullRepo sourceBranch destBranch timestamp =
      filename fullRepo sourceBranch destBranch timestamp := by
  unfold diffFile filename
  rw [sanitizeFilename_eq_replace fullRepo hrepo, sanitizeFilename_eq_replace sourceBranch hsource,
    sanitizeFilename_eq_replace destBranch hdest]
  have hnodot : stringsReplaceAll (stringsReplaceAll fullRepo "/".toList "_".toList)
      ".".toList "_".toList = stringsReplaceAll fullRepo "/".toList "_".toList := by
    rw [show ("/".toList : List Char) = ['/'] from rfl,
      show ("_".toList : List Char) = ['_'] from rfl,
      show (".".toList : List Char) = ['.'] from rfl,
      stringsReplaceAll_char, stringsReplaceAll_char, List.map_map]
    apply List.map_congr_left
    intro c hc
    have hcd : c ≠ '.' := fun e => hdot (e ▸ hc)
    by_cases hsl : c = '/'
    · simp [hsl]
    · simp [hsl, hcd]
  rw [hnodot]

/-- C22, failing input: for the repository `acme/my.app`, the branches `dev` and
`main` and one and the same timestamp, `writeDiffToFile` writes the bundle to
`diffs/acme_my.app_dev_to_main_2025-01-01_00-00-00.txt`, while `webhookHandler` reads
`diffs/acme_my_app_dev_to_main_2025-01-01_00-00-00.txt`: the reader replaces the dot
of the repository name and the writer does not. In the other direction, the writer
replaces the quotation mark of the branch `fix"a` and the reader does not. -/
theorem diffFile_ne_filename :
    filename "acme/my.app".toList "dev".toList "main".toList "2025-01-01_00-00-00".toList =
        "diffs/acme_my.app_dev_to_main_2025-01-01_00-00-00.txt".toList ∧
      diffFile "acme/my.app".toList "dev".toList "main".toList "2025-01-01_00-00-00".toList =
        "diffs/acme_my_app_dev_to_main_2025-01-01_00-00-00.txt".toList ∧
      diffFile "acme/my.app".toList "dev".toList "main".toList "2025-01-01_00-00-00".toList ≠
        filename "acme/my.app".toList "dev".toList "main".toList "2025-01-01_00-00-00".toList ∧
      diffFile "acme/app".toList "fix\"a".toList "main".toList "2025-01-01_00-00-00".toList ≠
        filename "acme/app".toList "fix\"a".toList "main".toList "2025-01-01_00-00-00".toList := by
  decide!

/-! ## The list of changed files -/

theorem splitFrom_length (sep : List Char) (s : List Char) (skip : Nat) (cur : List Char) :
    (splitFrom sep skip cur s).length = countFrom sep skip s + 1 := by
  induction s generalizing skip cur with
  | nil => cases skip <;> simp [splitFrom, countFrom]
  | cons c t ih =>
    cases skip with
    | succ n =>
      rw [splitFrom, countFrom]
      exact ih n cur
    | zero =>
      rw [splitFrom, countFrom]
      by_cases h : sep.isPrefixOf (c :: t) = true
      · rw [if_pos h, if_pos h, List.length_cons, ih]
        omega
      · rw [if_neg h, if_neg h]
        exact ih 0 (c :: cur)

/-- The split on a newline has one more piece than the text has newlines. -/
theorem stringsSplit_length (s : List Char) :
    (stringsSplit s ['\n']).length = stringsCount s ['\n'] + 1 := by
  unfold stringsSplit stringsCount
  have h1 : (['\n'] : List Char).isEmpty = false := rfl
  simp only [h1, Bool.false_eq_true, if_false]
  exact splitFrom_length _ _ _ _

theorem stringsTrimSpace_blank (s : List Char) (h : ∀ c ∈ s, isUnicodeSpace c = true) :
    stringsTrimSpace s = [] := by
  unfold stringsTrimSpace
  rw [List.dropWhile_eq_nil_iff.mpr h]
  rfl

/-- The summary for the single changed file with the empty path. -/
theorem generatePRDescription_empty_path
    (rangeOrder : List (List Char × Nat) → List (List Char × Nat))
    (hperm : ∀ m, (rangeOrder m).Perm m) (repoPath diffOutput : List Char) :
    (generatePRDescription rangeOrder repoPath [[]] diffOutput).Summary =
      "This PR includes changes to 1 other files.".toList := by
  have htypes : fileTypes [[]] = [("other".toList, 1)] := by decide
  have horder : rangeOrder [("other".toList, 1)] = [("other".toList, 1)] :=
    List.perm_singleton.mp (hperm _)
  show "This PR includes changes to ".toList ++
      (if (fileTypes [[]]).length = 0 then "configuration or documentation".toList
       else summaryItems (fileTypes [[]]).length 0 (rangeOrder (fileTypes [[]]))) ++
      ".".toList = _
  rw [htypes, horder]
  decide!

/-- C23: `getChangedFiles` returns the output of the listing, trimmed of white
space and split on newlines, so the number of paths is one more than the number of
newlines of the trimmed text. An empty output, or one of white space only, gives the
list whose single path is empty, and not the empty list; on that list
`generatePRDescription` writes the summary `This PR includes changes to 1 other
files.` and not the sentence it writes for the empty list. -/
theorem getChangedFiles_split (rangeOrder : List (List Char × Nat) → List (List Char × Nat))
    (hperm : ∀ m, (rangeOrder m).Perm m) (output repoPath diffOutput : List Char) :
    getChangedFiles (some output) = some (stringsSplit (stringsTrimSpace output) ['\n']) ∧
      (stringsSplit (stringsTrimSpace output) ['\n']).length =
        stringsCount (stringsTrimSpace output) ['\n'] + 1 ∧
      ((∀ c ∈ output, isUnicodeSpace c = true) →
        getChangedFiles (some output) = some [[]] ∧ getChangedFiles (some output) ≠ some []) ∧
      (generatePRDescription rangeOrder repoPath [[]] diffOutput).Summary =
        "This PR includes changes to 1 other files.".toList ∧
      (generatePRDescription rangeOrder repoPath [[]] diffOutput).Summary ≠
        (generatePRDescription rangeOrder repoPath [] diffOutput).Summary := by
  have hsum := generatePRDescription_empty_path rangeOrder hperm repoPath diffOutput
  refine ⟨rfl, stringsSplit_length _, ?_, hsum, ?_⟩
  · intro hblank
    have h : getChangedFiles (some output) = some [[]] := by
      show some (stringsSplit (stringsTrimSpace output) ['\n']) = some [[]]
      rw [stringsTrimSpace_blank output hblank]
      rfl
    refine ⟨h, ?_⟩
    rw [h]
    decide
  · rw [hsum]
    show _ ≠ "This PR includes changes to ".toList ++
      "configuration or documentation".toList ++ ".".toList
    decide!

/-- C23 at an output that holds a newline between two blanks. -/
theorem getChangedFiles_split_witness :
    getChangedFiles (some " \n ".toList) =
        some (stringsSplit (stringsTrimSpace " \n ".toList) ['\n']) ∧
      (stringsSplit (stringsTrimSpace " \n ".toList) ['\n']).length =
        stringsCount (stringsTrimSpace " \n ".toList) ['\n'] + 1 ∧
      ((∀ c ∈ " \n ".toList, isUnicodeSpace c = true) →
        getChangedFiles (some " \n ".toList) = some [[]] ∧
          getChangedFiles (some " \n ".toList) ≠ some []) ∧
      (generatePRDescription id [] [[]] []).Summary =
        "This PR includes changes to 1 other files.".toList ∧
      (generatePRDescription id [] [[]] []).Summary ≠
        (generatePRDescription id [] [] []).Summary :=
  getChangedFiles_split id (fun m => List.Perm.refl m) " \n ".toList [] []

/-- The listing of two changed files, and the empty listing. -/
theorem getChangedFiles_samples :
    getChangedFiles (some "a.go\nb/c.go\n".toList) = some ["a.go".toList, "b/c.go".toList] ∧
      getChangedFiles (some []) = some [[]] ∧ getChangedFiles none = none := by
  decide

end BitbucketWebhook
